import Mathlib

/-!
# HR backend: document lifecycle consistency

A shallow embedding of the keyed lock registry (`internal/utils/locks.go`) and of the
document handler (`internal/interfaces/handlers/document.go`) together with the use cases
and value objects it calls, followed by the properties of the specification that were
checked against them.
-/

set_option linter.unusedVariables false

/-! ## `internal/utils/locks.go` -/

namespace Utils

/-- The `entry` struct: `mu` is `true` while the mutex is held, `refs` is the reference
count (an `int64` in the source; it never leaves the range of the number of callers). -/
structure entry where
  mu : Bool
  refs : Int
  deriving DecidableEq, Repr

/-- The `KeyedLocker` registry. `heap` holds every `entry` ever allocated (an `*entry` is an
index into it) and `m` is the `sync.Map` from key to `*entry`. -/
structure KeyedLocker where
  heap : List entry
  m : List (String × Nat)
  deriving DecidableEq, Repr

/-- Go `NewKeyedLocker()`: an empty registry. -/
def NewKeyedLocker : KeyedLocker := ⟨[], []⟩

/-- Go `k.m.LoadOrStore(key, &entry{})`: the stored pointer when the key is present, otherwise a
fresh zero entry is stored and returned (the entry Go allocates for the argument and drops
when the key is present is not kept in `heap`). -/
def KeyedLocker.LoadOrStore (k : KeyedLocker) (key : String) : KeyedLocker × Nat :=
  match k.m.lookup key with
  | some p => (k, p)
  | none => (⟨k.heap ++ [⟨false, 0⟩], k.m ++ [(key, k.heap.length)]⟩, k.heap.length)

/-- Go `atomic.AddInt64(&e.refs, delta)`: adds and returns the new value. -/
def KeyedLocker.AddInt64 (k : KeyedLocker) (e : Nat) (delta : Int) : KeyedLocker × Int :=
  match k.heap[e]? with
  | some x => (⟨k.heap.set e ⟨x.mu, x.refs + delta⟩, k.m⟩, x.refs + delta)
  | none => (k, 0)

/-- Go `e.mu.Lock()`: enabled only while the mutex is free (`none` = the caller blocks). -/
def KeyedLocker.muLock (k : KeyedLocker) (e : Nat) : Option KeyedLocker :=
  match k.heap[e]? with
  | some x => if x.mu then none else some ⟨k.heap.set e ⟨true, x.refs⟩, k.m⟩
  | none => none

/-- Go `e.mu.Unlock()`. -/
def KeyedLocker.muUnlock (k : KeyedLocker) (e : Nat) : KeyedLocker :=
  match k.heap[e]? with
  | some x => ⟨k.heap.set e ⟨false, x.refs⟩, k.m⟩
  | none => k

/-- Go `k.m.Delete(key)`. -/
def KeyedLocker.mapDelete (k : KeyedLocker) (key : String) : KeyedLocker :=
  ⟨k.heap, k.m.filter (fun kv => kv.1 != key)⟩

/-- Go `Lock(key)` run without interruption: `LoadOrStore`, increment, `mu.Lock`. The result is
the registry and the `*entry` captured by the returned closure; `none` when the caller would
block on the mutex. -/
def KeyedLocker.Lock (k : KeyedLocker) (key : String) : Option (KeyedLocker × Nat) :=
  let (k1, e) := k.LoadOrStore key
  let (k2, _) := k1.AddInt64 e 1
  (k2.muLock e).map (fun k3 => (k3, e))

/-- The closure returned by `Lock(key)` (it captured `key` and `e`), run without
interruption: `mu.Unlock`, decrement, and `Delete(key)` when the count reached zero. -/
def KeyedLocker.unlock (k : KeyedLocker) (key : String) (e : Nat) : KeyedLocker :=
  let k1 := k.muUnlock e
  let (k2, n) := k1.AddInt64 e (-1)
  if n = 0 then k2.mapDelete key else k2

/-! ### Interleaved execution of `Lock` and of the returned closure -/

/-- Program counter of one caller of `Lock(key)` followed by one call of the closure. -/
inductive PC where
  /-- before `LoadOrStore` -/
  | start
  /-- after `LoadOrStore`, before `atomic.AddInt64(&e.refs, 1)` -/
  | loaded (e : Nat)
  /-- after the increment, before `e.mu.Lock()` returned -/
  | counted (e : Nat)
  /-- after `Lock` has returned and before the closure is called: inside the critical section -/
  | holding (e : Nat)
  /-- the closure ran `e.mu.Unlock()`, before `atomic.AddInt64(&e.refs, -1)` -/
  | released (e : Nat)
  /-- the decrement returned 0, before `k.m.Delete(key)` -/
  | deleting
  /-- the closure has returned -/
  | done
  deriving DecidableEq, Repr

/-- One goroutine calling `Lock(key)` and then the closure. -/
structure Goroutine where
  key : String
  pc : PC
  deriving DecidableEq, Repr

/-- The registry shared by the goroutines. -/
structure Sys where
  reg : KeyedLocker
  gs : List Goroutine
  deriving DecidableEq, Repr

/-- One atomic action of goroutine `g`: the new registry and program counter, or `none`
when the goroutine cannot move (blocked on the mutex, or finished). -/
def stepG (k : KeyedLocker) (g : Goroutine) : Option (KeyedLocker × Goroutine) :=
  match g.pc with
  | .start => let (k1, e) := k.LoadOrStore g.key; some (k1, ⟨g.key, .loaded e⟩)
  | .loaded e => some ((k.AddInt64 e 1).1, ⟨g.key, .counted e⟩)
  | .counted e => (k.muLock e).map (fun k1 => (k1, ⟨g.key, .holding e⟩))
  | .holding e => some (k.muUnlock e, ⟨g.key, .released e⟩)
  | .released e =>
      let (k1, n) := k.AddInt64 e (-1)
      some (k1, ⟨g.key, if n = 0 then .deleting else .done⟩)
  | .deleting => some (k.mapDelete g.key, ⟨g.key, .done⟩)
  | .done => none

/-- The scheduler lets goroutine number `i` perform its next atomic action. -/
def step (s : Sys) (i : Nat) : Option Sys :=
  match s.gs[i]? with
  | none => none
  | some g => (stepG s.reg g).map (fun r => ⟨r.1, s.gs.set i r.2⟩)

/-- Runs a schedule (the list of goroutine numbers in the order they move). -/
def runSchedule : List Nat → Sys → Option Sys
  | [], s => some s
  | i :: rest, s => (step s i).bind (runSchedule rest)

/-- Number of goroutines that are between a returned `Lock(key)` and the call of its
closure. -/
def holders (s : Sys) (key : String) : Nat :=
  (s.gs.filter (fun g => g.key == key && (match g.pc with | .holding _ => true | _ => false))).length

/-- Goroutines, one for each key of the list, about to call `Lock(key)` on a fresh registry. -/
def initSys (keys : List String) : Sys :=
  ⟨NewKeyedLocker, keys.map (fun key => ⟨key, .start⟩)⟩

/-! ### Sequential use: complete `Lock` calls and complete closure calls -/

/-- A complete call: `Lock(key)`, or the closure that `Lock(key)` returned. -/
inductive Ev where
  | lock (key : String)
  | unlock (key : String)
  deriving DecidableEq, Repr

/-- Runs a sequence of complete calls. The second component holds the closures that were
returned and not yet called, as (key, captured entry). `none` when a `Lock` would block or
a closure is called that was never returned. -/
def runEvs : List Ev → KeyedLocker × List (String × Nat) → Option (KeyedLocker × List (String × Nat))
  | [], s => some s
  | .lock key :: rest, (k, held) =>
      match k.Lock key with
      | none => none
      | some (k1, e) => runEvs rest (k1, held ++ [(key, e)])
  | .unlock key :: rest, (k, held) =>
      match held.lookup key with
      | none => none
      | some e => runEvs rest (k.unlock key e, held.filter (fun kv => kv.1 != key))

/-- The sequence locks each key at most once, calls a closure only after the `Lock` that
returned it and at most once, and leaves no closure uncalled. `used` are the keys locked so
far, `open_` those whose closure is outstanding. -/
def wellFormed : List Ev → List String → List String → Bool
  | [], _, open_ => open_.isEmpty
  | .lock key :: rest, used, open_ =>
      !used.contains key && wellFormed rest (key :: used) (key :: open_)
  | .unlock key :: rest, used, open_ =>
      open_.contains key && wellFormed rest used (open_.filter (fun x => x != key))

end Utils

/-! ## Go library functions used by the handler

`strings`, `path/filepath` and `time` functions, written over the list of characters of a
string. -/

namespace Go

/-- Go `unicode.IsSpace`. -/
def isSpace (c : Char) : Bool :=
  c == ' ' || (9 ≤ c.val && c.val ≤ 13) || c.val == 0x85 || c.val == 0xA0 || c.val == 0x1680 ||
  (0x2000 ≤ c.val && c.val ≤ 0x200A) || c.val == 0x2028 || c.val == 0x2029 ||
  c.val == 0x202F || c.val == 0x205F || c.val == 0x3000

/-- Go `strings.TrimSpace`. -/
def TrimSpace (s : String) : String :=
  ⟨((s.data.dropWhile isSpace).reverse.dropWhile isSpace).reverse⟩

/-- The upper-case runes above ASCII with their lower-case counterparts, as ranges
`(lo, hi, step, target)`: every `step`-th rune from `lo` to `hi` has a lower-case
counterpart, which is `target` plus the distance of the rune from `lo`. These are the simple
lower-case mappings of the Unicode Character Database (version 14.0), which Go keeps in
`unicode.CaseRanges`. -/
def lowerRanges : List (Nat × Nat × Nat × Nat) :=
  [(192, 214, 1, 224), (216, 222, 1, 248), (256, 302, 2, 257), (304, 304, 1, 105),
   (306, 310, 2, 307), (313, 327, 2, 314), (330, 374, 2, 331), (376, 376, 1, 255),
   (377, 381, 2, 378), (385, 385, 1, 595), (386, 388, 2, 387), (390, 390, 1, 596),
   (391, 391, 1, 392), (393, 394, 1, 598), (395, 395, 1, 396), (398, 398, 1, 477),
   (399, 399, 1, 601), (400, 400, 1, 603), (401, 401, 1, 402), (403, 403, 1, 608),
   (404, 404, 1, 611), (406, 406, 1, 617), (407, 407, 1, 616), (408, 408, 1, 409),
   (412, 412, 1, 623), (413, 413, 1, 626), (415, 415, 1, 629), (416, 420, 2, 417),
   (422, 422, 1, 640), (423, 423, 1, 424), (425, 425, 1, 643), (428, 428, 1, 429),
   (430, 430, 1, 648), (431, 431, 1, 432), (433, 434, 1, 650), (435, 437, 2, 436),
   (439, 439, 1, 658), (440, 440, 1, 441), (444, 444, 1, 445), (452, 452, 1, 454),
   (453, 453, 1, 454), (455, 455, 1, 457), (456, 456, 1, 457), (458, 458, 1, 460),
   (459, 475, 2, 460), (478, 494, 2, 479), (497, 497, 1, 499), (498, 500, 2, 499),
   (502, 502, 1, 405), (503, 503, 1, 447), (504, 542, 2, 505), (544, 544, 1, 414),
   (546, 562, 2, 547), (570, 570, 1, 11365), (571, 571, 1, 572), (573, 573, 1, 410),
   (574, 574, 1, 11366), (577, 577, 1, 578), (579, 579, 1, 384), (580, 580, 1, 649),
   (581, 581, 1, 652), (582, 590, 2, 583), (880, 882, 2, 881), (886, 886, 1, 887),
   (895, 895, 1, 1011), (902, 902, 1, 940), (904, 906, 1, 941), (908, 908, 1, 972),
   (910, 911, 1, 973), (913, 929, 1, 945), (931, 939, 1, 963), (975, 975, 1, 983),
   (984, 1006, 2, 985), (1012, 1012, 1, 952), (1015, 1015, 1, 1016), (1017, 1017, 1, 1010),
   (1018, 1018, 1, 1019), (1021, 1023, 1, 891), (1024, 1039, 1, 1104), (1040, 1071, 1, 1072),
   (1120, 1152, 2, 1121), (1162, 1214, 2, 1163), (1216, 1216, 1, 1231), (1217, 1229, 2, 1218),
   (1232, 1326, 2, 1233), (1329, 1366, 1, 1377), (4256, 4293, 1, 11520), (4295, 4295, 1, 11559),
   (4301, 4301, 1, 11565), (5024, 5103, 1, 43888), (5104, 5109, 1, 5112), (7312, 7354, 1, 4304),
   (7357, 7359, 1, 4349), (7680, 7828, 2, 7681), (7838, 7838, 1, 223), (7840, 7934, 2, 7841),
   (7944, 7951, 1, 7936), (7960, 7965, 1, 7952), (7976, 7983, 1, 7968), (7992, 7999, 1, 7984),
   (8008, 8013, 1, 8000), (8025, 8031, 2, 8017), (8040, 8047, 1, 8032), (8072, 8079, 1, 8064),
   (8088, 8095, 1, 8080), (8104, 8111, 1, 8096), (8120, 8121, 1, 8112), (8122, 8123, 1, 8048),
   (8124, 8124, 1, 8115), (8136, 8139, 1, 8050), (8140, 8140, 1, 8131), (8152, 8153, 1, 8144),
   (8154, 8155, 1, 8054), (8168, 8169, 1, 8160), (8170, 8171, 1, 8058), (8172, 8172, 1, 8165),
   (8184, 8185, 1, 8056), (8186, 8187, 1, 8060), (8188, 8188, 1, 8179), (8486, 8486, 1, 969),
   (8490, 8490, 1, 107), (8491, 8491, 1, 229), (8498, 8498, 1, 8526), (8544, 8559, 1, 8560),
   (8579, 8579, 1, 8580), (9398, 9423, 1, 9424), (11264, 11311, 1, 11312),
   (11360, 11360, 1, 11361), (11362, 11362, 1, 619), (11363, 11363, 1, 7549),
   (11364, 11364, 1, 637), (11367, 11371, 2, 11368), (11373, 11373, 1, 593),
   (11374, 11374, 1, 625), (11375, 11375, 1, 592), (11376, 11376, 1, 594),
   (11378, 11378, 1, 11379), (11381, 11381, 1, 11382), (11390, 11391, 1, 575),
   (11392, 11490, 2, 11393), (11499, 11501, 2, 11500), (11506, 11506, 1, 11507),
   (42560, 42604, 2, 42561), (42624, 42650, 2, 42625), (42786, 42798, 2, 42787),
   (42802, 42862, 2, 42803), (42873, 42875, 2, 42874), (42877, 42877, 1, 7545),
   (42878, 42886, 2, 42879), (42891, 42891, 1, 42892), (42893, 42893, 1, 613),
   (42896, 42898, 2, 42897), (42902, 42920, 2, 42903), (42922, 42922, 1, 614),
   (42923, 42923, 1, 604), (42924, 42924, 1, 609), (42925, 42925, 1, 620),
   (42926, 42926, 1, 618), (42928, 42928, 1, 670), (42929, 42929, 1, 647),
   (42930, 42930, 1, 669), (42931, 42931, 1, 43859), (42932, 42946, 2, 42933),
   (42948, 42948, 1, 42900), (42949, 42949, 1, 642), (42950, 42950, 1, 7566),
   (42951, 42953, 2, 42952), (42960, 42960, 1, 42961), (42966, 42968, 2, 42967),
   (42997, 42997, 1, 42998), (65313, 65338, 1, 65345), (66560, 66599, 1, 66600),
   (66736, 66771, 1, 66776), (66928, 66938, 1, 66967), (66940, 66954, 1, 66979),
   (66956, 66962, 1, 66995), (66964, 66965, 1, 67003), (68736, 68786, 1, 68800),
   (71840, 71871, 1, 71872), (93760, 93791, 1, 93792), (125184, 125217, 1, 125218)]

/-- Go `unicode.ToLower`: `A`..`Z` in ASCII, the table above elsewhere. -/
def unicodeToLower (c : Char) : Char :=
  if c.toNat < 128 then c.toLower
  else
    match lowerRanges.find? (fun r =>
        decide (r.1 ≤ c.toNat) && decide (c.toNat ≤ r.2.1) && (c.toNat - r.1) % r.2.2.1 == 0) with
    | some r => Char.ofNat (r.2.2.2 + (c.toNat - r.1))
    | none => c

/-- Go `strings.ToLower`: every rune is replaced by its lower-case counterpart. -/
def ToLower (s : String) : String :=
  ⟨s.data.map unicodeToLower⟩

/-- Go `strings.TrimSuffix`. -/
def TrimSuffix (s suffix : String) : String :=
  if suffix.data.isSuffixOf s.data then ⟨s.data.take (s.data.length - suffix.data.length)⟩ else s

/-- Go `strings.TrimPrefix`. -/
def TrimPrefix (s pre : String) : String :=
  if pre.data.isPrefixOf s.data then ⟨s.data.drop pre.data.length⟩ else s

/-- Go `strings.Contains`. -/
def Contains (s sub : String) : Bool :=
  s.data.tails.any (fun t => sub.data.isPrefixOf t)

/-- Go `strings.ReplaceAll(s, " ", "_")`. -/
def replaceSpaces (l : List Char) : List Char :=
  l.map (fun c => if c == ' ' then '_' else c)

/-- Go `strings.ReplaceAll(s, "..", ".")`: non-overlapping occurrences, left to right. -/
def replaceDotDot : List Char → List Char
  | '.' :: '.' :: rest => '.' :: replaceDotDot rest
  | c :: rest => c :: replaceDotDot rest
  | [] => []

/-- Go `filepath.Ext`: the suffix starting at the last dot of the last path element, scanning
backwards and stopping at a separator; empty when there is no dot. The argument of the
helper is the reversed path and `acc` the characters already passed. -/
def extRev : List Char → List Char → List Char
  | [], _ => []
  | c :: rest, acc =>
    if c == '/' then [] else if c == '.' then c :: acc else extRev rest (c :: acc)

/-- Go `filepath.Ext`. -/
def Ext (path : String) : String :=
  ⟨extRev path.data.reverse []⟩

/-- Go `filepath.Base`: the last element of the path, after removing trailing slashes; `"."`
for the empty path and `"/"` for a path of slashes only. -/
def Base (path : String) : String :=
  if path.data = [] then "."
  else
    let r := path.data.reverse.dropWhile (fun c => c == '/')
    if r = [] then "/" else ⟨(r.takeWhile (fun c => c != '/')).reverse⟩

/-- An instant in UTC, as the fields `time.Now().UTC().Format` prints. -/
structure Instant where
  year : Nat
  month : Nat
  day : Nat
  hour : Nat
  minute : Nat
  second : Nat
  deriving DecidableEq, Repr

/-- One decimal digit. -/
def digit (n : Nat) : Char := Char.ofNat (48 + n % 10)

/-- Two digits, zero padded. -/
def pad2 (n : Nat) : List Char := [digit (n / 10), digit n]

/-- Go `t.Format("20060102T150405Z")`. -/
def Instant.Format (t : Instant) : String :=
  ⟨[digit (t.year / 1000), digit (t.year / 100), digit (t.year / 10), digit t.year] ++
    pad2 t.month ++ pad2 t.day ++ ['T'] ++ pad2 t.hour ++ pad2 t.minute ++ pad2 t.second ++ ['Z']⟩

/-- The number a string of decimal digits denotes. -/
def decimalValue (l : List Char) : Nat :=
  l.foldl (fun acc c => 10 * acc + (c.toNat - 48)) 0

/-- Go `error` values as far as the handler tells them apart: the sentinel `sql.ErrNoRows`,
an error with a given text, and `fmt.Errorf(pfx + "%w", e)`. -/
inductive Err where
  | ErrNoRows
  | msg (text : String)
  | wrap (pfx : String) (e : Err)
  deriving DecidableEq, Repr

/-- Go `err.Error()`. -/
def Err.Error : Err → String
  | .ErrNoRows => "sql: no rows in result set"
  | .msg text => text
  | .wrap pfx e => pfx ++ e.Error

/-- Go `errors.Is(err, sql.ErrNoRows)`. -/
def Err.isErrNoRows : Err → Bool
  | .ErrNoRows => true
  | .msg _ => false
  | .wrap _ e => e.isErrNoRows

/-- The elements of a path: the pieces between its slashes. -/
def splitSlash : List Char → List (List Char)
  | [] => [[]]
  | c :: rest =>
    if c == '/' then [] :: splitSlash rest
    else
      match splitSlash rest with
      | [] => [[c]]
      | s :: ss => (c :: s) :: ss

/-- One element of the path handled by `path.Clean`; `acc` holds the elements kept so far,
the last one first. Empty elements and `.` are dropped; `..` removes the element before it
when that is a real element, is dropped at the root of a rooted path, and is kept
otherwise. -/
def cleanStep (rooted : Bool) (acc : List (List Char)) (seg : List Char) : List (List Char) :=
  if seg = [] ∨ seg = ['.'] then acc
  else if seg = ['.', '.'] then
    match acc with
    | [] => if rooted then [] else [seg]
    | top :: rest => if top = ['.', '.'] then (if rooted then acc else seg :: acc) else rest
  else seg :: acc

/-- Go `path.Clean`: the shortest equivalent path. Multiple slashes become one, `.` elements
and inner `..` elements (with the element before them) are removed, `..` at the root of a
rooted path is removed, and the empty result is `"."`. -/
def Clean (path : String) : String :=
  if path.data = [] then "."
  else
    let rooted := path.data.head? == some '/'
    let kept := ((splitSlash path.data).foldl (cleanStep rooted) []).reverse
    let body := List.intercalate ['/'] kept
    let out := if rooted then '/' :: body else body
    if out = [] then "." else ⟨out⟩

/-- Go `strings.TrimLeft(s, "/")`. -/
def TrimLeftSlash (s : String) : String :=
  ⟨s.data.dropWhile (fun c => c == '/')⟩

/-- Go `strings.ReplaceAll(s, "\\", "/")`: every backslash (code 92) becomes a slash. -/
def replaceBackslash (s : String) : String :=
  ⟨s.data.map (fun c => if c == Char.ofNat 92 then '/' else c)⟩

/-- Go `strings.HasPrefix`. -/
def HasPrefix (s pre : String) : Bool :=
  pre.data.isPrefixOf s.data

/-- The body of a request as a handler or a middleware sees it: its length in bytes (up to
the closing boundary of a multipart message) and the limit that an `http.MaxBytesReader`
around it imposes, if any. -/
structure Body where
  size : Int
  limit : Option Int

/-- Go `http.MaxBytesReader(w, body, n)`: reading more than `n` bytes from the result fails; a
limit already in place stays in force. -/
def Body.MaxBytesReader (b : Body) (n : Int) : Body :=
  match b.limit with
  | none => { b with limit := some n }
  | some l => { b with limit := some (min l n) }

/-- Whether the body can be read to its end, as the multipart parser does. -/
def Body.readable (b : Body) : Bool :=
  match b.limit with
  | none => true
  | some l => decide (b.size ≤ l)

/-- Go `strconv.ParseBool`: the spellings it accepts; `none` is its syntax error. -/
def strconvParseBool (str : String) : Option Bool :=
  if str = "1" ∨ str = "t" ∨ str = "T" ∨ str = "true" ∨ str = "TRUE" ∨ str = "True" then some true
  else if str = "0" ∨ str = "f" ∨ str = "F" ∨ str = "false" ∨ str = "FALSE" ∨ str = "False" then
    some false
  else none

/-- A lower-case hexadecimal digit. -/
def isLowerHex (c : Char) : Bool :=
  c.isDigit || ('a' ≤ c && c ≤ 'f')

/-- The text `uuid.UUID.String()` prints: 36 characters, `-` at positions 8, 13, 18 and 23 and
lower-case hexadecimal digits everywhere else. -/
def isUUIDString (s : String) : Bool :=
  s.data.length == 36 &&
    (List.range 36).all (fun i =>
      if i = 8 ∨ i = 13 ∨ i = 18 ∨ i = 23 then s.data.getD i ' ' == '-'
      else isLowerHex (s.data.getD i ' '))

end Go

/-! ## `internal/utils/parsebool.go` -/

namespace Utils

open Go

/-- Go `ParseBool`. -/
def ParseBool (s : String) : Bool :=
  let s := TrimSpace s
  if s = "" then false
  else
    match strconvParseBool s with
    | some b => b
    | none =>
      if ToLower s = "y" ∨ ToLower s = "yes" ∨ ToLower s = "on" then true
      else if ToLower s = "n" ∨ ToLower s = "no" ∨ ToLower s = "off" then false
      else false

end Utils

/-! ## `internal/domain/vos`, `internal/domain/entities` -/

namespace Vos

open Go

/-- Go `DocumentOwnerType.IsValid`. -/
def DocumentOwnerType.IsValid (t : String) : Bool :=
  t == "employee" || t == "dependent"

/-- The `allowedTypes` map of `document_type.go`. -/
def allowedTypes : List String := ["BI", "Contrato", "Diploma", "Foto", "Outro"]

/-- Go `NewDocumentType`. -/
def NewDocumentType (value : String) : Except Err String :=
  let v := TrimSpace value
  if allowedTypes.contains v then .ok v else .error (.msg "tipo de documento inválido")

/-- The character class `[\w\-. ]` of the file name pattern. -/
def filenameChar (c : Char) : Bool :=
  c.isAlphanum || c == '_' || c == '-' || c == '.' || c == ' '

/-- Go `NewFilename`. -/
def NewFilename (value : String) : Except Err String :=
  let value := TrimSpace value
  if value = "" then .error (.msg "nome do ficheiro é obrigatório")
  else if value.utf8ByteSize > 255 then .error (.msg "nome do ficheiro é muito longo")
  else if !(value.data.all filenameChar) then
    .error (.msg "nome do ficheiro inválido (caracteres não permitidos)")
  else .ok value

/-- Go `NewDocumentURL`; `parseRequestURI` is `url.ParseRequestURI` followed by `u.String()`. -/
def NewDocumentURL (parseRequestURI : String → Option String) (value : String) :
    Except Err String :=
  match parseRequestURI (TrimSpace value) with
  | none => .error (.msg "URL de documento inválida")
  | some u => .ok u

/-- The `allowedExtensions` map of `file_extension.go`. -/
def allowedExtensions : List String := ["pdf", "jpg", "jpeg", "png", "docx", "doc"]

/-- Go `NewFileExtension`. -/
def NewFileExtension (ext : String) : Except Err String :=
  let e := ToLower (TrimSpace ext)
  if allowedExtensions.contains e then .ok e else .error (.msg "extensão de ficheiro não suportada")

end Vos

namespace Entities

/-- Go `entities.Document`; ids are kept in their canonical text form. -/
structure Document where
  ID : String
  OwnerType : String
  OwnerID : String
  Type_ : String
  FileName : String
  FileURL : String
  Extension : String
  IsActive : Bool
  UploadedAt : Go.Instant
  ObjectKey : String
  deriving DecidableEq, Repr

end Entities

/-! ## The two stores

The object store (`ObjectStorage` interface) and the metadata store (`DocumentRepository`
interface) are external services. They are modelled by a map from key to content and a map
from id to row; every call is recorded in a log, and a call fails, leaving its store
unchanged, exactly when the caller of the model says so. -/

/-- Content of a blob or of an uploaded file. -/
abbrev Bytes := List UInt8

/-- A call on one of the collaborators of the handler. -/
inductive Call where
  | Lock (key : String)
  | Unlock (key : String)
  | Save (key : String)
  | Open (key : String)
  | Delete (key : String)
  | Exists (key : String)
  | Create (id : String)
  | Update (id : String)
  | DeleteRow (id : String)
  | FindByID (id : String)
  deriving DecidableEq, Repr

/-- Both stores and the log of calls made so far. -/
structure World where
  blobs : String → Option Bytes
  rows : String → Option Entities.Document
  log : List Call

namespace World

open Go

/-- Appends a call to the log. -/
def call (w : World) (c : Call) : World := { w with log := w.log ++ [c] }

/-- Go `Storage.Save(ctx, key, r)`, `r` holding `data`; returns the public URL. -/
def Save (w : World) (url : String → String) (fault : Option Err) (key : String)
    (data : Bytes) : World × Except Err String :=
  let w1 := w.call (.Save key)
  match fault with
  | some e => (w1, .error e)
  | none => ({ w1 with blobs := Function.update w1.blobs key (some data) }, .ok (url key))

/-- Go `Storage.Open(ctx, key)` followed by reading the stream; a missing object is reported
the way S3 does. -/
def Open (w : World) (fault : Option Err) (key : String) : World × Except Err Bytes :=
  let w1 := w.call (.Open key)
  match fault with
  | some e => (w1, .error e)
  | none =>
    match w1.blobs key with
    | some data => (w1, .ok data)
    | none => (w1, .error (.msg "api error NoSuchKey: The specified key does not exist."))

/-- Go `Storage.Delete(ctx, key)`; deleting an absent key succeeds. -/
def Delete (w : World) (fault : Option Err) (key : String) : World × Option Err :=
  let w1 := w.call (.Delete key)
  match fault with
  | some e => (w1, some e)
  | none => ({ w1 with blobs := Function.update w1.blobs key none }, none)

/-- Go `Storage.Exists(ctx, key)`; on failure Go returns `false` together with the error. -/
def Exists (w : World) (fault : Option Err) (key : String) : World × Bool × Option Err :=
  let w1 := w.call (.Exists key)
  match fault with
  | some e => (w1, false, some e)
  | none => (w1, (w1.blobs key).isSome, none)

/-- Go `Repo.Create(ctx, doc)`. -/
def Create (w : World) (fault : Option Err) (doc : Entities.Document) : World × Option Err :=
  let w1 := w.call (.Create doc.ID)
  match fault with
  | some e => (w1, some e)
  | none => ({ w1 with rows := Function.update w1.rows doc.ID (some doc) }, none)

/-- Go `Repo.FindByID(ctx, id)`; no row gives `sql.ErrNoRows`. -/
def FindByID (w : World) (fault : Option Err) (id : String) :
    World × Except Err Entities.Document :=
  let w1 := w.call (.FindByID id)
  match fault with
  | some e => (w1, .error e)
  | none =>
    match w1.rows id with
    | some doc => (w1, .ok doc)
    | none => (w1, .error .ErrNoRows)

/-- Go `Repo.Update(ctx, doc)`; no affected row gives `sql.ErrNoRows`. -/
def Update (w : World) (fault : Option Err) (doc : Entities.Document) : World × Option Err :=
  let w1 := w.call (.Update doc.ID)
  match fault with
  | some e => (w1, some e)
  | none =>
    match w1.rows doc.ID with
    | some _ => ({ w1 with rows := Function.update w1.rows doc.ID (some doc) }, none)
    | none => (w1, some .ErrNoRows)

/-- Go `Repo.Delete(ctx, id)`; no affected row gives `sql.ErrNoRows`. -/
def DeleteRow (w : World) (fault : Option Err) (id : String) : World × Option Err :=
  let w1 := w.call (.DeleteRow id)
  match fault with
  | some e => (w1, some e)
  | none =>
    match w1.rows id with
    | some _ => ({ w1 with rows := Function.update w1.rows id none }, none)
    | none => (w1, some .ErrNoRows)

end World

/-! ## `internal/infrastructure/storage/s3storage/s3.go` -/

namespace S3Storage

open Go

/-- Go `sanitizeKey`. -/
def sanitizeKey (k : String) : String :=
  let k := TrimSpace k
  let k := TrimLeftSlash k
  let k := replaceBackslash k
  let k := Clean k
  if k = "." ∨ k = ".." ∨ HasPrefix k "../" then "" else k

/-- A request sent to the S3 client. -/
inductive Request where
  | Upload (bucket key : String)
  | GetObject (bucket key : String)
  | DeleteObject (bucket key : String)
  | HeadObject (bucket key : String)
  | WaitNotExists (bucket key : String)
  deriving DecidableEq, Repr

/-- The fields of `Storage` that its methods read. -/
structure Storage where
  bucket : String
  base : String
  acl : String

/-- Go `Storage.URL`; `join` is `url.Parse(base)` with `path.Join(u.Path, key)` as its
path, printed. -/
def Storage.URL (s : Storage) (join : String → String → String) (key : String) : String :=
  let key := sanitizeKey key
  if s.base = "" then "s3://" ++ s.bucket ++ "/" ++ key else join s.base key

/-- Go `Storage.Save`; `answer` is the error of `upl.Upload`, if any. Returns the requests
sent and the result. -/
def Storage.Save (s : Storage) (join : String → String → String) (answer : Option Err)
    (key : String) (sent : List Request) : List Request × Except Err String :=
  let key := sanitizeKey key
  if key = "" then (sent, .error (.msg "s3storage: key vazio"))
  else
    match answer with
    | some err => (sent ++ [.Upload s.bucket key], .error (.wrap "s3storage: upload: " err))
    | none => (sent ++ [.Upload s.bucket key], .ok (s.URL join key))

/-- Go `Storage.Open`; `answer` is what `GetObject` returns. -/
def Storage.Open (s : Storage) (answer : Except Err Bytes) (key : String)
    (sent : List Request) : List Request × Except Err Bytes :=
  let key := sanitizeKey key
  if key = "" then (sent, .error (.msg "s3storage: key vazio"))
  else
    match answer with
    | .error err => (sent ++ [.GetObject s.bucket key], .error (.wrap "s3storage: download: " err))
    | .ok body => (sent ++ [.GetObject s.bucket key], .ok body)

/-- Go `Storage.Delete`; `answer` is the error of `DeleteObject` and `waited` the error of
the not-exists waiter, if any. -/
def Storage.Delete (s : Storage) (answer waited : Option Err) (key : String)
    (sent : List Request) : List Request × Option Err :=
  let key := sanitizeKey key
  if key = "" then (sent, some (.msg "s3storage: key vazio"))
  else
    match answer with
    | some err => (sent ++ [.DeleteObject s.bucket key], some (.wrap "s3storage: delete: " err))
    | none =>
      match waited with
      | some werr =>
        (sent ++ [.DeleteObject s.bucket key, .WaitNotExists s.bucket key],
          some (.wrap "s3storage: waiter not-exists: " werr))
      | none => (sent ++ [.DeleteObject s.bucket key, .WaitNotExists s.bucket key], none)

/-- What `HeadObject` returns: success, an API error with its code, or another error. -/
inductive HeadAnswer where
  | ok
  | apiError (code : String) (text : String)
  | other (err : Err)

/-- Go `Storage.Exists`. -/
def Storage.Exists (s : Storage) (answer : HeadAnswer) (key : String)
    (sent : List Request) : List Request × Bool × Option Err :=
  let key := sanitizeKey key
  if key = "" then (sent, false, some (.msg "s3storage: key vazio"))
  else
    let sent := sent ++ [.HeadObject s.bucket key]
    match answer with
    | .ok => (sent, true, none)
    | .apiError code text =>
      if code = "NotFound" ∨ code = "404" then (sent, false, none)
      else if Contains (ToLower text) "notfound" || Contains text "404" then (sent, false, none)
      else (sent, false, some (.wrap "s3storage: head: " (.msg text)))
    | .other err =>
      if Contains (ToLower err.Error) "notfound" || Contains err.Error "404" then
        (sent, false, none)
      else (sent, false, some (.wrap "s3storage: head: " err))

end S3Storage

/-! ## `internal/usecase/documents_uc` -/

/-- Result of a Go call that may return an error or abort with `panic`. -/
inductive Result (α : Type) where
  | ok (a : α)
  | error (e : Go.Err)
  | panic (e : Go.Err)

namespace DocumentsUC

open Go Entities

/-- Go `CreateDocumentInput`. -/
structure CreateDocumentInput where
  OwnerType : String
  OwnerID : String
  Type_ : String
  FileName : String
  FileURL : String
  Extension : String
  IsActive : Bool
  ObjectKey : String

/-- Go `CreateDocumentUseCase.Execute`. The `MustNew...` constructors abort with `panic` on an
invalid value; `newID` is `uuid.New()` and `uploadedAt` is `time.Now()`. -/
def CreateDocumentUseCase.Execute (parseRequestURI : String → Option String)
    (fault : Option Err) (newID : String) (uploadedAt : Instant) (input : CreateDocumentInput)
    (w : World) : World × Result Document :=
  if !Vos.DocumentOwnerType.IsValid input.OwnerType then
    (w, .error (.msg "invalid owner_type"))
  else
    match Vos.NewDocumentType input.Type_ with
    | .error e => (w, .panic e)
    | .ok ty =>
    match Vos.NewFilename input.FileName with
    | .error e => (w, .panic e)
    | .ok name =>
    match Vos.NewDocumentURL parseRequestURI input.FileURL with
    | .error e => (w, .panic e)
    | .ok url =>
    match Vos.NewFileExtension input.Extension with
    | .error e => (w, .panic e)
    | .ok ext =>
      let doc : Document :=
        { ID := newID, OwnerType := input.OwnerType, OwnerID := input.OwnerID, Type_ := ty,
          FileName := name, FileURL := url, Extension := ext, IsActive := input.IsActive,
          UploadedAt := uploadedAt, ObjectKey := input.ObjectKey }
      match w.Create fault doc with
      | (w1, some e) => (w1, .error e)
      | (w1, none) => (w1, .ok doc)

/-- Go `dtos.UpdateDocumentDTO`. -/
structure UpdateDocumentDTO where
  Name : String
  FileURL : String
  Extension : String
  ObjectKey : String

/-- Go `dtos.ApplyUpdateToDocument`. -/
def ApplyUpdateToDocument (parseRequestURI : String → Option String) (now : Instant)
    (doc : Document) (input : UpdateDocumentDTO) : Except Err Document :=
  let r1 : Except Err Document :=
    if input.Name ≠ "" then
      match Vos.NewFilename input.Name with
      | .error e => .error e
      | .ok n => .ok { doc with FileName := n }
    else .ok doc
  match r1 with
  | .error e => .error e
  | .ok doc1 =>
  let r2 : Except Err Document :=
    if input.FileURL ≠ "" then
      match Vos.NewDocumentURL parseRequestURI input.FileURL with
      | .error e => .error e
      | .ok u => .ok { doc1 with FileURL := u }
    else .ok doc1
  match r2 with
  | .error e => .error e
  | .ok doc2 =>
  let r3 : Except Err Document :=
    if input.Extension ≠ "" then
      match Vos.NewFileExtension input.Extension with
      | .error e => .error e
      | .ok x => .ok { doc2 with Extension := x }
    else .ok doc2
  match r3 with
  | .error e => .error e
  | .ok doc3 =>
    let doc4 := if input.ObjectKey ≠ "" then { doc3 with ObjectKey := TrimSpace input.ObjectKey } else doc3
    .ok { doc4 with UploadedAt := now }

/-- Go `UpdateDocumentUseCase.Execute`. -/
def UpdateDocumentUseCase.Execute (parseRequestURI : String → Option String)
    (findFault updateFault : Option Err) (now : Instant) (id : String)
    (dto : UpdateDocumentDTO) (w : World) : World × Except Err Document :=
  match w.FindByID findFault id with
  | (w1, .error e) => (w1, .error e)
  | (w1, .ok doc) =>
    match ApplyUpdateToDocument parseRequestURI now doc dto with
    | .error e => (w1, .error e)
    | .ok doc1 =>
      let doc2 := { doc1 with UploadedAt := now }
      match w1.Update updateFault doc2 with
      | (w2, some e) => (w2, .error e)
      | (w2, none) => (w2, .ok doc2)

/-- Go `DeleteDocumentUseCase.Execute`. -/
def DeleteDocumentUseCase.Execute (fault : Option Err) (id : String) (w : World) :
    World × Option Err :=
  w.DeleteRow fault id

/-- Go `FindDocumentByIDUseCase.Execute`. -/
def FindDocumentByIDUseCase.Execute (fault : Option Err) (id : String) (w : World) :
    World × Except Err Document :=
  w.FindByID fault id

end DocumentsUC

/-! ## `internal/interfaces/handlers/document.go` -/

namespace Handlers

open Go Entities DocumentsUC

/-- Go `utils.FieldError`. -/
structure FieldError where
  Field : String
  Label : String
  Tag : String
  Message : String
  Value : String
  deriving DecidableEq, Repr

/-- Go `utils.Payload`: the body of every error answer. -/
structure Payload where
  Error : String
  Message : String
  Fields : List FieldError
  deriving DecidableEq, Repr

/-- What a handler writes to the client. -/
inductive Response where
  /-- Go `c.JSON(status, utils.Payload{...})` -/
  | JSON (status : Nat) (payload : Payload)
  /-- Go `c.JSON(status, dtos.ToDocumentResponseDTO(doc))` -/
  | Document (status : Nat) (doc : Document)
  /-- Go `c.Status(status)` -/
  | Status (status : Nat)
  /-- the headers `Content-Disposition: attachment` with this file name and
  `Content-Type: application/octet-stream`, followed by the body copied from the store -/
  | Stream (filename : String) (body : Bytes)
  deriving DecidableEq, Repr

/-- State of both stores when the handler ends, the answer it wrote (if it got that far),
and whether it ended in a `panic` (left to `middleware.Recovery`). -/
structure Outcome where
  world : World
  resp : Option Response
  aborted : Bool

/-- Functions of other packages that the handler calls: the storage's `URL`, `net/url`,
`net/http` content sniffing, `uuid.Parse`, `md5`, the part of `utils.HumanizeDB` that
inspects database driver errors, and gin's form binding followed by
`utils.HumanizeValidation`. -/
structure Env where
  URL : String → String
  ParseRequestURI : String → Option String
  DetectContentType : Bytes → String
  Parse : String → Option String
  md5 : Bytes → String
  driverError : Err → Option (Payload × Nat)
  ShouldBindWith : String → String → String → Option (List FieldError)

/-- Go `utils.HumanizeDB`: `sql.ErrNoRows` first, then the driver errors. -/
def HumanizeDB (env : Env) (err : Err) : Option (Payload × Nat) :=
  if err.isErrNoRows then
    some (⟨"Não foram encontrados resultados", "Dados inválidos. Corrija os campos de entrada.", []⟩, 400)
  else env.driverError err

/-- The configuration fields of `DocumentHandler`; the maps are given by their `true` keys. -/
structure DocumentHandler where
  MaxUploadSize : Int
  AllowedExts : List String
  AllowedTypes : List String
  TrashPrefix : String

/-- Go `NewDocumentHandler`. -/
def NewDocumentHandler : DocumentHandler :=
  { MaxUploadSize := 2 * 1024 * 1024,
    AllowedExts := [".pdf", ".jpg", ".jpeg", ".png"],
    AllowedTypes := ["application/pdf", "image/jpeg", "image/png"],
    TrashPrefix := "trash" }

/-- Go `isNoSuchKey` on a non-nil error. -/
def isNoSuchKey (err : Err) : Bool :=
  let msg := ToLower err.Error
  Contains msg "nosuchkey" || Contains msg "statuscode: 404"

/-- The characters `sanitizeFilename` keeps. -/
def allowedRune (c : Char) : Bool :=
  c.isAlphanum || c == '-' || c == '_' || c == '.'

/-- Go `sanitizeFilename`. -/
def sanitizeFilename (name : String) : String :=
  let n := replaceDotDot (replaceSpaces (TrimSpace name).data)
  let s := n.map (fun r => if allowedRune r then r else '_')
  if s = [] then "file" else if s.length > 100 then ⟨s.take 100⟩ else ⟨s⟩

/-- Go `buildObjectKey`, with `now` the value of `time.Now().UTC()`. -/
def buildObjectKey (now : Instant) (ownerType ownerID originalFilename : String) : String :=
  let base := sanitizeFilename (TrimSuffix originalFilename (Ext originalFilename))
  let ext := ToLower (Ext originalFilename)
  ToLower ownerType ++ "/" ++ ownerID ++ "/" ++ base ++ "_" ++ now.Format ++ ext

/-- Go `utils.Normalize`. -/
def Normalize (s : String) : String := ToLower (TrimSpace s)

/-- The `restore` function returned by `backupObject`. -/
inductive Restore where
  | nil
  | noop
  | save (key : String) (buf : Bytes)
  deriving DecidableEq, Repr

/-- The `cleanup` function returned by `backupObject`. -/
inductive Cleanup where
  | nil
  | noop
  | delete (trashKey : String)
  deriving DecidableEq, Repr

/-- Calls `restore(ctx)`; `none` when the function value is nil (the call panics). -/
def Restore.run (r : Restore) (env : Env) (fault : Option Err) (w : World) :
    Option (World × Option Err) :=
  match r with
  | .nil => none
  | .noop => some (w, none)
  | .save key buf =>
    match w.Save env.URL fault key buf with
    | (w1, .error e) => some (w1, some e)
    | (w1, .ok _) => some (w1, none)

/-- Calls `cleanup(ctx)`; `none` when the function value is nil (the call panics). -/
def Cleanup.run (c : Cleanup) (fault : Option Err) (w : World) : Option (World × Option Err) :=
  match c with
  | .nil => none
  | .noop => some (w, none)
  | .delete trashKey => some (w.Delete fault trashKey)

/-- Which calls of `backupObject` fail, and with what error. -/
structure BackupFaults where
  exists_ : Option Err
  open_ : Option Err
  copy : Option Err
  save : Option Err

/-- The trash key `backupObject` builds; `id` is `uuid.NewString()`. -/
def trashKeyFor (h : DocumentHandler) (id key : String) : String :=
  TrimSuffix h.TrashPrefix "/" ++ "/" ++ id ++ "_" ++ Base key

/-- Go `backupObject`: the trash key, `restore`, `cleanup` and the error. -/
def DocumentHandler.backupObject (h : DocumentHandler) (env : Env) (f : BackupFaults)
    (id key : String) (w : World) : World × String × Restore × Cleanup × Option Err :=
  match w.Exists f.exists_ key with
  | (w1, _, some exErr) => (w1, "", .nil, .nil, some (.wrap "exists: " exErr))
  | (w1, false, none) => (w1, "", .noop, .noop, none)
  | (w1, true, none) =>
    match w1.Open f.open_ key with
    | (w2, .error err) =>
      if isNoSuchKey err then (w2, "", .noop, .noop, none)
      else (w2, "", .nil, .nil, some (.wrap "abrir original: " err))
    | (w2, .ok buf) =>
      match f.copy with
      | some err => (w2, "", .nil, .nil, some (.wrap "copiar original: " err))
      | none =>
        let trashKey := trashKeyFor h id key
        match w2.Save env.URL f.save trashKey buf with
        | (w3, .error err) => (w3, "", .nil, .nil, some (.wrap "gravar backup: " err))
        | (w3, .ok _) => (w3, trashKey, .save key buf, .delete trashKey, none)

/-- Go `computeMD5AndSize` on a reader that still holds `rest`; `copy` is the failure of
`io.Copy`, if any. Returns the digest, the size and the content of the new reader. -/
def computeMD5AndSize (env : Env) (copy : Option Err) (rest : Bytes) :
    Except Err (String × Int × Bytes) :=
  match copy with
  | some err => .error err
  | none => .ok (env.md5 rest, rest.length, rest)

/-- Go `multipart.FileHeader`. -/
structure FileHeader where
  Filename : String
  Size : Int

/-- The uploaded file: its header, its content, and whether the `multipart.File` value
passes the `io.ReadSeeker` assertion. -/
structure UploadedFile where
  header : FileHeader
  content : Bytes
  seeker : Bool

/-- The multipart request of `Upload`: `dtos.UploadDocumentForm`, the `file` part, and the
body the parts are read from. -/
structure UploadRequest where
  OwnerType : String
  OwnerID : String
  Type_ : String
  file : Option UploadedFile
  body : Body

/-- The answer `400 Validação dos campos` with a message only. -/
def badRequest (message : String) : Response :=
  .JSON 400 ⟨"Validação dos campos", message, []⟩

/-- The answer `500 internal`. -/
def internal (message : String) : Response :=
  .JSON 500 ⟨"internal", message, []⟩

/-- The answer with field errors. -/
def invalidFields (fields : List FieldError) : Response :=
  .JSON 400 ⟨"Validação dos campos", "Dados inválidos. Corrija os campos destacados.", fields⟩

/-- Sniffing and rewinding in `Upload` and `ReplaceFile`: reads up to 512 bytes, detects the
content type, and resets the reader (`Seek(0, io.SeekStart)`, or a copy of the bytes read
followed by the rest). Returns the content type and what the reader holds; `read` is the
failure of `io.Copy` in the second case. -/
def sniffAndReset (env : Env) (read : Option Err) (file : UploadedFile) :
    Except Err (String × Bytes) :=
  let buf512 := file.content.take 512
  let contentType := env.DetectContentType buf512
  if file.seeker then .ok (contentType, file.content)
  else
    match read with
    | some err => .error err
    | none => .ok (contentType, buf512 ++ file.content.drop 512)

/-- The deferred `unlock()`: runs when the handler ends, whatever the way. -/
def deferUnlock (lockKey : String) (out : Outcome) : Outcome :=
  { out with world := out.world.call (.Unlock lockKey) }

/-- The lock key of `Upload`. -/
def uploadLockKey (ownerType ownerID filename : String) : String :=
  "doc:upload:" ++ ToLower ownerType ++ ":" ++ ownerID ++ ":" ++ Normalize filename

/-- The lock key of `Delete` and `ReplaceFile`. -/
def docLockKey (id : String) : String := "doc:id:" ++ id

/-- Which calls of `Upload` fail, and with what error. -/
structure UploadFaults where
  read : Option Err
  md5copy : Option Err
  save : Option Err
  create : Option Err
  rollback : Option Err

/-- Go `Upload` from the `Lock` to the answer. -/
def DocumentHandler.uploadLocked (h : DocumentHandler) (env : Env) (f : UploadFaults)
    (now : Instant) (newID : String) (uploadedAt : Instant) (req : UploadRequest)
    (ownerID : String) (header : FileHeader) (ext : String) (rdr : Bytes) (w : World) : Outcome :=
  let key := buildObjectKey now req.OwnerType ownerID header.Filename
  match w.Save env.URL f.save key rdr with
  | (w1, .error _) => ⟨w1, some (internal "Falha ao subir ficheiro no storage"), false⟩
  | (w1, .ok publicURL) =>
    let input : CreateDocumentInput :=
      { OwnerType := req.OwnerType, OwnerID := ownerID, Type_ := req.Type_,
        FileName := sanitizeFilename header.Filename, FileURL := publicURL,
        Extension := TrimPrefix ext ".", IsActive := true, ObjectKey := key }
    match CreateDocumentUseCase.Execute env.ParseRequestURI f.create newID uploadedAt input w1 with
    | (w2, .panic _) => ⟨w2, none, true⟩
    | (w2, .error err) =>
      let w3 := (w2.Delete f.rollback key).1
      match HumanizeDB env err with
      | some (payload, status) => ⟨w3, some (.JSON status payload), false⟩
      | none => ⟨w3, some (internal "Falha ao registar documento no BD; upload revertido"), false⟩
    | (w2, .ok doc) => ⟨w2, some (.Document 201 doc), false⟩

/-- Go `DocumentHandler.Upload`. The body is wrapped in `http.MaxBytesReader` first; when it
cannot be read to its end, the multipart parse inside `ShouldBindWith` fails with an error
that is not a validation error, for which `utils.HumanizeValidation` returns no field. -/
def DocumentHandler.Upload (h : DocumentHandler) (env : Env) (f : UploadFaults)
    (now : Instant) (newID : String) (uploadedAt : Instant) (req : UploadRequest)
    (w : World) : Outcome :=
  let body :=
    if h.MaxUploadSize > 0 then req.body.MaxBytesReader (h.MaxUploadSize + 1024) else req.body
  if !body.readable then ⟨w, some (invalidFields []), false⟩
  else
  match env.ShouldBindWith req.OwnerType req.OwnerID req.Type_ with
  | some fields => ⟨w, some (invalidFields fields), false⟩
  | none =>
  match req.file with
  | none => ⟨w, some (badRequest "Ficheiro não fornecido"), false⟩
  | some file =>
  let header := file.header
  if header.Size ≤ 0 then ⟨w, some (badRequest "Tamanho do ficheiro é zero"), false⟩
  else if h.MaxUploadSize > 0 ∧ header.Size > h.MaxUploadSize then
    ⟨w, some (.JSON 413 ⟨"payload_too_large", "Insira um ficheiro com tamanho máximo de 2Mb", []⟩), false⟩
  else
  let ext := ToLower (Ext header.Filename)
  if !h.AllowedExts.isEmpty && !h.AllowedExts.contains ext then
    ⟨w, some (badRequest ("Extensão '" ++ ext ++ "' não suportada")), false⟩
  else
  match sniffAndReset env f.read file with
  | .error _ => ⟨w, some (internal "Falha ao ler ficheiro"), false⟩
  | .ok (contentType, rdr) =>
  if !h.AllowedTypes.isEmpty && !h.AllowedTypes.contains contentType then
    ⟨w, some (badRequest ("Content-Type '" ++ contentType ++ "' não suportado")), false⟩
  else
  match env.Parse req.OwnerID with
  | none =>
    ⟨w, some (invalidFields [⟨"owner_id", "owner_id", "uuid", "owner_id deve ser um UUID válido.", req.OwnerID⟩]), false⟩
  | some ownerID =>
  match computeMD5AndSize env f.md5copy rdr with
  | .error _ => ⟨w, some (internal "Falha ao calcular MD5/tamanho"), false⟩
  | .ok (_, _, rdr2) =>
    let lockKey := uploadLockKey req.OwnerType ownerID header.Filename
    deferUnlock lockKey
      (h.uploadLocked env f now newID uploadedAt req ownerID header ext rdr2
        (w.call (.Lock lockKey)))

/-- The answer `404 not_found`. -/
def notFound : Response :=
  .JSON 404 ⟨"not_found", "Documento não encontrado", []⟩

/-- The answer to a failed `FindUC.Execute`. -/
def findFailed (env : Env) (err : Err) : Response :=
  match HumanizeDB env err with
  | some (payload, status) => .JSON status payload
  | none => notFound

/-- Runs the deferred `cleanup(ctx)` when the handler body has ended with `out`; a nil
`cleanup` makes the handler end in a panic. -/
def deferCleanup (cleanup : Cleanup) (fault : Option Err) (out : Outcome) : Outcome :=
  match cleanup.run fault out.world with
  | none => { out with aborted := true }
  | some (w, _) => { out with world := w }

/-- Which calls of `Delete` fail, and with what error. -/
structure DeleteFaults where
  find : Option Err
  exists_ : Option Err
  backup : BackupFaults
  delete : Option Err
  deleteRow : Option Err
  restore : Option Err
  cleanup : Option Err
  deferredCleanup : Option Err

/-- Go `Delete` after `defer cleanup`: removal of the blob, removal of the row, restore or
cleanup. -/
def DocumentHandler.deleteBody (env : Env) (f : DeleteFaults) (id : String) (doc : Document)
    (exists_ : Bool) (restore : Restore) (cleanup : Cleanup) (w : World) : Outcome :=
  let removed : World × Bool :=
    if exists_ then
      match w.Delete f.delete doc.ObjectKey with
      | (w1, some err) => (w1, !isNoSuchKey err)
      | (w1, none) => (w1, false)
    else (w, false)
  if removed.2 then ⟨removed.1, some (internal "Falha ao apagar ficheiro no storage"), false⟩
  else
    match DeleteDocumentUseCase.Execute f.deleteRow id removed.1 with
    | (w2, some _) =>
      if exists_ then
        match restore.run env f.restore w2 with
        | none => ⟨w2, none, true⟩
        | some (w3, _) =>
          ⟨w3, some (internal "Falha ao remover no BD; estado revertido"), false⟩
      else ⟨w2, some (internal "Falha ao remover no BD; estado revertido"), false⟩
    | (w2, none) =>
      match cleanup.run f.cleanup w2 with
      | none => ⟨w2, none, true⟩
      | some (w3, _) => ⟨w3, some (.Status 204), false⟩

/-- Go `Delete` from the `Lock` to the answer; `trashID` is `uuid.NewString()`. -/
def DocumentHandler.deleteLocked (h : DocumentHandler) (env : Env) (f : DeleteFaults)
    (trashID id : String) (w : World) : Outcome :=
  match FindDocumentByIDUseCase.Execute f.find id w with
  | (w1, .error err) => ⟨w1, some (findFailed env err), false⟩
  | (w1, .ok doc) =>
    match w1.Exists f.exists_ doc.ObjectKey with
    | (w2, exists_, _) =>
      match h.backupObject env f.backup trashID doc.ObjectKey w2 with
      | (w3, _, restore, cleanup, bkErr) =>
        if (match bkErr with | some e => !isNoSuchKey e | none => false) then
          ⟨w3, some (internal "Falha ao preparar backup"), false⟩
        else
          deferCleanup cleanup f.deferredCleanup
            (DocumentHandler.deleteBody env f id doc exists_ restore cleanup w3)

/-- Go `DocumentHandler.Delete`. -/
def DocumentHandler.Delete (h : DocumentHandler) (env : Env) (f : DeleteFaults)
    (trashID rawID : String) (w : World) : Outcome :=
  match env.Parse rawID with
  | none =>
    ⟨w, some (invalidFields [⟨"ID", "id", "uuid", "id do documento deve ser um UUID válido.", rawID⟩]), false⟩
  | some id =>
    let lockKey := docLockKey id
    deferUnlock lockKey (h.deleteLocked env f trashID id (w.call (.Lock lockKey)))

/-- Which calls of `ReplaceFile` fail, and with what error. -/
structure ReplaceFaults where
  find : Option Err
  read : Option Err
  md5copy : Option Err
  save : Option Err
  backup : BackupFaults
  undoSave : Option Err
  ucFind : Option Err
  update : Option Err
  rollback : Option Err
  restore : Option Err
  deleteOld : Option Err
  cleanup : Option Err
  deferredCleanup : Option Err

/-- Go `ReplaceFile` after `defer cleanupOld`: update of the row, then rollback or removal of
the old blob. -/
def DocumentHandler.replaceBody (env : Env) (f : ReplaceFaults) (now : Instant)
    (doc : Document) (header : FileHeader) (ext newKey newURL : String)
    (restoreOld : Restore) (cleanupOld : Cleanup) (w : World) : Outcome :=
  let updateDTO : UpdateDocumentDTO :=
    { Name := sanitizeFilename header.Filename, FileURL := newURL,
      Extension := TrimPrefix ext ".", ObjectKey := newKey }
  match UpdateDocumentUseCase.Execute env.ParseRequestURI f.ucFind f.update now doc.ID updateDTO w with
  | (w1, .error updErr) =>
    let w2 := (w1.Delete f.rollback newKey).1
    match restoreOld.run env f.restore w2 with
    | none => ⟨w2, none, true⟩
    | some (w3, _) =>
      match HumanizeDB env updErr with
      | some (payload, status) => ⟨w3, some (.JSON status payload), false⟩
      | none =>
        ⟨w3, some (internal "Falha ao atualizar registo no BD; versão antiga restaurada"), false⟩
  | (w1, .ok updated) =>
    let w2 := (w1.Delete f.deleteOld doc.ObjectKey).1
    match cleanupOld.run f.cleanup w2 with
    | none => ⟨w2, none, true⟩
    | some (w3, _) => ⟨w3, some (.Document 200 updated), false⟩

/-- Go `ReplaceFile` from the `Lock` to the answer; `now` is the instant of the call (used for
the new key and for `UploadedAt`), `trashID` is `uuid.NewString()`. -/
def DocumentHandler.replaceLocked (h : DocumentHandler) (env : Env) (f : ReplaceFaults)
    (now : Instant) (trashID id : String) (file : Option UploadedFile) (w : World) : Outcome :=
  match FindDocumentByIDUseCase.Execute f.find id w with
  | (w1, .error err) => ⟨w1, some (findFailed env err), false⟩
  | (w1, .ok doc) =>
  let oldKey := doc.ObjectKey
  match file with
  | none => ⟨w1, some (badRequest "Ficheiro não fornecido"), false⟩
  | some file =>
  let header := file.header
  if header.Size ≤ 0 then ⟨w1, some (badRequest "Tamanho do ficheiro é zero"), false⟩
  else
  let ext := ToLower (Ext header.Filename)
  if !h.AllowedExts.isEmpty && !h.AllowedExts.contains ext then
    ⟨w1, some (badRequest ("Extensão '" ++ ext ++ "' não suportada")), false⟩
  else
  match sniffAndReset env f.read file with
  | .error _ => ⟨w1, some (internal "Falha ao ler ficheiro"), false⟩
  | .ok (contentType, rdr) =>
  if !h.AllowedTypes.isEmpty && !h.AllowedTypes.contains contentType then
    ⟨w1, some (badRequest ("Content-Type '" ++ contentType ++ "' não suportado")), false⟩
  else
  match computeMD5AndSize env f.md5copy rdr with
  | .error _ => ⟨w1, some (internal "Falha ao calcular MD5/tamanho"), false⟩
  | .ok (_, _, rdr2) =>
  let newKey := buildObjectKey now doc.OwnerType doc.OwnerID header.Filename
  match w1.Save env.URL f.save newKey rdr2 with
  | (w2, .error _) => ⟨w2, some (internal "Falha ao subir novo ficheiro"), false⟩
  | (w2, .ok newURL) =>
    match h.backupObject env f.backup trashID oldKey w2 with
    | (w3, _, restoreOld, cleanupOld, bkErr) =>
      if (match bkErr with | some e => !isNoSuchKey e | none => false) then
        ⟨(w3.Delete f.undoSave newKey).1,
          some (internal "Falha ao criar backup do ficheiro antigo"), false⟩
      else
        deferCleanup cleanupOld f.deferredCleanup
          (DocumentHandler.replaceBody env f now doc header ext newKey newURL restoreOld
            cleanupOld w3)

/-- Go `DocumentHandler.ReplaceFile`. -/
def DocumentHandler.ReplaceFile (h : DocumentHandler) (env : Env) (f : ReplaceFaults)
    (now : Instant) (trashID rawID : String) (file : Option UploadedFile) (w : World) :
    Outcome :=
  match env.Parse rawID with
  | none =>
    ⟨w, some (invalidFields [⟨"ID", "id", "uuid", "id do documento deve ser um UUID válido.", rawID⟩]), false⟩
  | some id =>
    let lockKey := docLockKey id
    deferUnlock lockKey (h.replaceLocked env f now trashID id file (w.call (.Lock lockKey)))

/-- Go `DocumentHandler.FindByID`. -/
def DocumentHandler.FindByID (h : DocumentHandler) (env : Env) (find : Option Err)
    (rawID : String) (w : World) : Outcome :=
  match env.Parse rawID with
  | none =>
    ⟨w, some (invalidFields [⟨"ID", "id", "uuid", "id deve ser um UUID válido.", rawID⟩]), false⟩
  | some id =>
    match FindDocumentByIDUseCase.Execute find id w with
    | (w1, .error err) => ⟨w1, some (findFailed env err), false⟩
    | (w1, .ok doc) => ⟨w1, some (.Document 200 doc), false⟩

/-- Go `DocumentHandler.Download`; `find` and `open_` are the failures of the two calls. -/
def DocumentHandler.Download (h : DocumentHandler) (env : Env) (find open_ : Option Err)
    (rawID : String) (w : World) : Outcome :=
  match env.Parse rawID with
  | none => ⟨w, some (.JSON 400 ⟨"", "", []⟩), false⟩
  | some id =>
    match FindDocumentByIDUseCase.Execute find id w with
    | (w1, .error err) => ⟨w1, some (findFailed env err), false⟩
    | (w1, .ok doc) =>
      match w1.Open open_ doc.ObjectKey with
      | (w2, .error err) =>
        if isNoSuchKey err then
          ⟨w2, some (.JSON 404 ⟨"not_found", "Ficheiro não encontrado no armazenamento", []⟩), false⟩
        else ⟨w2, some (internal "Falha ao abrir o ficheiro no storage"), false⟩
      | (w2, .ok body) => ⟨w2, some (.Stream (sanitizeFilename doc.FileName) body), false⟩

/-- A call that takes or releases a lock of the `KeyedLocker`. -/
def isLockCall : Call → Bool
  | .Lock _ => true
  | .Unlock _ => true
  | _ => false

/-- The world `w1` was reached from `w` by calls none of which takes or releases a lock. -/
def calledFrom (w w1 : World) : Prop :=
  ∃ body, w1.log = w.log ++ body ∧ ∀ c ∈ body, isLockCall c = false

/-- Between `w` and `w1` no call was made, or the lock was taken first, released last, and
neither taken nor released in between. -/
def lockedOnce (w w1 : World) : Prop :=
  w1.log = w.log ∨
  ∃ lockKey body, w1.log = w.log ++ .Lock lockKey :: (body ++ [.Unlock lockKey]) ∧
    ∀ c ∈ body, isLockCall c = false

end Handlers

/-! ## `internal/interfaces/middleware/body_limit.go`, `internal/interfaces/router/router.go` -/

namespace Middleware

open Go

/-- Go `BodySizeLimit` on a multipart request: the body is wrapped in `http.MaxBytesReader`;
`ParseForm` does not read a multipart body, so the request goes on to the handler with the
limit in place. -/
def BodySizeLimit (limitBytes : Int) (body : Body) : Body :=
  body.MaxBytesReader limitBytes

end Middleware

namespace Router

open Go Handlers

/-- The body limit `SetupRouter` installs before every route: 1 MiB. -/
def bodyLimit : Int := 1 * 1024 * 1024

/-- The route `POST /api/documents/upload` as `SetupRouter` mounts it, for a multipart
request: `BodySizeLimit`, then `Upload`. -/
def Upload (h : DocumentHandler) (env : Env) (f : UploadFaults) (now : Instant)
    (newID : String) (uploadedAt : Instant) (req : UploadRequest) (w : World) : Outcome :=
  h.Upload env f now newID uploadedAt
    { req with body := Middleware.BodySizeLimit bodyLimit req.body } w

/-- The route `PUT /api/documents/:id/file` as `SetupRouter` mounts it, for a multipart
request with the given body and `file` part: `BodySizeLimit`, then `ReplaceFile`, whose
`FormFile` fails when the body cannot be read to its end. -/
def ReplaceFile (h : DocumentHandler) (env : Env) (f : ReplaceFaults) (now : Instant)
    (trashID rawID : String) (body : Body) (file : Option UploadedFile) (w : World) :
    Outcome :=
  h.ReplaceFile env f now trashID rawID
    (if (Middleware.BodySizeLimit bodyLimit body).readable then file else none) w

end Router

/-! ## Go strings as bytes

A Go string is a sequence of bytes, which need not be UTF-8. `sanitizeFilename` and the
library functions it calls are written here over bytes, with the decoding of `unicode/utf8`.
A rune is the natural number of its code point. -/

namespace Go

namespace ByteString

/-- One byte. -/
abbrev Byte := Fin 256

/-- Go `byte(n)`. -/
def byte (n : Nat) : Byte := ⟨n % 256, Nat.mod_lt n (by decide)⟩

/-- Go `utf8.RuneError`, the rune `U+FFFD`. -/
def RuneError : Nat := 0xFFFD

/-- The table `first` of `unicode/utf8` for a lead byte above ASCII: the width of the
encoding and the range `acceptRanges` gives for its second byte; `none` for a byte that
starts no encoding. -/
def first (b : Nat) : Option (Nat × Nat × Nat) :=
  if 0xC2 ≤ b ∧ b ≤ 0xDF then some (2, 0x80, 0xBF)
  else if b = 0xE0 then some (3, 0xA0, 0xBF)
  else if 0xE1 ≤ b ∧ b ≤ 0xEC then some (3, 0x80, 0xBF)
  else if b = 0xED then some (3, 0x80, 0x9F)
  else if 0xEE ≤ b ∧ b ≤ 0xEF then some (3, 0x80, 0xBF)
  else if b = 0xF0 then some (4, 0x90, 0xBF)
  else if 0xF1 ≤ b ∧ b ≤ 0xF3 then some (4, 0x80, 0xBF)
  else if b = 0xF4 then some (4, 0x80, 0x8F)
  else none

/-- Go `utf8.DecodeRuneInString`: the first rune of `s` and its width in bytes; `RuneError`
with width 1 when the first byte starts no valid encoding, `RuneError` with width 0 for the
empty string. -/
def DecodeRuneInString (s : List Byte) : Nat × Nat :=
  match s with
  | [] => (RuneError, 0)
  | s0 :: rest =>
    if s0.val < 0x80 then (s0.val, 1)
    else
      match first s0.val with
      | none => (RuneError, 1)
      | some (sz, lo, hi) =>
        if rest.length + 1 < sz then (RuneError, 1)
        else
          match rest with
          | [] => (RuneError, 1)
          | s1 :: r1 =>
            if s1.val < lo || hi < s1.val then (RuneError, 1)
            else if sz ≤ 2 then (s0.val % 32 * 64 + s1.val % 64, 2)
            else
              match r1 with
              | [] => (RuneError, 1)
              | s2 :: r2 =>
                if s2.val < 0x80 || 0xBF < s2.val then (RuneError, 1)
                else if sz ≤ 3 then
                  (s0.val % 16 * 4096 + s1.val % 64 * 64 + s2.val % 64, 3)
                else
                  match r2 with
                  | [] => (RuneError, 1)
                  | s3 :: _ =>
                    if s3.val < 0x80 || 0xBF < s3.val then (RuneError, 1)
                    else
                      (s0.val % 8 * 262144 + s1.val % 64 * 4096 + s2.val % 64 * 64 +
                        s3.val % 64, 4)

/-- Go `utf8.RuneStart`: the byte is not a continuation byte. -/
def RuneStart (b : Byte) : Bool := b.val / 64 != 2

/-- The loop of `utf8.DecodeLastRuneInString` that moves `start` back to a byte that can
start a rune, at most down to `lim`; the argument is `start` before the step and the result
is `start` after the loop, already raised to 0 if it fell below. -/
def scanBack (s : List Byte) (lim : Nat) : Nat → Nat
  | 0 => 0
  | start + 1 =>
    if lim ≤ start then
      if RuneStart (s.getD start 0) then start else scanBack s lim start
    else start

/-- Go `utf8.DecodeLastRuneInString`: the last rune of `s` and its width in bytes. -/
def DecodeLastRuneInString (s : List Byte) : Nat × Nat :=
  if s.length = 0 then (RuneError, 0)
  else if (s.getD (s.length - 1) 0).val < 0x80 then ((s.getD (s.length - 1) 0).val, 1)
  else
    let start := scanBack s (s.length - 4) (s.length - 1)
    let d := DecodeRuneInString (s.drop start)
    if start + d.2 != s.length then (RuneError, 1) else d

/-- Go `utf8.AppendRune` to an empty slice, which is what `strings.Builder.WriteRune` adds
to the builder: the UTF-8 encoding of the rune, and of `RuneError` for a surrogate or a
value above `U+10FFFF`. -/
def AppendRune (r : Nat) : List Byte :=
  if r ≤ 0x7F then [byte r]
  else if r ≤ 0x7FF then [byte (0xC0 + r / 64), byte (0x80 + r % 64)]
  else if r > 0x10FFFF ∨ (0xD800 ≤ r ∧ r ≤ 0xDFFF) then
    [byte (0xE0 + RuneError / 4096), byte (0x80 + RuneError / 64 % 64),
      byte (0x80 + RuneError % 64)]
  else if r ≤ 0xFFFF then
    [byte (0xE0 + r / 4096), byte (0x80 + r / 64 % 64), byte (0x80 + r % 64)]
  else
    [byte (0xF0 + r / 262144), byte (0x80 + r / 4096 % 64), byte (0x80 + r / 64 % 64),
      byte (0x80 + r % 64)]

/-- The bytes of a text: the UTF-8 encodings of its characters, one after the other. -/
def ofString (s : String) : List Byte :=
  s.data.flatMap (fun c => AppendRune c.toNat)

/-- The runes a `for _, r := range s` loop sees: one per valid encoding, and `RuneError`
for every byte that belongs to none. The first argument counts the bytes of the current
rune that are still to be passed. -/
def Runes : Nat → List Byte → List Nat
  | _, [] => []
  | k + 1, _ :: rest => Runes k rest
  | 0, b :: rest =>
    (DecodeRuneInString (b :: rest)).1 :: Runes ((DecodeRuneInString (b :: rest)).2 - 1) rest

/-- Go `utf8.ValidRune`. -/
def ValidRune (r : Nat) : Bool :=
  decide (r < 0xD800) || (decide (0xDFFF < r) && decide (r ≤ 0x10FFFF))

/-- Go `strings.Contains` on bytes. -/
def Contains (s sub : List Byte) : Bool :=
  s.tails.any (fun t => sub.isPrefixOf t)

/-- Go `strings.ContainsRune`, that is `IndexRune(s, r) >= 0`: a byte search for an ASCII
rune, a search through the decoded runes for `RuneError`, nothing for any other invalid
rune, and a search for the encoding otherwise. -/
def ContainsRune (s : List Byte) (r : Nat) : Bool :=
  if r < 0x80 then s.contains (byte r)
  else if r = RuneError then (Runes 0 s).contains RuneError
  else if !ValidRune r then false
  else Contains s (AppendRune r)

/-- Go `unicode.IsSpace`. -/
def IsSpace (r : Nat) : Bool :=
  if r ≤ 0xFF then
    decide (9 ≤ r ∧ r ≤ 13) || r == 0x20 || r == 0x85 || r == 0xA0
  else
    r == 0x1680 || decide (0x2000 ≤ r ∧ r ≤ 0x200A) || r == 0x2028 || r == 0x2029 ||
      r == 0x202F || r == 0x205F || r == 0x3000

/-- The table `asciiSpace` of `strings`: tab, line feed, vertical tab, form feed, carriage
return and the blank. -/
def asciiSpace (c : Byte) : Bool :=
  decide (9 ≤ c.val ∧ c.val ≤ 13) || c.val == 0x20

/-- Go `strings.TrimLeftFunc`: the string from its first rune that does not satisfy `f` on;
the first argument counts the bytes of the current rune that are still to be passed. -/
def TrimLeftFunc (f : Nat → Bool) : Nat → List Byte → List Byte
  | _, [] => []
  | k + 1, _ :: rest => TrimLeftFunc f k rest
  | 0, b :: rest =>
    if f (DecodeRuneInString (b :: rest)).1 then
      TrimLeftFunc f ((DecodeRuneInString (b :: rest)).2 - 1) rest
    else b :: rest

/-- Go `lastIndexFunc`: the index of the last rune whose `f` value is `truth`, decoding
backwards with `DecodeLastRuneInString`; `none` stands for -1. The second argument is the
loop variable `i`, the first counts the bytes of the rune just decoded that are still to be
passed. -/
def lastIndexFunc (s : List Byte) (f : Nat → Bool) (truth : Bool) : Nat → Nat → Option Nat
  | _, 0 => none
  | k + 1, i + 1 => lastIndexFunc s f truth k i
  | 0, i + 1 =>
    if f (DecodeLastRuneInString (s.take (i + 1))).1 == truth then
      some (i + 1 - (DecodeLastRuneInString (s.take (i + 1))).2)
    else lastIndexFunc s f truth ((DecodeLastRuneInString (s.take (i + 1))).2 - 1) i

/-- Go `strings.TrimRightFunc`. -/
def TrimRightFunc (s : List Byte) (f : Nat → Bool) : List Byte :=
  match lastIndexFunc s f false 0 s.length with
  | some i =>
    if (s.getD i 0).val ≥ 0x80 then s.take (i + (DecodeRuneInString (s.drop i)).2)
    else s.take (i + 1)
  | none => []

/-- Go `strings.TrimFunc`. -/
def TrimFunc (s : List Byte) (f : Nat → Bool) : List Byte :=
  TrimRightFunc (TrimLeftFunc f 0 s) f

/-- The second loop of `strings.TrimSpace`, which moves `stop` back over ASCII white space
and hands over to `TrimRightFunc` at a byte above ASCII; the argument is `s[start:stop]`
reversed. -/
def trimSpaceStop : List Byte → List Byte
  | [] => []
  | c :: rest =>
    if c.val ≥ 0x80 then TrimRightFunc (c :: rest).reverse IsSpace
    else if asciiSpace c then trimSpaceStop rest
    else (c :: rest).reverse

/-- Go `strings.TrimSpace`: the first loop moves `start` over ASCII white space and hands
over to `TrimFunc` at a byte above ASCII. -/
def TrimSpace : List Byte → List Byte
  | [] => []
  | c :: rest =>
    if c.val ≥ 0x80 then TrimFunc (c :: rest) IsSpace
    else if asciiSpace c then TrimSpace rest
    else trimSpaceStop (c :: rest).reverse

/-- Go `strings.ReplaceAll(s, " ", "_")`. -/
def replaceSpaces (l : List Byte) : List Byte :=
  l.map (fun c => if c = 0x20 then 0x5F else c)

/-- Go `strings.ReplaceAll(s, "..", ".")`: non-overlapping occurrences, left to right. -/
def replaceDotDot : List Byte → List Byte
  | 0x2E :: 0x2E :: rest => 0x2E :: replaceDotDot rest
  | c :: rest => c :: replaceDotDot rest
  | [] => []

end ByteString

end Go

namespace Handlers

open Go

namespace ByteString

open Go.ByteString

/-- The string `allowed` of `sanitizeFilename`. -/
def allowed : List Byte :=
  ofString "abcdefghijklmnopqrstuvwxyzABCDEFGHIJKLMNOPQRSTUVWXYZ0123456789-_."

/-- The loop of `sanitizeFilename` over the runes of the name, with what it writes to its
`strings.Builder`; the first argument counts the bytes of the current rune that are still to
be passed. -/
def sanitizeRunes : Nat → List Byte → List Byte
  | _, [] => []
  | k + 1, _ :: rest => sanitizeRunes k rest
  | 0, b :: rest =>
    (if ContainsRune allowed (DecodeRuneInString (b :: rest)).1 then
        AppendRune (DecodeRuneInString (b :: rest)).1
      else AppendRune 0x5F) ++
      sanitizeRunes ((DecodeRuneInString (b :: rest)).2 - 1) rest

/-- Go `sanitizeFilename` on the bytes of the name. -/
def sanitizeFilename (name : List Byte) : List Byte :=
  let n := replaceDotDot (replaceSpaces (TrimSpace name))
  let s := sanitizeRunes 0 n
  if s = [] then ofString "file" else if s.length > 100 then s.take 100 else s

end ByteString

end Handlers

/-! ## Fixtures

Concrete stand-ins for the external functions and a small world, used to run the handlers
on explicit requests. -/

namespace Fixture

open Go Entities Handlers

/-- Hexadecimal digit. -/
def isHex (c : Char) : Bool :=
  c.isDigit || ('a' ≤ c && c ≤ 'f') || ('A' ≤ c && c ≤ 'F')

/-- Stand-in for `uuid.Parse`: accepts the 36-character form and returns it in lower case. -/
def Parse (s : String) : Option String :=
  if s.data.length = 36 &&
      s.data.enum.all (fun ic =>
        if ic.1 = 8 ∨ ic.1 = 13 ∨ ic.1 = 18 ∨ ic.1 = 23 then ic.2 == '-' else isHex ic.2) then
    some (ToLower s)
  else none

/-- Stand-in for `http.DetectContentType`: recognises the `%PDF-` signature. -/
def DetectContentType (b : Bytes) : String :=
  if ([0x25, 0x50, 0x44, 0x46, 0x2D] : Bytes).isPrefixOf b then "application/pdf"
  else "application/octet-stream"

/-- Stand-in for `url.ParseRequestURI`: accepts what starts with a scheme or a slash. -/
def ParseRequestURI (s : String) : Option String :=
  if Contains s "://" || "/".data.isPrefixOf s.data then some s else none

/-- The `uuid4` tag of the validator: the 36-character form in lower-case hexadecimal
digits with version digit `4` and variant digit `8`, `9`, `a` or `b`. -/
def isUUID4 (s : String) : Bool :=
  s.data.length = 36 &&
    s.data.enum.all (fun ic =>
      if ic.1 = 8 ∨ ic.1 = 13 ∨ ic.1 = 18 ∨ ic.1 = 23 then ic.2 == '-'
      else if ic.1 = 14 then ic.2 == '4'
      else if ic.1 = 19 then ic.2 == '8' || ic.2 == '9' || ic.2 == 'a' || ic.2 == 'b'
      else ic.2.isDigit || ('a' ≤ ic.2 && ic.2 ≤ 'f'))

/-- The external functions used in the examples; the storage has no public base URL and
gin's binding requires the three form fields to be present and the owner id to have the
`uuid4` form. -/
def env : Env :=
  { URL := fun key => "s3://docs/" ++ key,
    ParseRequestURI := ParseRequestURI,
    DetectContentType := DetectContentType,
    Parse := Parse,
    md5 := fun _ => "",
    driverError := fun _ => none,
    ShouldBindWith := fun ownerType ownerID type_ =>
      if ownerType = "" ∨ ownerID = "" ∨ type_ = "" ∨ isUUID4 ownerID = false then some []
      else none }

/-- A world without blobs, rows or calls. -/
def emptyWorld : World := ⟨fun _ => none, fun _ => none, []⟩

/-- No call fails. -/
def noUploadFaults : UploadFaults := ⟨none, none, none, none, none⟩

/-- No call fails. -/
def noBackupFaults : BackupFaults := ⟨none, none, none, none⟩

/-- No call fails. -/
def noDeleteFaults : DeleteFaults := ⟨none, none, noBackupFaults, none, none, none, none, none⟩

/-- No call fails. -/
def noReplaceFaults : ReplaceFaults :=
  ⟨none, none, none, none, noBackupFaults, none, none, none, none, none, none, none, none⟩

/-- A small PDF file. -/
def pdfBytes : Bytes := [0x25, 0x50, 0x44, 0x46, 0x2D, 0x31, 0x2E, 0x34]

/-- Another small PDF file. -/
def pdfBytes2 : Bytes := [0x25, 0x50, 0x44, 0x46, 0x2D, 0x31, 0x2E, 0x37, 0x0A]

/-- The file part `id.pdf`. -/
def idPdf (content : Bytes) : UploadedFile :=
  ⟨⟨"id.pdf", content.length⟩, content, true⟩

/-- An owner id. -/
def ownerE1 : String := "11111111-1111-4111-8111-111111111111"

/-- A document id. -/
def docD1 : String := "22222222-2222-4222-8222-222222222222"

/-- A value of `uuid.NewString()`. -/
def trashT1 : String := "33333333-3333-4333-8333-333333333333"

/-- An instant. -/
def t0 : Instant := ⟨2025, 3, 14, 9, 26, 53⟩

/-- An upload of `id.pdf` for employee `ownerE1` with the given form values. -/
def uploadReq (ownerType type_ : String) : UploadRequest :=
  ⟨ownerType, ownerE1, type_, some (idPdf pdfBytes), ⟨700, none⟩⟩

/-- The key `Upload` derives for `id.pdf` of employee `ownerE1` at `t0`. -/
def keyK1 : String := "employee/11111111-1111-4111-8111-111111111111/id_20250314T092653Z.pdf"

/-- The row of document `docD1`, stored under `keyK1`. -/
def rowD1 : Document :=
  { ID := docD1, OwnerType := "employee", OwnerID := ownerE1, Type_ := "BI",
    FileName := "id.pdf", FileURL := "s3://docs/" ++ keyK1, Extension := "pdf",
    IsActive := true, UploadedAt := t0, ObjectKey := keyK1 }

/-- A world holding document `docD1` and its blob. -/
def worldD1 : World :=
  ⟨fun key => if key = keyK1 then some pdfBytes else none,
   fun id => if id = docD1 then some rowD1 else none, []⟩

end Fixture

/-! # Properties -/

/-! ## Keyed lock registry -/

namespace Utils

/-- What holds of the registry between complete calls: the map lists exactly the
outstanding closures, each of their entries is locked with one reference, and no entry is
shared. -/
structure RegInv (k : KeyedLocker) (held : List (String × Nat)) : Prop where
  map_eq : k.m = held
  ent : ∀ kv ∈ held, k.heap[kv.2]? = some ⟨true, 1⟩
  nodup : (held.map Prod.snd).Nodup

theorem RegInv.lt {k : KeyedLocker} {held : List (String × Nat)} (h : RegInv k held)
    {kv : String × Nat} (hkv : kv ∈ held) : kv.2 < k.heap.length := by
  have := h.ent kv hkv
  by_contra hlt
  rw [List.getElem?_eq_none (by omega)] at this
  exact Option.noConfusion this

theorem RegInv.init : RegInv NewKeyedLocker [] :=
  ⟨rfl, by simp, by simp⟩

/-- A `Lock` of a key without outstanding closure returns at once and keeps the invariant. -/
theorem RegInv.Lock {k : KeyedLocker} {held : List (String × Nat)} (h : RegInv k held)
    (key : String) (hkey : held.lookup key = none) :
    k.Lock key = some (⟨((k.heap ++ [(⟨false, 0⟩ : entry)]).set k.heap.length ⟨false, 1⟩).set
        k.heap.length ⟨true, 1⟩, k.m ++ [(key, k.heap.length)]⟩, k.heap.length) ∧
    RegInv ⟨((k.heap ++ [(⟨false, 0⟩ : entry)]).set k.heap.length ⟨false, 1⟩).set
        k.heap.length ⟨true, 1⟩, k.m ++ [(key, k.heap.length)]⟩ (held ++ [(key, k.heap.length)]) := by
  have hm := h.map_eq
  refine ⟨?_, ?_, ?_, ?_⟩
  · simp [KeyedLocker.Lock, KeyedLocker.LoadOrStore, hm, hkey, KeyedLocker.AddInt64,
      KeyedLocker.muLock]
  · simp [hm]
  · intro kv hkv
    rcases List.mem_append.1 hkv with hkv | hkv
    · have hlt := h.lt hkv
      have hne : k.heap.length ≠ kv.2 := by omega
      simp only [List.getElem?_set_ne hne]
      rw [List.getElem?_append_left hlt]
      exact h.ent kv hkv
    · simp only [List.mem_singleton] at hkv
      subst hkv
      simp
  · rw [List.map_append, List.nodup_append]
    refine ⟨h.nodup, by simp, ?_⟩
    intro a ha hb
    simp only [List.map_cons, List.map_nil, List.mem_singleton] at hb
    obtain ⟨kv, hkv, rfl⟩ := List.mem_map.1 ha
    have := h.lt hkv
    omega

/-- Calling an outstanding closure keeps the invariant and removes its key. -/
theorem RegInv.unlock {k : KeyedLocker} {held : List (String × Nat)} (h : RegInv k held)
    (key : String) (e : Nat) (hkey : held.lookup key = some e) :
    RegInv (k.unlock key e) (held.filter (fun kv => kv.1 != key)) := by
  have hmem : (key, e) ∈ held := by
    obtain ⟨l₁, l₂, rfl, -⟩ := List.lookup_eq_some_iff.1 hkey
    simp
  have hent := h.ent _ hmem
  have hlt := h.lt hmem
  have hun : k.unlock key e =
      ⟨(k.heap.set e ⟨false, 1⟩).set e ⟨false, 0⟩, k.m.filter (fun kv => kv.1 != key)⟩ := by
    simp [KeyedLocker.unlock, KeyedLocker.muUnlock, KeyedLocker.AddInt64, hent, hlt,
      KeyedLocker.mapDelete]
  rw [hun]
  refine ⟨by simp [h.map_eq], ?_, ?_⟩
  · intro kv hkv
    obtain ⟨hkv, hne⟩ := List.mem_filter.1 hkv
    have hne2 : e ≠ kv.2 := by
      intro heq
      have := List.inj_on_of_nodup_map h.nodup hmem hkv heq
      simp [← this] at hne
    simp only [List.getElem?_set_ne hne2]
    exact h.ent kv hkv
  · exact h.nodup.sublist ((List.filter_sublist _).map _)

/-- A well-formed sequence of complete calls runs to the end and leaves the map empty. -/
theorem runEvs_wellFormed (evs : List Ev) :
    ∀ (k : KeyedLocker) (held : List (String × Nat)) (used open_ : List String),
      RegInv k held → (∀ x, x ∈ open_ ↔ ∃ e, (x, e) ∈ held) → (∀ x ∈ open_, x ∈ used) →
      wellFormed evs used open_ = true →
      ∃ k1, runEvs evs (k, held) = some (k1, []) ∧ k1.m = [] := by
  induction evs with
  | nil =>
    intro k held used open_ hinv hop hus hwf
    simp only [wellFormed, List.isEmpty_iff] at hwf
    subst hwf
    have hh : held = [] := by
      cases held with
      | nil => rfl
      | cons kv t => exact absurd ((hop kv.1).2 ⟨kv.2, by simp⟩) (by simp)
    subst hh
    exact ⟨k, rfl, hinv.map_eq⟩
  | cons ev rest ih =>
    intro k held used open_ hinv hop hus hwf
    cases ev with
    | lock key =>
      simp only [wellFormed, Bool.and_eq_true, Bool.not_eq_true', List.contains_eq_any_beq,
        List.any_eq_false, beq_iff_eq] at hwf
      obtain ⟨hfresh, hwf⟩ := hwf
      have hnone : held.lookup key = none := by
        rw [List.lookup_eq_none_iff]
        intro p hp
        simp only [bne_iff_ne, ne_eq]
        intro heq
        have h1 : p.1 ∈ open_ := (hop p.1).2 ⟨p.2, hp⟩
        exact hfresh p.1 (hus _ h1) heq
      obtain ⟨hL, hinv2⟩ := hinv.Lock key hnone
      simp only [runEvs, hL]
      apply ih _ _ (key :: used) (key :: open_) hinv2
      · intro x
        constructor
        · intro hx
          rcases List.mem_cons.1 hx with rfl | hx
          · exact ⟨_, List.mem_append_right _ (List.mem_singleton.2 rfl)⟩
          · obtain ⟨e, he⟩ := (hop x).1 hx
            exact ⟨e, List.mem_append_left _ he⟩
        · rintro ⟨e, he⟩
          rcases List.mem_append.1 he with he | he
          · exact List.mem_cons_of_mem _ ((hop x).2 ⟨e, he⟩)
          · have := List.mem_singleton.1 he
            simp only [Prod.mk.injEq] at this
            rw [this.1]
            exact List.mem_cons_self _ _
      · intro x hx
        rcases List.mem_cons.1 hx with rfl | hx
        · simp
        · exact List.mem_cons_of_mem _ (hus x hx)
      · exact hwf
    | unlock key =>
      simp only [wellFormed, Bool.and_eq_true, List.contains_eq_any_beq, List.any_eq_true,
        beq_iff_eq] at hwf
      obtain ⟨⟨x, hx, hxk⟩, hwf⟩ := hwf
      have hx : key ∈ open_ := by
        have hxk2 : key = x := hxk
        rw [hxk2]; exact hx
      obtain ⟨e, he⟩ := (hop key).1 hx
      have hsome : (held.lookup key).isSome := by
        rw [List.lookup_isSome_iff]
        exact ⟨(key, e), he, by simp⟩
      obtain ⟨e1, he1⟩ := Option.isSome_iff_exists.1 hsome
      simp only [runEvs, he1]
      apply ih _ _ used (open_.filter (fun y => y != key)) (hinv.unlock key e1 he1)
      · intro y
        simp only [List.mem_filter, bne_iff_ne, ne_eq]
        constructor
        · rintro ⟨hy, hne⟩
          obtain ⟨e2, he2⟩ := (hop y).1 hy
          exact ⟨e2, he2, hne⟩
        · rintro ⟨e2, he2, hne⟩
          exact ⟨(hop y).2 ⟨e2, he2⟩, hne⟩
      · intro y hy
        exact hus y (List.mem_filter.1 hy).1
      · exact hwf

theorem wellFormed_locks (rest : List Ev) (keys : List String) :
    ∀ used open_ : List String, keys.Nodup → (∀ k ∈ keys, k ∉ used) →
      wellFormed (keys.map Ev.lock ++ rest) used open_ =
        wellFormed rest (keys.reverse ++ used) (keys.reverse ++ open_) := by
  induction keys with
  | nil => intro used open_ _ _; rfl
  | cons k ks ih =>
    intro used open_ hnd hfresh
    have hk : k ∉ used := hfresh k (List.mem_cons_self _ _)
    have hnd2 := List.nodup_cons.1 hnd
    have hc : used.contains k = false := by
      simpa using hk
    simp only [List.map_cons, List.cons_append, wellFormed, hc, Bool.not_false, Bool.true_and]
    show wellFormed (List.map Ev.lock ks ++ rest) (k :: used) (k :: open_) = _
    rw [ih (k :: used) (k :: open_) hnd2.2]
    · simp [List.reverse_cons, List.append_assoc]
    · intro x hx
      simp only [List.mem_cons, not_or]
      exact ⟨fun hxk => hnd2.1 (hxk ▸ hx), hfresh x (List.mem_cons_of_mem _ hx)⟩

theorem wellFormed_unlocks (order : List String) :
    ∀ used open_ : List String, order.Nodup → (∀ x, x ∈ open_ ↔ x ∈ order) →
      wellFormed (order.map Ev.unlock) used open_ = true := by
  induction order with
  | nil =>
    intro used open_ _ hmem
    cases open_ with
    | nil => rfl
    | cons a t => exact absurd ((hmem a).1 (List.mem_cons_self _ _)) (by simp)
  | cons k ks ih =>
    intro used open_ hnd hmem
    have hnd2 := List.nodup_cons.1 hnd
    have hk : open_.contains k = true := by
      simpa using (hmem k).2 (List.mem_cons_self _ _)
    simp only [List.map_cons, wellFormed, hk, Bool.true_and]
    apply ih used _ hnd2.2
    intro x
    simp only [List.mem_filter, bne_iff_ne, ne_eq]
    constructor
    · rintro ⟨hx, hne⟩
      rcases List.mem_cons.1 ((hmem x).1 hx) with h1 | h1
      · exact absurd h1 hne
      · exact h1
    · intro hx
      exact ⟨(hmem x).2 (List.mem_cons_of_mem _ hx), fun hxk => hnd2.1 (hxk ▸ hx)⟩

/-- Locking distinct keys one after the other and then calling the returned closures in any
order is a well-formed sequence. -/
theorem wellFormed_locks_then_unlocks (keys order : List String) (hnd : keys.Nodup)
    (hperm : order.Perm keys) :
    wellFormed (keys.map Ev.lock ++ order.map Ev.unlock) [] [] = true := by
  rw [wellFormed_locks _ keys [] [] hnd (by simp)]
  apply wellFormed_unlocks order _ _ (hperm.nodup_iff.2 hnd)
  intro x
  simp [hperm.mem_iff]

/-- C1: the mutual exclusion claimed for `Lock` fails on the code. Three goroutines call
`Lock("k")`; goroutine 1 performs `LoadOrStore` and is then overtaken by goroutine 0, which
releases, decrements to zero and deletes the map entry; goroutine 1 goes on with the stale
entry and goroutine 2 with a fresh one, and both are inside the critical section at once. -/
theorem KeyedLocker_Lock_two_holders :
    (runSchedule [0, 0, 0, 1, 0, 0, 0, 1, 1, 2, 2, 2] (initSys ["k", "k", "k"])).map
      (fun s => holders s "k") = some 2 := by
  decide

/-- C2: for every sequence of complete `Lock` calls on distinct keys and calls of the
returned closures (each exactly once, after its `Lock`, in any order), every call returns
and the registry map ends with no entries. -/
theorem KeyedLocker_registry_empty_after_release (evs : List Ev)
    (h : wellFormed evs [] [] = true) :
    ∃ k, runEvs evs (NewKeyedLocker, []) = some (k, []) ∧ k.m = [] :=
  runEvs_wellFormed evs NewKeyedLocker [] [] [] RegInv.init (by simp) (by simp) h

/-- C2 at three keys released out of order. -/
theorem KeyedLocker_registry_empty_after_release_witness :
    wellFormed [.lock "a", .lock "b", .unlock "a", .lock "c", .unlock "c", .unlock "b"] [] [] = true ∧
    ∃ k, runEvs [.lock "a", .lock "b", .unlock "a", .lock "c", .unlock "c", .unlock "b"]
      (NewKeyedLocker, []) = some (k, []) ∧ k.m = [] :=
  ⟨by decide, KeyedLocker_registry_empty_after_release _ (by decide)⟩

end Utils

/-! ## Helper lemmas on the handler -/

namespace Go

theorem takeWhile_append_cons_ne (q : Char → Bool) (c : Char) (rest : List Char)
    (hc : q c = true) :
    ∀ t : List Char, (∀ a ∈ t, q a = true) → (t ++ c :: rest).takeWhile q ≠ t := by
  intro t
  induction t with
  | nil => intro _; simp [List.takeWhile, hc]
  | cons a t ih =>
    intro ht
    have ha : q a = true := ht a (List.mem_cons_self _ _)
    have ih2 := ih (fun b hb => ht b (List.mem_cons_of_mem _ hb))
    simp only [List.cons_append, List.takeWhile_cons, ha, if_true]
    intro h
    exact ih2 (List.cons.inj h).2

theorem dropWhile_append_cons_eq (p : Char → Bool) (c : Char) (rest : List Char)
    (hc : p c = false) :
    ∀ t : List Char, (∀ a ∈ t, p a = false) → (t ++ c :: rest).dropWhile p = t ++ c :: rest := by
  intro t ht
  cases t with
  | nil => simp [List.dropWhile, hc]
  | cons a t => simp [List.dropWhile, ht a (List.mem_cons_self _ _)]

/-- A path never ends with an underscore followed by its own last element. -/
theorem Base_not_suffix (pre : List Char) (key : String)
    (h : key.data = pre ++ '_' :: (Base key).data) : False := by
  unfold Base at h
  split at h
  · rename_i h0
    rw [h0] at h
    simp at h
  · rename_i h0
    simp only at h
    split at h
    · rename_i h1
      have hall : ∀ a ∈ key.data.reverse, (a == '/') = true := by
        intro a ha
        by_contra hne
        have := List.dropWhile_eq_nil_iff.1 h1 a ha
        exact hne this
      have hmem : '_' ∈ key.data.reverse := by
        rw [h]; simp
      have := hall _ hmem
      simp at this
    · rename_i h1
      set r := List.dropWhile (fun c => c == '/') key.data.reverse with hr
      set t := List.takeWhile (fun c => c != '/') r with ht
      have htall : ∀ a ∈ t, (a != '/') = true := fun a ha =>
        List.mem_takeWhile_imp (p := fun c => c != '/') ha
      have hrev : key.data.reverse = t ++ '_' :: pre.reverse := by
        rw [h]; simp
      have hr2 : r = t ++ '_' :: pre.reverse := by
        rw [hr, hrev]
        apply dropWhile_append_cons_eq
        · decide
        · intro a ha
          have := htall a ha
          simpa using this
      have := takeWhile_append_cons_ne (fun c => c != '/') '_' pre.reverse (by decide) t htall
      apply this
      rw [← hr2]

end Go

namespace Handlers

open Go Entities DocumentsUC

/-- The trash key differs from the key it backs up. -/
theorem trashKeyFor_ne (h : DocumentHandler) (id key : String) : trashKeyFor h id key ≠ key := by
  intro heq
  have hd := congrArg String.data heq
  simp only [trashKeyFor, String.data_append] at hd
  apply Base_not_suffix ((TrimSuffix h.TrashPrefix "/").data ++ "/".data ++ id.data) key
  rw [← hd]
  simp

theorem sniffAndReset_ok {env : Env} {read : Option Err} {file : UploadedFile} {ct : String}
    {rdr : Bytes} (h : sniffAndReset env read file = .ok (ct, rdr)) :
    ct = env.DetectContentType (file.content.take 512) ∧ rdr = file.content := by
  unfold sniffAndReset at h
  split at h
  · simp at h; exact ⟨h.1.symm, h.2.symm⟩
  · split at h
    · simp at h
    · simp at h
      refine ⟨h.1.symm, ?_⟩
      rw [← h.2]

theorem computeMD5AndSize_ok {env : Env} {copy : Option Err} {rest : Bytes} {sum : String}
    {size : Int} {rdr : Bytes} (h : computeMD5AndSize env copy rest = .ok (sum, size, rdr)) :
    rdr = rest := by
  unfold computeMD5AndSize at h
  split at h
  · simp at h
  · simp at h; exact h.2.2.symm

/-- What `Upload` does: either an answer without having called anything, or the locked
part run on the whole content of the file, all checks having passed. -/
theorem Upload_cases (h : DocumentHandler) (env : Env) (f : UploadFaults) (now : Instant)
    (newID : String) (uploadedAt : Instant) (req : UploadRequest) (w : World) :
    (∃ st p, h.Upload env f now newID uploadedAt req w = ⟨w, some (.JSON st p), false⟩) ∨
    (∃ file ownerID, req.file = some file ∧ env.Parse req.OwnerID = some ownerID ∧
      ¬ file.header.Size ≤ 0 ∧ ¬ (h.MaxUploadSize > 0 ∧ file.header.Size > h.MaxUploadSize) ∧
      (!h.AllowedExts.isEmpty && !h.AllowedExts.contains (ToLower (Ext file.header.Filename))) = false ∧
      (!h.AllowedTypes.isEmpty &&
        !h.AllowedTypes.contains (env.DetectContentType (file.content.take 512))) = false ∧
      h.Upload env f now newID uploadedAt req w =
        deferUnlock (uploadLockKey req.OwnerType ownerID file.header.Filename)
          (h.uploadLocked env f now newID uploadedAt req ownerID file.header
            (ToLower (Ext file.header.Filename)) file.content
            (w.call (.Lock (uploadLockKey req.OwnerType ownerID file.header.Filename))))) := by
  unfold DocumentHandler.Upload
  dsimp only
  generalize (if h.MaxUploadSize > 0 then req.body.MaxBytesReader (h.MaxUploadSize + 1024)
    else req.body) = body
  cases hrd : body.readable with
  | false => simp only [Bool.not_false, if_true]; exact Or.inl ⟨_, _, rfl⟩
  | true =>
  simp only [Bool.not_true, Bool.false_eq_true, if_false]
  cases hb : env.ShouldBindWith req.OwnerType req.OwnerID req.Type_ with
  | some fields => exact Or.inl ⟨_, _, rfl⟩
  | none =>
  cases hfile : req.file with
  | none => exact Or.inl ⟨_, _, rfl⟩
  | some file =>
  simp only
  by_cases hs : file.header.Size ≤ 0
  · rw [if_pos hs]; exact Or.inl ⟨_, _, rfl⟩
  rw [if_neg hs]
  by_cases hm : h.MaxUploadSize > 0 ∧ file.header.Size > h.MaxUploadSize
  · rw [if_pos hm]; exact Or.inl ⟨_, _, rfl⟩
  rw [if_neg hm]
  cases hext : (!h.AllowedExts.isEmpty && !h.AllowedExts.contains (ToLower (Ext file.header.Filename))) with
  | true => simp only [if_true]; exact Or.inl ⟨_, _, rfl⟩
  | false =>
  simp only [Bool.false_eq_true, if_false]
  cases hsn : sniffAndReset env f.read file with
  | error e => exact Or.inl ⟨_, _, rfl⟩
  | ok r =>
  obtain ⟨ct, rdr⟩ := r
  obtain ⟨hct, hrdr⟩ := sniffAndReset_ok hsn
  subst hct hrdr
  simp only
  cases hty : (!h.AllowedTypes.isEmpty &&
      !h.AllowedTypes.contains (env.DetectContentType (file.content.take 512))) with
  | true => simp only [if_true]; exact Or.inl ⟨_, _, rfl⟩
  | false =>
  simp only [Bool.false_eq_true, if_false]
  cases hp : env.Parse req.OwnerID with
  | none => exact Or.inl ⟨_, _, rfl⟩
  | some ownerID =>
  simp only
  cases hmd : computeMD5AndSize env f.md5copy file.content with
  | error e => exact Or.inl ⟨_, _, rfl⟩
  | ok r =>
  obtain ⟨sum, size, rdr2⟩ := r
  have := computeMD5AndSize_ok hmd
  subst this
  exact Or.inr ⟨file, ownerID, rfl, rfl, hs, hm, hext, hty, rfl⟩

/-- A request that passes every check `Upload` makes before taking the lock reaches
`Save`. -/
theorem Upload_pass (h : DocumentHandler) (env : Env) (f : UploadFaults) (now : Instant)
    (newID : String) (uploadedAt : Instant) (req : UploadRequest) (w : World)
    (file : UploadedFile) (ownerID : String)
    (hbody : (if h.MaxUploadSize > 0 then req.body.MaxBytesReader (h.MaxUploadSize + 1024)
      else req.body).readable = true)
    (hbind : env.ShouldBindWith req.OwnerType req.OwnerID req.Type_ = none)
    (hfile : req.file = some file) (hsize : 0 < file.header.Size)
    (hmax : ¬ (h.MaxUploadSize > 0 ∧ file.header.Size > h.MaxUploadSize))
    (hext : (!h.AllowedExts.isEmpty &&
      !h.AllowedExts.contains (ToLower (Ext file.header.Filename))) = false)
    (hread : file.seeker = true ∨ f.read = none)
    (htype : (!h.AllowedTypes.isEmpty &&
      !h.AllowedTypes.contains (env.DetectContentType (file.content.take 512))) = false)
    (hid : env.Parse req.OwnerID = some ownerID) (hmd5 : f.md5copy = none) :
    h.Upload env f now newID uploadedAt req w =
      deferUnlock (uploadLockKey req.OwnerType ownerID file.header.Filename)
        (h.uploadLocked env f now newID uploadedAt req ownerID file.header
          (ToLower (Ext file.header.Filename)) file.content
          (w.call (.Lock (uploadLockKey req.OwnerType ownerID file.header.Filename)))) := by
  have hsn : sniffAndReset env f.read file =
      .ok (env.DetectContentType (file.content.take 512), file.content) := by
    unfold sniffAndReset
    rcases hread with h1 | h1
    · simp [h1]
    · cases hs : file.seeker <;> simp [h1, List.take_append_drop]
  unfold DocumentHandler.Upload
  simp only [hbody, Bool.not_true, Bool.false_eq_true, if_false, hbind, hfile,
    not_le.mpr hsize, hmax, hext, hsn, htype, hid, computeMD5AndSize, hmd5]

end Handlers

namespace Handlers

open Go Entities DocumentsUC

/-- What `CreateDocumentUseCase.Execute` does: an error for an invalid owner type, an abort
for another invalid value, and otherwise one `Create` call whose result it returns. -/
theorem Execute_cases (p : String → Option String) (fault : Option Err) (newID : String)
    (t : Instant) (input : CreateDocumentInput) (w : World) :
    (Vos.DocumentOwnerType.IsValid input.OwnerType = false ∧
      CreateDocumentUseCase.Execute p fault newID t input w =
        (w, .error (.msg "invalid owner_type"))) ∨
    (Vos.DocumentOwnerType.IsValid input.OwnerType = true ∧
      ∃ e, CreateDocumentUseCase.Execute p fault newID t input w = (w, .panic e)) ∨
    (Vos.DocumentOwnerType.IsValid input.OwnerType = true ∧
      ∃ e, fault = some e ∧
        CreateDocumentUseCase.Execute p fault newID t input w =
          (w.call (.Create newID), .error e)) ∨
    (Vos.DocumentOwnerType.IsValid input.OwnerType = true ∧ fault = none ∧
      ∃ doc : Document, doc.ID = newID ∧ doc.ObjectKey = input.ObjectKey ∧
        CreateDocumentUseCase.Execute p fault newID t input w =
          (⟨w.blobs, Function.update w.rows newID (some doc), w.log ++ [.Create newID]⟩,
            .ok doc)) := by
  unfold CreateDocumentUseCase.Execute
  cases hv : Vos.DocumentOwnerType.IsValid input.OwnerType with
  | false => simp
  | true =>
    simp only [Bool.not_true, Bool.false_eq_true, if_false]
    cases Vos.NewDocumentType input.Type_ with
    | error e => exact Or.inr (Or.inl ⟨trivial, e, rfl⟩)
    | ok ty =>
    cases Vos.NewFilename input.FileName with
    | error e => exact Or.inr (Or.inl ⟨trivial, e, rfl⟩)
    | ok name =>
    cases Vos.NewDocumentURL p input.FileURL with
    | error e => exact Or.inr (Or.inl ⟨trivial, e, rfl⟩)
    | ok url =>
    cases Vos.NewFileExtension input.Extension with
    | error e => exact Or.inr (Or.inl ⟨trivial, e, rfl⟩)
    | ok ext =>
    cases fault with
    | some e => exact Or.inr (Or.inr (Or.inl ⟨trivial, e, rfl, rfl⟩))
    | none => exact Or.inr (Or.inr (Or.inr ⟨trivial, rfl, _, rfl, rfl, rfl⟩))

/-- The five ways the locked part of `Upload` ends: `Save` failed; the owner type was
refused and the blob rolled back; the use case aborted; `Create` failed and the blob was
rolled back; or the row was created. -/
theorem uploadLocked_cases (h : DocumentHandler) (env : Env) (f : UploadFaults) (now : Instant)
    (newID : String) (uploadedAt : Instant) (req : UploadRequest) (ownerID : String)
    (header : FileHeader) (ext : String) (rdr : Bytes) (w : World) :
    (∃ e, f.save = some e ∧
      h.uploadLocked env f now newID uploadedAt req ownerID header ext rdr w =
        ⟨w.call (.Save (buildObjectKey now req.OwnerType ownerID header.Filename)),
          some (internal "Falha ao subir ficheiro no storage"), false⟩) ∨
    (f.save = none ∧ Vos.DocumentOwnerType.IsValid req.OwnerType = false ∧
      ∃ st p, h.uploadLocked env f now newID uploadedAt req ownerID header ext rdr w =
        ⟨((⟨Function.update w.blobs (buildObjectKey now req.OwnerType ownerID header.Filename)
              (some rdr), w.rows,
            w.log ++ [.Save (buildObjectKey now req.OwnerType ownerID header.Filename)]⟩ :
            World).Delete f.rollback
            (buildObjectKey now req.OwnerType ownerID header.Filename)).1,
          some (.JSON st p), false⟩) ∨
    (f.save = none ∧ Vos.DocumentOwnerType.IsValid req.OwnerType = true ∧
      h.uploadLocked env f now newID uploadedAt req ownerID header ext rdr w =
        ⟨⟨Function.update w.blobs (buildObjectKey now req.OwnerType ownerID header.Filename)
              (some rdr), w.rows,
            w.log ++ [.Save (buildObjectKey now req.OwnerType ownerID header.Filename)]⟩,
          none, true⟩) ∨
    (f.save = none ∧ Vos.DocumentOwnerType.IsValid req.OwnerType = true ∧ f.create ≠ none ∧
      ∃ st p, h.uploadLocked env f now newID uploadedAt req ownerID header ext rdr w =
        ⟨((⟨Function.update w.blobs (buildObjectKey now req.OwnerType ownerID header.Filename)
              (some rdr), w.rows,
            w.log ++ [.Save (buildObjectKey now req.OwnerType ownerID header.Filename)] ++
              [.Create newID]⟩ : World).Delete f.rollback
            (buildObjectKey now req.OwnerType ownerID header.Filename)).1,
          some (.JSON st p), false⟩) ∨
    (f.save = none ∧ Vos.DocumentOwnerType.IsValid req.OwnerType = true ∧ f.create = none ∧
      ∃ doc : Document, doc.ID = newID ∧
        doc.ObjectKey = buildObjectKey now req.OwnerType ownerID header.Filename ∧
        h.uploadLocked env f now newID uploadedAt req ownerID header ext rdr w =
          ⟨⟨Function.update w.blobs (buildObjectKey now req.OwnerType ownerID header.Filename)
                (some rdr), Function.update w.rows newID (some doc),
              w.log ++ [.Save (buildObjectKey now req.OwnerType ownerID header.Filename)] ++
                [.Create newID]⟩,
            some (.Document 201 doc), false⟩) := by
  unfold DocumentHandler.uploadLocked
  cases hsave : f.save with
  | some e => exact Or.inl ⟨e, rfl, by simp [World.Save, World.call]⟩
  | none =>
    simp only [World.Save, World.call]
    rcases Execute_cases env.ParseRequestURI f.create newID uploadedAt
      { OwnerType := req.OwnerType, OwnerID := ownerID, Type_ := req.Type_,
        FileName := sanitizeFilename header.Filename,
        FileURL := env.URL (buildObjectKey now req.OwnerType ownerID header.Filename),
        Extension := TrimPrefix ext ".", IsActive := true,
        ObjectKey := buildObjectKey now req.OwnerType ownerID header.Filename }
      ⟨Function.update w.blobs (buildObjectKey now req.OwnerType ownerID header.Filename)
        (some rdr), w.rows,
        w.log ++ [.Save (buildObjectKey now req.OwnerType ownerID header.Filename)]⟩
      with ⟨hv, hE⟩ | ⟨hv, e, hE⟩ | ⟨hv, e, hf, hE⟩ | ⟨hv, hf, doc, hid, hkey, hE⟩
    · refine Or.inr (Or.inl ⟨by trivial, hv, ?_⟩)
      rw [hE]
      simp only
      cases HumanizeDB env (Err.msg "invalid owner_type") with
      | none => exact ⟨_, _, rfl⟩
      | some r => exact ⟨_, _, rfl⟩
    · refine Or.inr (Or.inr (Or.inl ⟨by trivial, hv, ?_⟩))
      rw [hE]
    · refine Or.inr (Or.inr (Or.inr (Or.inl ⟨by trivial, hv, by simp [hf], ?_⟩)))
      rw [hE]
      simp only [World.call]
      cases HumanizeDB env e with
      | none => exact ⟨_, _, rfl⟩
      | some r => exact ⟨_, _, rfl⟩
    · refine Or.inr (Or.inr (Or.inr (Or.inr ⟨by trivial, hv, hf, doc, hid, hkey, ?_⟩)))
      rw [hE]

end Handlers

namespace Handlers

open Go Entities DocumentsUC Fixture

/-- Calling `cleanup(ctx)` never saves. -/
theorem Cleanup_run_log {c : Cleanup} {fault : Option Err} {w w1 : World} {r : Option Err}
    (key : String) (hrun : c.run fault w = some (w1, r)) :
    Call.Save key ∈ w1.log → Call.Save key ∈ w.log := by
  cases c with
  | nil => simp [Cleanup.run] at hrun
  | noop =>
    simp only [Cleanup.run, Option.some.injEq, Prod.mk.injEq] at hrun
    rw [← hrun.1]; exact id
  | delete tk =>
    simp only [Cleanup.run, Option.some.injEq] at hrun
    have h1 : w1 = (w.Delete fault tk).1 := by rw [hrun]
    rw [h1]
    cases fault <;> simp [World.Delete, World.call]

/-- The deferred `cleanup(ctx)` never saves. -/
theorem deferCleanup_log (c : Cleanup) (fault : Option Err) (out : Outcome) (key : String) :
    Call.Save key ∈ (deferCleanup c fault out).world.log → Call.Save key ∈ out.world.log := by
  unfold deferCleanup
  cases hrun : c.run fault out.world with
  | none => exact id
  | some r =>
    obtain ⟨w1, e⟩ := r
    exact Cleanup_run_log key hrun

/-- Calling `backupObject` never saves under the key it backs up. -/
theorem backupObject_log (h : DocumentHandler) (env : Env) (bf : BackupFaults)
    (id key : String) (w : World) :
    Call.Save key ∈ (h.backupObject env bf id key w).1.log → Call.Save key ∈ w.log := by
  have hne : key ≠ trashKeyFor h id key := fun hh => trashKeyFor_ne h id key hh.symm
  obtain ⟨bex, bopen, bcopy, bsave⟩ := bf
  unfold DocumentHandler.backupObject
  cases bex with
  | some e => simp [World.Exists, World.call]
  | none =>
    cases hb : w.blobs key with
    | none => simp [World.Exists, World.call, hb]
    | some content =>
      cases bopen with
      | some e =>
        cases hn : isNoSuchKey e <;> simp [World.Exists, World.call, hb, World.Open, hn]
      | none =>
        cases bcopy with
        | some e => simp [World.Exists, World.call, hb, World.Open]
        | none =>
          cases bsave with
          | some e => simp [World.Exists, World.call, hb, World.Open, World.Save, hne]
          | none => simp [World.Exists, World.call, hb, World.Open, World.Save, hne]

/-- With the blob present, `backupObject` either returns nil or no-op functions and leaves
the blobs alone, or every call succeeded and it returns the real `restore` and `cleanup`. -/
theorem backupObject_cases (h : DocumentHandler) (env : Env) (bf : BackupFaults)
    (id key : String) (w : World) (content : Bytes) (hblob : w.blobs key = some content) :
    (((h.backupObject env bf id key w).2.2.1 = .nil ∨
        (h.backupObject env bf id key w).2.2.1 = .noop)) ∨
    h.backupObject env bf id key w =
      (⟨Function.update w.blobs (trashKeyFor h id key) (some content), w.rows,
          w.log ++ [.Exists key, .Open key, .Save (trashKeyFor h id key)]⟩,
        trashKeyFor h id key, .save key content, .delete (trashKeyFor h id key), none) := by
  obtain ⟨bex, bopen, bcopy, bsave⟩ := bf
  unfold DocumentHandler.backupObject
  cases bex with
  | some e => simp [World.Exists, World.call]
  | none =>
    cases bopen with
    | some e =>
      cases hn : isNoSuchKey e <;> simp [World.Exists, World.call, hblob, World.Open, hn]
    | none =>
      cases bcopy with
      | some e => simp [World.Exists, World.call, hblob, World.Open]
      | none =>
        cases bsave with
        | some e => simp [World.Exists, World.call, hblob, World.Open, World.Save]
        | none => simp [World.Exists, World.call, hblob, World.Open, World.Save]

/-- The body of `Delete` saves under the key of the record only through a real `restore`
of a blob it has seen. -/
theorem deleteBody_log (env : Env) (f : DeleteFaults) (id : String) (doc : Document)
    (exists_ : Bool) (restore : Restore) (cleanup : Cleanup) (w : World)
    (hno : exists_ = false ∨ restore = .nil ∨ restore = .noop) :
    Call.Save doc.ObjectKey ∈
        (DocumentHandler.deleteBody env f id doc exists_ restore cleanup w).world.log →
      Call.Save doc.ObjectKey ∈ w.log := by
  unfold DocumentHandler.deleteBody
  have hrem : Call.Save doc.ObjectKey ∈
      (if exists_ = true then
        match w.Delete f.delete doc.ObjectKey with
        | (w1, some err) => (w1, !isNoSuchKey err)
        | (w1, none) => (w1, false)
      else (w, false)).1.log → Call.Save doc.ObjectKey ∈ w.log := by
    cases exists_ with
    | false => simp
    | true => cases f.delete <;> simp [World.Delete, World.call]
  generalize (if exists_ = true then
        match w.Delete f.delete doc.ObjectKey with
        | (w1, some err) => (w1, !isNoSuchKey err)
        | (w1, none) => (w1, false)
      else (w, false)) = removed at hrem ⊢
  obtain ⟨w1, stop⟩ := removed
  cases stop with
  | true => simpa using hrem
  | false =>
    simp only [Bool.false_eq_true, if_false]
    have hrow : Call.Save doc.ObjectKey ∈
        (DeleteDocumentUseCase.Execute f.deleteRow id w1).1.log →
        Call.Save doc.ObjectKey ∈ w1.log := by
      unfold DeleteDocumentUseCase.Execute World.DeleteRow
      cases f.deleteRow with
      | some e => simp [World.call]
      | none => cases hr : w1.rows id <;> simp [World.call, hr]
    generalize DeleteDocumentUseCase.Execute f.deleteRow id w1 = r at hrow ⊢
    obtain ⟨w2, err⟩ := r
    cases err with
    | some e =>
      simp only
      cases exists_ with
      | false => intro hh; exact hrem (hrow hh)
      | true =>
        simp only [if_true]
        rcases hno with hno | hno | hno
        · simp at hno
        · subst hno; intro hh; exact hrem (hrow hh)
        · subst hno; intro hh; exact hrem (hrow hh)
    | none =>
      simp only
      cases hc : cleanup.run f.cleanup w2 with
      | none => intro hh; exact hrem (hrow hh)
      | some r1 =>
        obtain ⟨w3, e3⟩ := r1
        intro hh
        exact hrem (hrow (Cleanup_run_log _ hc hh))

end Handlers

/-! ## Document handler: the claims -/

namespace Handlers

open Go Entities DocumentsUC Fixture

/-- C3: whenever `Upload` answers `201` with a record (the content passed every check, and
`Save` and `Create` succeeded), the stored key exists afterwards and opening it yields
exactly the bytes of the uploaded file. -/
theorem Upload_success_content_readable (h : DocumentHandler) (env : Env) (f : UploadFaults)
    (now : Instant) (newID : String) (uploadedAt : Instant) (req : UploadRequest) (w : World)
    (file : UploadedFile) (doc : Document) (hfile : req.file = some file)
    (hresp : (h.Upload env f now newID uploadedAt req w).resp = some (.Document 201 doc)) :
    ((h.Upload env f now newID uploadedAt req w).world.Exists none doc.ObjectKey).2 =
      (true, none) ∧
    ((h.Upload env f now newID uploadedAt req w).world.Open none doc.ObjectKey).2 =
      .ok file.content := by
  rcases Upload_cases h env f now newID uploadedAt req w with
    ⟨st, p, hU⟩ | ⟨file1, ownerID, hfile1, hid, -, -, -, -, hU⟩
  · rw [hU] at hresp; simp at hresp
  · rw [hfile] at hfile1
    obtain rfl : file = file1 := Option.some.inj hfile1
    rw [hU] at hresp ⊢
    rcases uploadLocked_cases h env f now newID uploadedAt req ownerID file.header
        (ToLower (Ext file.header.Filename)) file.content
        (w.call (.Lock (uploadLockKey req.OwnerType ownerID file.header.Filename))) with
      ⟨e, -, hL⟩ | ⟨-, -, st, p, hL⟩ | ⟨-, -, hL⟩ | ⟨-, -, -, st, p, hL⟩ |
      ⟨-, -, -, doc1, -, hkey, hL⟩
    · rw [hL] at hresp; simp [deferUnlock, internal] at hresp
    · rw [hL] at hresp; simp [deferUnlock] at hresp
    · rw [hL] at hresp; simp [deferUnlock] at hresp
    · rw [hL] at hresp; simp [deferUnlock] at hresp
    · rw [hL] at hresp ⊢
      simp only [deferUnlock, Option.some.injEq, Response.Document.injEq, true_and] at hresp
      subst hresp
      simp [deferUnlock, World.Exists, World.Open, World.call, hkey]

/-- C3 at the upload of `id.pdf` for an employee into an empty world. -/
theorem Upload_success_content_readable_witness :
    (NewDocumentHandler.Upload env noUploadFaults t0 docD1 t0 (uploadReq "employee" "BI")
      emptyWorld).resp = some (.Document 201 rowD1) ∧
    ((NewDocumentHandler.Upload env noUploadFaults t0 docD1 t0 (uploadReq "employee" "BI")
      emptyWorld).world.Exists none rowD1.ObjectKey).2 = (true, none) ∧
    ((NewDocumentHandler.Upload env noUploadFaults t0 docD1 t0 (uploadReq "employee" "BI")
      emptyWorld).world.Open none rowD1.ObjectKey).2 = .ok (idPdf pdfBytes).content :=
  ⟨by decide,
    Upload_success_content_readable NewDocumentHandler env noUploadFaults t0 docD1 t0
      (uploadReq "employee" "BI") emptyWorld (idPdf pdfBytes) rowD1 rfl (by decide)⟩

/-- C4: when `Save` succeeded and the repository's `Create` was called and returned an
error, and the rollback `Delete` succeeds, then afterwards there is no blob at the derived
key, the rows are what they were, and the answer is an error payload without a record. -/
theorem Upload_create_failure_rolls_back (h : DocumentHandler) (env : Env) (f : UploadFaults)
    (now : Instant) (newID : String) (uploadedAt : Instant) (req : UploadRequest) (w : World)
    (file : UploadedFile) (ownerID : String) (e : Err)
    (hfile : req.file = some file) (hid : env.Parse req.OwnerID = some ownerID)
    (hsave : f.save = none) (hcreate : f.create = some e) (hroll : f.rollback = none)
    (hlog : Call.Create newID ∉ w.log)
    (hcalled : Call.Create newID ∈ (h.Upload env f now newID uploadedAt req w).world.log) :
    (h.Upload env f now newID uploadedAt req w).world.blobs
      (buildObjectKey now req.OwnerType ownerID file.header.Filename) = none ∧
    (h.Upload env f now newID uploadedAt req w).world.rows = w.rows ∧
    ∃ st p, (h.Upload env f now newID uploadedAt req w).resp = some (.JSON st p) := by
  rcases Upload_cases h env f now newID uploadedAt req w with
    ⟨st, p, hU⟩ | ⟨file1, ownerID1, hfile1, hid1, -, -, -, -, hU⟩
  · rw [hU] at hcalled; exact absurd hcalled hlog
  · rw [hfile] at hfile1
    obtain rfl : file = file1 := Option.some.inj hfile1
    rw [hid] at hid1
    obtain rfl : ownerID = ownerID1 := Option.some.inj hid1
    rw [hU] at hcalled ⊢
    rcases uploadLocked_cases h env f now newID uploadedAt req ownerID file.header
        (ToLower (Ext file.header.Filename)) file.content
        (w.call (.Lock (uploadLockKey req.OwnerType ownerID file.header.Filename))) with
      ⟨e1, hs, hL⟩ | ⟨-, -, st, p, hL⟩ | ⟨-, -, hL⟩ | ⟨-, -, -, st, p, hL⟩ |
      ⟨-, -, hc, -⟩
    · rw [hsave] at hs; simp at hs
    · rw [hL] at hcalled
      simp [deferUnlock, World.call, World.Delete, hroll, hlog] at hcalled
    · rw [hL] at hcalled
      simp [deferUnlock, World.call, hlog] at hcalled
    · rw [hL]
      simp [deferUnlock, World.call, World.Delete, hroll]
    · rw [hcreate] at hc; simp at hc

/-- C4 at an upload whose `Create` fails with a database error. -/
theorem Upload_create_failure_rolls_back_witness :
    Call.Create docD1 ∈
      (NewDocumentHandler.Upload env { noUploadFaults with create := some (.msg "db down") } t0
        docD1 t0 (uploadReq "employee" "BI") emptyWorld).world.log ∧
    (NewDocumentHandler.Upload env { noUploadFaults with create := some (.msg "db down") } t0
      docD1 t0 (uploadReq "employee" "BI") emptyWorld).world.blobs
      (buildObjectKey t0 "employee" ownerE1 "id.pdf") = none ∧
    (NewDocumentHandler.Upload env { noUploadFaults with create := some (.msg "db down") } t0
      docD1 t0 (uploadReq "employee" "BI") emptyWorld).world.rows = emptyWorld.rows ∧
    ∃ st p, (NewDocumentHandler.Upload env { noUploadFaults with create := some (.msg "db down") }
      t0 docD1 t0 (uploadReq "employee" "BI") emptyWorld).resp = some (.JSON st p) :=
  ⟨by decide,
    Upload_create_failure_rolls_back NewDocumentHandler env
      { noUploadFaults with create := some (.msg "db down") } t0 docD1 t0
      (uploadReq "employee" "BI") emptyWorld (idPdf pdfBytes) ownerE1 (.msg "db down")
      rfl (by decide) rfl rfl rfl (by decide) (by decide)⟩

/-- C5: `Upload` is not all-or-nothing. With the document type `Passaporte`, which
`NewDocumentType` refuses, the blob is saved, `MustNewDocumentType` aborts the handler, no
rollback runs and no row is created: the blob stays at the derived key without a row. -/
theorem Upload_invalid_type_leaves_blob :
    (NewDocumentHandler.Upload env noUploadFaults t0 docD1 t0 (uploadReq "employee" "Passaporte")
      emptyWorld).aborted = true ∧
    (NewDocumentHandler.Upload env noUploadFaults t0 docD1 t0 (uploadReq "employee" "Passaporte")
      emptyWorld).world.blobs keyK1 = some pdfBytes ∧
    (NewDocumentHandler.Upload env noUploadFaults t0 docD1 t0 (uploadReq "employee" "Passaporte")
      emptyWorld).world.rows docD1 = none ∧
    (NewDocumentHandler.Upload env noUploadFaults t0 docD1 t0 (uploadReq "employee" "Passaporte")
      emptyWorld).world.log =
      [.Lock "doc:upload:employee:11111111-1111-4111-8111-111111111111:id.pdf", .Save keyK1,
        .Unlock "doc:upload:employee:11111111-1111-4111-8111-111111111111:id.pdf"] := by
  decide

/-- C6 as stated fails: an upload rejected because its owner type `manager` is not a valid
`DocumentOwnerType` has by then invoked `Save` and the compensating `Delete`. -/
theorem Upload_invalid_owner_type_calls_storage :
    Vos.DocumentOwnerType.IsValid "manager" = false ∧
    (NewDocumentHandler.Upload env noUploadFaults t0 docD1 t0 (uploadReq "manager" "BI")
      emptyWorld).resp =
      some (internal "Falha ao registar documento no BD; upload revertido") ∧
    (NewDocumentHandler.Upload env noUploadFaults t0 docD1 t0 (uploadReq "manager" "BI")
      emptyWorld).world.log =
      [.Lock "doc:upload:manager:11111111-1111-4111-8111-111111111111:id.pdf",
        .Save "manager/11111111-1111-4111-8111-111111111111/id_20250314T092653Z.pdf",
        .Delete "manager/11111111-1111-4111-8111-111111111111/id_20250314T092653Z.pdf",
        .Unlock "doc:upload:manager:11111111-1111-4111-8111-111111111111:id.pdf"] := by
  decide

/-- C6, amended. An upload whose file has size zero or above `MaxUploadSize`, whose
extension or sniffed content type is not allow-listed, or whose owner id is malformed, is
answered with an error payload and nothing is invoked: the stores and the log of calls are
untouched. An upload whose owner type is not a valid `DocumentOwnerType` is answered with an
error payload, does not panic, never invokes `Create` and leaves the rows alone. When such a
request passes every other check of the handler (body readable, form bound, file present, size,
extension, content type, owner id, digest), the handler does invoke `Save` on the derived
key, under the lock of the upload: when `Save` fails nothing else is invoked, and when `Save`
succeeds the compensating `Delete` of the same key follows. When it does not pass them,
nothing is invoked. -/
theorem Upload_rejected_calls (h : DocumentHandler) (env : Env) (f : UploadFaults)
    (now : Instant) (newID : String) (uploadedAt : Instant) (req : UploadRequest) (w : World) :
    (((∃ file, req.file = some file ∧
          (file.header.Size ≤ 0 ∨
            (h.MaxUploadSize > 0 ∧ file.header.Size > h.MaxUploadSize) ∨
            (!h.AllowedExts.isEmpty &&
              !h.AllowedExts.contains (ToLower (Ext file.header.Filename))) = true ∨
            (!h.AllowedTypes.isEmpty &&
              !h.AllowedTypes.contains (env.DetectContentType (file.content.take 512))) = true)) ∨
        env.Parse req.OwnerID = none) →
      ∃ st p, h.Upload env f now newID uploadedAt req w = ⟨w, some (.JSON st p), false⟩) ∧
    (Vos.DocumentOwnerType.IsValid req.OwnerType = false →
      (∃ st p, (h.Upload env f now newID uploadedAt req w).resp = some (.JSON st p)) ∧
      (h.Upload env f now newID uploadedAt req w).aborted = false ∧
      (h.Upload env f now newID uploadedAt req w).world.rows = w.rows ∧
      (∀ id, Call.Create id ∈ (h.Upload env f now newID uploadedAt req w).world.log →
        Call.Create id ∈ w.log) ∧
      ((h.Upload env f now newID uploadedAt req w).world = w ∨
        ∃ file ownerID, req.file = some file ∧ env.Parse req.OwnerID = some ownerID ∧
          (h.Upload env f now newID uploadedAt req w).world.log =
            w.log ++ [.Lock (uploadLockKey req.OwnerType ownerID file.header.Filename),
              .Save (buildObjectKey now req.OwnerType ownerID file.header.Filename)] ++
              (if f.save = none then
                [.Delete (buildObjectKey now req.OwnerType ownerID file.header.Filename)]
              else []) ++
              [.Unlock (uploadLockKey req.OwnerType ownerID file.header.Filename)]) ∧
      ∀ file ownerID,
        (if h.MaxUploadSize > 0 then req.body.MaxBytesReader (h.MaxUploadSize + 1024)
          else req.body).readable = true →
        env.ShouldBindWith req.OwnerType req.OwnerID req.Type_ = none →
        req.file = some file → 0 < file.header.Size →
        ¬ (h.MaxUploadSize > 0 ∧ file.header.Size > h.MaxUploadSize) →
        (!h.AllowedExts.isEmpty &&
          !h.AllowedExts.contains (ToLower (Ext file.header.Filename))) = false →
        (file.seeker = true ∨ f.read = none) →
        (!h.AllowedTypes.isEmpty &&
          !h.AllowedTypes.contains (env.DetectContentType (file.content.take 512))) = false →
        env.Parse req.OwnerID = some ownerID → f.md5copy = none →
        (h.Upload env f now newID uploadedAt req w).world.log =
          w.log ++ [.Lock (uploadLockKey req.OwnerType ownerID file.header.Filename),
            .Save (buildObjectKey now req.OwnerType ownerID file.header.Filename)] ++
            (if f.save = none then
              [.Delete (buildObjectKey now req.OwnerType ownerID file.header.Filename)]
            else []) ++
            [.Unlock (uploadLockKey req.OwnerType ownerID file.header.Filename)]) := by
  have hlocked : ∀ (file1 : UploadedFile) (ownerID : String),
      Vos.DocumentOwnerType.IsValid req.OwnerType = false →
      h.Upload env f now newID uploadedAt req w =
        deferUnlock (uploadLockKey req.OwnerType ownerID file1.header.Filename)
          (h.uploadLocked env f now newID uploadedAt req ownerID file1.header
            (ToLower (Ext file1.header.Filename)) file1.content
            (w.call (.Lock (uploadLockKey req.OwnerType ownerID file1.header.Filename)))) →
      (∃ st p, (h.Upload env f now newID uploadedAt req w).resp = some (.JSON st p)) ∧
      (h.Upload env f now newID uploadedAt req w).aborted = false ∧
      (h.Upload env f now newID uploadedAt req w).world.rows = w.rows ∧
      (∀ id, Call.Create id ∈ (h.Upload env f now newID uploadedAt req w).world.log →
        Call.Create id ∈ w.log) ∧
      (h.Upload env f now newID uploadedAt req w).world.log =
        w.log ++ [.Lock (uploadLockKey req.OwnerType ownerID file1.header.Filename),
          .Save (buildObjectKey now req.OwnerType ownerID file1.header.Filename)] ++
          (if f.save = none then
            [.Delete (buildObjectKey now req.OwnerType ownerID file1.header.Filename)]
          else []) ++
          [.Unlock (uploadLockKey req.OwnerType ownerID file1.header.Filename)] := by
    intro file1 ownerID hv hU
    rw [hU]
    rcases uploadLocked_cases h env f now newID uploadedAt req ownerID file1.header
        (ToLower (Ext file1.header.Filename)) file1.content
        (w.call (.Lock (uploadLockKey req.OwnerType ownerID file1.header.Filename))) with
      ⟨e1, hsv, hL⟩ | ⟨hsv, -, st, p, hL⟩ | ⟨-, hv1, hL⟩ | ⟨-, hv1, -, st, p, hL⟩ |
      ⟨-, hv1, -⟩
    · rw [hL]
      refine ⟨⟨500, ⟨"internal", "Falha ao subir ficheiro no storage", []⟩, rfl⟩, rfl, rfl,
        ?_, ?_⟩
      · intro id hc
        simpa [deferUnlock, World.call] using hc
      · simp [deferUnlock, World.call, hsv]
    · rw [hL]
      refine ⟨⟨st, p, rfl⟩, rfl, ?_, ?_, ?_⟩
      · cases f.rollback <;> rfl
      · intro id hc
        cases hr : f.rollback <;>
          simpa [deferUnlock, World.call, World.Delete, hr] using hc
      · cases f.rollback <;> simp [deferUnlock, World.call, World.Delete, hsv]
    · rw [hv] at hv1; simp at hv1
    · rw [hv] at hv1; simp at hv1
    · rw [hv] at hv1; simp at hv1
  rcases Upload_cases h env f now newID uploadedAt req w with
    ⟨st, p, hU⟩ | ⟨file1, ownerID, hfile1, hid, hs, hm, hext, hty, hU⟩
  · refine ⟨fun _ => ⟨st, p, hU⟩, fun hv => ⟨⟨st, p, by rw [hU]⟩, by rw [hU], by rw [hU],
      fun id hc => by rw [hU] at hc; exact hc, Or.inl (by rw [hU]), ?_⟩⟩
    intro file ownerID hbody hbind hfile hsize hmax hext hread htype hid hmd5
    exact (hlocked file ownerID hv
      (Upload_pass h env f now newID uploadedAt req w file ownerID hbody hbind hfile hsize hmax
        hext hread htype hid hmd5)).2.2.2.2
  · constructor
    · rintro (⟨file, hfile, hbad⟩ | hp)
      · rw [hfile1] at hfile
        obtain rfl : file1 = file := Option.some.inj hfile
        rcases hbad with hb | hb | hb | hb
        · exact absurd hb hs
        · exact absurd hb hm
        · rw [hext] at hb; simp at hb
        · rw [hty] at hb; simp at hb
      · rw [hid] at hp; simp at hp
    · intro hv
      obtain ⟨g1, g2, g3, g4, g5⟩ := hlocked file1 ownerID hv hU
      refine ⟨g1, g2, g3, g4, Or.inr ⟨file1, ownerID, hfile1, hid, g5⟩, ?_⟩
      intro file ownerID2 hbody hbind hfile hsize hmax hext2 hread htype hid2 hmd5
      exact (hlocked file ownerID2 hv
        (Upload_pass h env f now newID uploadedAt req w file ownerID2 hbody hbind hfile hsize
          hmax hext2 hread htype hid2 hmd5)).2.2.2.2

/-- C6, amended, at an upload of an empty file and at an upload for the owner type
`manager`, which passes every other check: `Save` and the compensating `Delete` are
invoked. -/
theorem Upload_rejected_calls_witness :
    (∃ st p, NewDocumentHandler.Upload env noUploadFaults t0 docD1 t0
        ⟨"employee", ownerE1, "BI", some ⟨⟨"id.pdf", 0⟩, [], true⟩, ⟨700, none⟩⟩ emptyWorld =
      ⟨emptyWorld, some (.JSON st p), false⟩) ∧
    Vos.DocumentOwnerType.IsValid (uploadReq "manager" "BI").OwnerType = false ∧
    (NewDocumentHandler.Upload env noUploadFaults t0 docD1 t0 (uploadReq "manager" "BI")
        emptyWorld).world.log =
      emptyWorld.log ++ [.Lock (uploadLockKey "manager" ownerE1 "id.pdf"),
          .Save (buildObjectKey t0 "manager" ownerE1 "id.pdf")] ++
        (if noUploadFaults.save = none then [.Delete (buildObjectKey t0 "manager" ownerE1 "id.pdf")]
        else []) ++
        [.Unlock (uploadLockKey "manager" ownerE1 "id.pdf")] :=
  ⟨(Upload_rejected_calls NewDocumentHandler env noUploadFaults t0 docD1 t0
      ⟨"employee", ownerE1, "BI", some ⟨⟨"id.pdf", 0⟩, [], true⟩, ⟨700, none⟩⟩ emptyWorld).1
      (Or.inl ⟨_, rfl, Or.inl (by decide)⟩),
    by decide,
    ((Upload_rejected_calls NewDocumentHandler env noUploadFaults t0 docD1 t0
      (uploadReq "manager" "BI") emptyWorld).2 (by decide)).2.2.2.2.2 (idPdf pdfBytes) ownerE1
      (by decide) (by decide) rfl (by decide) (by decide) (by decide) (Or.inl rfl) (by decide)
      (by decide) rfl⟩

/-- C7: a `Delete` of an existing document whose blob exists, every storage and metadata
call succeeding, answers `204`; afterwards `FindByID` reports no row and `Exists` of the
old key is false. -/
theorem Delete_success_removes_row_and_blob (h : DocumentHandler) (env : Env)
    (trashID rawID id : String) (w : World) (doc : Document) (content : Bytes)
    (hid : env.Parse rawID = some id) (hrow : w.rows id = some doc)
    (hblob : w.blobs doc.ObjectKey = some content) :
    (h.Delete env noDeleteFaults trashID rawID w).resp = some (.Status 204) ∧
    (h.Delete env noDeleteFaults trashID rawID w).aborted = false ∧
    ((h.Delete env noDeleteFaults trashID rawID w).world.FindByID none id).2 =
      .error .ErrNoRows ∧
    ((h.Delete env noDeleteFaults trashID rawID w).world.Exists none doc.ObjectKey).2 =
      (false, none) := by
  simp [DocumentHandler.Delete, hid, DocumentHandler.deleteLocked,
    FindDocumentByIDUseCase.Execute, World.FindByID, World.call, hrow, World.Exists, hblob,
    noDeleteFaults, noBackupFaults, DocumentHandler.backupObject, World.Open, World.Save,
    deferCleanup, deferUnlock, DocumentHandler.deleteBody, World.Delete,
    DeleteDocumentUseCase.Execute, World.DeleteRow, Cleanup.run, Function.update_apply]

/-- C7 at document `docD1`. -/
theorem Delete_success_removes_row_and_blob_witness :
    (worldD1.rows docD1 = some rowD1 ∧ worldD1.blobs rowD1.ObjectKey = some pdfBytes) ∧
    (NewDocumentHandler.Delete env noDeleteFaults trashT1 docD1 worldD1).resp =
      some (.Status 204) ∧
    (NewDocumentHandler.Delete env noDeleteFaults trashT1 docD1 worldD1).aborted = false ∧
    ((NewDocumentHandler.Delete env noDeleteFaults trashT1 docD1 worldD1).world.FindByID none
      docD1).2 = .error .ErrNoRows ∧
    ((NewDocumentHandler.Delete env noDeleteFaults trashT1 docD1 worldD1).world.Exists none
      rowD1.ObjectKey).2 = (false, none) :=
  ⟨by decide,
    Delete_success_removes_row_and_blob NewDocumentHandler env trashT1 docD1 docD1 worldD1
      rowD1 pdfBytes (by decide) (by decide) (by decide)⟩

/-- C8: in a `Delete` of an existing document whose blob exists, if the row removal fails
and the restoring `Save` is made and succeeds, then afterwards `FindByID` returns the
original record and the blob at its key exists with the content it had before. -/
theorem Delete_row_failure_restores (h : DocumentHandler) (env : Env) (f : DeleteFaults)
    (trashID rawID id : String) (w : World) (doc : Document) (content : Bytes) (e : Err)
    (hid : env.Parse rawID = some id) (hrow : w.rows id = some doc)
    (hblob : w.blobs doc.ObjectKey = some content)
    (hfail : f.deleteRow = some e) (hok : f.restore = none)
    (hlog : Call.Save doc.ObjectKey ∉ w.log)
    (hrestore : Call.Save doc.ObjectKey ∈ (h.Delete env f trashID rawID w).world.log) :
    ((h.Delete env f trashID rawID w).world.FindByID none id).2 = .ok doc ∧
    ((h.Delete env f trashID rawID w).world.Exists none doc.ObjectKey).2 = (true, none) ∧
    ((h.Delete env f trashID rawID w).world.Open none doc.ObjectKey).2 = .ok content := by
  have hne : doc.ObjectKey ≠ trashKeyFor h trashID doc.ObjectKey :=
    fun hh => trashKeyFor_ne h trashID doc.ObjectKey hh.symm
  revert hrestore
  unfold DocumentHandler.Delete
  simp only [hid, deferUnlock]
  unfold DocumentHandler.deleteLocked
  cases hfind : f.find with
  | some e0 =>
    simp [FindDocumentByIDUseCase.Execute, World.FindByID, World.call, hlog]
  | none =>
    simp only [FindDocumentByIDUseCase.Execute, World.FindByID, World.call, hrow]
    cases hex : f.exists_ with
    | some e1 =>
      -- the first `Exists` failed: nothing is restored
      simp only [World.Exists, World.call]
      intro hrestore
      exfalso
      generalize hb : h.backupObject env f.backup trashID doc.ObjectKey
        ⟨w.blobs, w.rows, w.log ++ [.Lock (docLockKey id)] ++ [.FindByID id] ++
          [.Exists doc.ObjectKey]⟩ = r at hrestore
      have hbl := backupObject_log h env f.backup trashID doc.ObjectKey
        ⟨w.blobs, w.rows, w.log ++ [.Lock (docLockKey id)] ++ [.FindByID id] ++
          [.Exists doc.ObjectKey]⟩
      rw [hb] at hbl
      obtain ⟨w3, tk, restore, cleanup, bkErr⟩ := r
      simp only at hrestore hbl
      have hw3 : Call.Save doc.ObjectKey ∉ w3.log := by
        intro hh
        have := hbl hh
        simp [hlog] at this
      split at hrestore
      · simp [hw3] at hrestore
      · simp only [List.mem_append, List.mem_singleton, reduceCtorEq, or_false] at hrestore
        exact hw3 (deleteBody_log env f id doc false restore cleanup w3 (Or.inl rfl)
          (deferCleanup_log _ _ _ _ hrestore))
    | none =>
      simp only [World.Exists, World.call, hblob, Option.isSome_some]
      rcases backupObject_cases h env f.backup trashID doc.ObjectKey
        ⟨w.blobs, w.rows, w.log ++ [.Lock (docLockKey id)] ++ [.FindByID id] ++
          [.Exists doc.ObjectKey]⟩ content hblob with hnil | hfull
      · -- no real `restore`: nothing is restored
        intro hrestore
        exfalso
        generalize hb : h.backupObject env f.backup trashID doc.ObjectKey
          ⟨w.blobs, w.rows, w.log ++ [.Lock (docLockKey id)] ++ [.FindByID id] ++
            [.Exists doc.ObjectKey]⟩ = r at hrestore hnil
        have hbl := backupObject_log h env f.backup trashID doc.ObjectKey
          ⟨w.blobs, w.rows, w.log ++ [.Lock (docLockKey id)] ++ [.FindByID id] ++
            [.Exists doc.ObjectKey]⟩
        rw [hb] at hbl
        obtain ⟨w3, tk, restore, cleanup, bkErr⟩ := r
        simp only at hrestore hbl hnil
        have hw3 : Call.Save doc.ObjectKey ∉ w3.log := by
          intro hh
          have := hbl hh
          simp [hlog] at this
        split at hrestore
        · simp [hw3] at hrestore
        · simp only [List.mem_append, List.mem_singleton, reduceCtorEq, or_false] at hrestore
          exact hw3 (deleteBody_log env f id doc true restore cleanup w3 (Or.inr hnil)
            (deferCleanup_log _ _ _ _ hrestore))
      · rw [hfull]
        simp only [Bool.false_eq_true, if_false]
        unfold DocumentHandler.deleteBody
        cases hdel : f.delete with
        | some e2 =>
          cases hn : isNoSuchKey e2 with
          | false =>
            cases hdc : f.deferredCleanup <;>
            simp [World.Delete, World.call, hn, deferCleanup, Cleanup.run, hdc, internal, hlog,
              hne]
          | true =>
            intro _
            cases hdc : f.deferredCleanup <;>
            simp [World.Delete, World.call, hn, DeleteDocumentUseCase.Execute, World.DeleteRow,
              hfail, Restore.run, World.Save, hok, deferCleanup, Cleanup.run, hdc,
              World.FindByID, hrow, World.Exists, World.Open, Function.update_apply, hne,
              hblob]
        | none =>
          intro _
          cases hdc : f.deferredCleanup <;>
          simp [World.Delete, World.call, DeleteDocumentUseCase.Execute, World.DeleteRow,
            hfail, Restore.run, World.Save, hok, deferCleanup, Cleanup.run, hdc,
            World.FindByID, hrow, World.Exists, World.Open, Function.update_apply, hne]

/-- C8 at document `docD1` when the row removal fails with a database error. -/
theorem Delete_row_failure_restores_witness :
    Call.Save rowD1.ObjectKey ∈
      (NewDocumentHandler.Delete env { noDeleteFaults with deleteRow := some (.msg "db down") }
        trashT1 docD1 worldD1).world.log ∧
    ((NewDocumentHandler.Delete env { noDeleteFaults with deleteRow := some (.msg "db down") }
      trashT1 docD1 worldD1).world.FindByID none docD1).2 = .ok rowD1 ∧
    ((NewDocumentHandler.Delete env { noDeleteFaults with deleteRow := some (.msg "db down") }
      trashT1 docD1 worldD1).world.Exists none rowD1.ObjectKey).2 = (true, none) ∧
    ((NewDocumentHandler.Delete env { noDeleteFaults with deleteRow := some (.msg "db down") }
      trashT1 docD1 worldD1).world.Open none rowD1.ObjectKey).2 = .ok pdfBytes :=
  ⟨by decide,
    Delete_row_failure_restores NewDocumentHandler env
      { noDeleteFaults with deleteRow := some (.msg "db down") } trashT1 docD1 docD1 worldD1
      rowD1 pdfBytes (.msg "db down") (by decide) (by decide) (by decide) rfl rfl (by decide)
      (by decide)⟩

/-- C9: the end state of `Delete` can be row absent with the primary blob still present.
When the handler's first `Exists` call fails and every other call succeeds, the backup is
made, the removal of the blob is skipped because `exists` is false, the row is removed, and
the handler answers `204`. -/
theorem Delete_first_Exists_failure_orphans_blob :
    (NewDocumentHandler.Delete env
      { noDeleteFaults with exists_ := some (.msg "context deadline exceeded") } trashT1 docD1
      worldD1).resp = some (.Status 204) ∧
    (NewDocumentHandler.Delete env
      { noDeleteFaults with exists_ := some (.msg "context deadline exceeded") } trashT1 docD1
      worldD1).world.rows docD1 = none ∧
    (NewDocumentHandler.Delete env
      { noDeleteFaults with exists_ := some (.msg "context deadline exceeded") } trashT1 docD1
      worldD1).world.blobs keyK1 = some pdfBytes ∧
    (NewDocumentHandler.Delete env
      { noDeleteFaults with exists_ := some (.msg "context deadline exceeded") } trashT1 docD1
      worldD1).world.log =
      [.Lock "doc:id:22222222-2222-4222-8222-222222222222", .FindByID docD1, .Exists keyK1,
        .Exists keyK1, .Open keyK1,
        .Save "trash/33333333-3333-4333-8333-333333333333_id_20250314T092653Z.pdf",
        .DeleteRow docD1,
        .Delete "trash/33333333-3333-4333-8333-333333333333_id_20250314T092653Z.pdf",
        .Delete "trash/33333333-3333-4333-8333-333333333333_id_20250314T092653Z.pdf",
        .Unlock "doc:id:22222222-2222-4222-8222-222222222222"] := by
  decide

/-- C10: a `ReplaceFile` in which every call succeeds can leave the record pointing at a
key without blob. Replacing `id.pdf` by a new `id.pdf` within the second of its upload
derives the key the record already has; the new content is saved there, the final removal
of the old key deletes it, and the handler answers `200` with a record whose `ObjectKey` is
that key. -/
theorem ReplaceFile_same_key_deletes_new_blob :
    buildObjectKey t0 rowD1.OwnerType rowD1.OwnerID "id.pdf" = rowD1.ObjectKey ∧
    (NewDocumentHandler.ReplaceFile env noReplaceFaults t0 trashT1 docD1
      (some (idPdf pdfBytes2)) worldD1).resp = some (.Document 200 rowD1) ∧
    (NewDocumentHandler.ReplaceFile env noReplaceFaults t0 trashT1 docD1
      (some (idPdf pdfBytes2)) worldD1).world.rows docD1 = some rowD1 ∧
    ((NewDocumentHandler.ReplaceFile env noReplaceFaults t0 trashT1 docD1
      (some (idPdf pdfBytes2)) worldD1).world.Exists none rowD1.ObjectKey).2 = (false, none) ∧
    ((NewDocumentHandler.ReplaceFile env noReplaceFaults t0 trashT1 docD1
      (some (idPdf pdfBytes2)) worldD1).world.Open none rowD1.ObjectKey).2 ≠ .ok pdfBytes2 := by
  refine ⟨by decide, by decide, by decide, by decide, ?_⟩
  have hb : (NewDocumentHandler.ReplaceFile env noReplaceFaults t0 trashT1 docD1
      (some (idPdf pdfBytes2)) worldD1).world.blobs rowD1.ObjectKey = none := by decide
  simp [World.Open, World.call, hb]

end Handlers

/-! ## Storage keys -/

namespace Go

theorem digit_toNat (n : Nat) : (digit n).toNat - 48 = n % 10 := by
  unfold digit
  have h : n % 10 < 10 := Nat.mod_lt _ (by decide)
  generalize n % 10 = k at h
  interval_cases k <;> rfl

theorem decimalValue_pad2 (n : Nat) (h : n < 100) : decimalValue (pad2 n) = n := by
  simp only [decimalValue, pad2, List.foldl, digit_toNat]
  omega

/-- What `filepath.Ext` returns is empty, or a dot followed by characters that are neither
dots nor slashes; in both cases it is the end of the path. -/
theorem extRev_spec : ∀ (l acc : List Char),
    extRev l acc = [] ∨
    ∃ pre post, l = pre ++ '.' :: post ∧ '.' ∉ pre ∧ '/' ∉ pre ∧
      extRev l acc = '.' :: (pre.reverse ++ acc) := by
  intro l
  induction l with
  | nil => intro acc; exact Or.inl rfl
  | cons c rest ih =>
    intro acc
    unfold extRev
    by_cases h1 : c = '/'
    · subst h1; exact Or.inl (by simp)
    · by_cases h2 : c = '.'
      · subst h2
        exact Or.inr ⟨[], rest, by simp, by simp, by simp, by simp⟩
      · simp only [beq_iff_eq, h1, h2, if_false]
        rcases ih (c :: acc) with h | ⟨pre, post, hl, hd, hs, he⟩
        · exact Or.inl h
        · refine Or.inr ⟨c :: pre, post, by simp [hl], ?_, ?_, ?_⟩
          · simp only [List.mem_cons, not_or]; exact ⟨fun hh => h2 hh.symm, hd⟩
          · simp only [List.mem_cons, not_or]; exact ⟨fun hh => h1 hh.symm, hs⟩
          · rw [he]; simp

theorem Ext_spec (path : String) :
    (Ext path).data = [] ∨
    ∃ stem r, path.data = stem ++ '.' :: r ∧ '.' ∉ r ∧ '/' ∉ r ∧ (Ext path).data = '.' :: r := by
  unfold Ext
  rcases extRev_spec path.data.reverse [] with h | ⟨pre, post, hl, hd, hs, he⟩
  · exact Or.inl h
  · refine Or.inr ⟨post.reverse, pre.reverse, ?_, by simpa using hd, by simpa using hs, by simpa using he⟩
    have := congrArg List.reverse hl
    simpa using this

theorem TrimSuffix_Ext (path : String) :
    (TrimSuffix path (Ext path)).data ++ (Ext path).data = path.data := by
  rcases Ext_spec path with h | ⟨stem, r, hp, -, -, he⟩
  · simp [TrimSuffix, h]
  · have hsuf : (Ext path).data.isSuffixOf path.data = true := by
      rw [he, hp]
      simp
    simp only [TrimSuffix, hsuf, if_true]
    rw [he, hp]
    simp

end Go

namespace Go

set_option maxRecDepth 20000 in
theorem lowerRanges_target : ∀ r ∈ lowerRanges, 105 ≤ r.2.2.2 := by
  decide

theorem ofNat_toNat_cases (n : Nat) : (Char.ofNat n).toNat = n ∨ (Char.ofNat n).toNat = 0 := by
  unfold Char.ofNat
  split
  · left
    simp [Char.ofNatAux, Char.toNat, UInt32.toNat]
  · right; rfl

/-- A rune above ASCII keeps itself or gets a counterpart that is not below `i`. -/
theorem unicodeToLower_high (c : Char) (h : ¬ c.toNat < 128) :
    unicodeToLower c = c ∨ ∃ n, 105 ≤ n ∧ unicodeToLower c = Char.ofNat n := by
  unfold unicodeToLower
  rw [if_neg h]
  split
  · rename_i r hr
    exact Or.inr ⟨_, le_trans (lowerRanges_target r (List.mem_of_find?_eq_some hr))
      (Nat.le_add_right _ _), rfl⟩
  · exact Or.inl rfl

theorem toLower_ne_Z (c : Char) : unicodeToLower c ≠ 'Z' := by
  by_cases hc : c.toNat < 128
  · unfold unicodeToLower
    rw [if_pos hc]
    unfold Char.toLower
    simp only
    split
    · rename_i h
      obtain ⟨h1, h2⟩ := h
      have hc : c = Char.ofNat c.toNat := (Char.ofNat_toNat c).symm
      generalize c.toNat = n at h1 h2 hc
      interval_cases n <;> decide
    · rename_i h
      intro hc
      subst hc
      exact h (by decide)
  · rcases unicodeToLower_high c hc with h | ⟨n, hn, h⟩
    · rw [h]; intro hz; subst hz; exact hc (by decide)
    · rw [h]
      intro hz
      have := congrArg Char.toNat hz
      have h90 : ('Z' : Char).toNat = 90 := by decide
      rcases ofNat_toNat_cases n with hv | hv <;> omega

theorem toLower_eq_dot (c : Char) (h : unicodeToLower c = '.') : c = '.' := by
  by_cases hc : c.toNat < 128
  · unfold unicodeToLower at h
    rw [if_pos hc] at h
    unfold Char.toLower at h
    simp only at h
    split at h
    · rename_i h0
      obtain ⟨h1, h2⟩ := h0
      exfalso
      revert h
      generalize c.toNat = n at h1 h2 hc
      interval_cases n <;> decide
    · exact h
  · rcases unicodeToLower_high c hc with h1 | ⟨n, hn, h1⟩
    · rw [h1] at h; exact h
    · rw [h1] at h
      exfalso
      have := congrArg Char.toNat h
      have h46 : ('.' : Char).toNat = 46 := by decide
      rcases ofNat_toNat_cases n with hv | hv <;> omega

/-- Two lists that agree after their first `a` agree before it. -/
theorem append_cons_inj_left {a : Char} : ∀ (l1 l2 t1 t2 : List Char), a ∉ l1 → a ∉ l2 →
    l1 ++ a :: t1 = l2 ++ a :: t2 → l1 = l2 ∧ t1 = t2 := by
  intro l1
  induction l1 with
  | nil =>
    intro l2 t1 t2 _ h2 h
    cases l2 with
    | nil => simpa using h
    | cons b l2 =>
      simp only [List.nil_append, List.cons_append, List.cons.injEq] at h
      exact absurd (h.1 ▸ List.mem_cons_self _ _) h2
  | cons b l1 ih =>
    intro l2 t1 t2 h1 h2 h
    cases l2 with
    | nil =>
      simp only [List.nil_append, List.cons_append, List.cons.injEq] at h
      exact absurd (h.1 ▸ List.mem_cons_self _ _) h1
    | cons c l2 =>
      simp only [List.cons_append, List.cons.injEq] at h
      obtain ⟨hbc, hrest⟩ := h
      have := ih l2 t1 t2 (fun hh => h1 (List.mem_cons_of_mem _ hh))
        (fun hh => h2 (List.mem_cons_of_mem _ hh)) hrest
      exact ⟨by rw [hbc, this.1], this.2⟩

/-- Two lists that agree up to their last `a` agree after it. -/
theorem append_cons_inj_right {a : Char} (l1 l2 t1 t2 : List Char) (h1 : a ∉ t1) (h2 : a ∉ t2)
    (h : l1 ++ a :: t1 = l2 ++ a :: t2) : l1 = l2 ∧ t1 = t2 := by
  have hr := congrArg List.reverse h
  simp only [List.reverse_append, List.reverse_cons, List.append_assoc, List.singleton_append] at hr
  have := append_cons_inj_left t1.reverse t2.reverse l1.reverse l2.reverse (by simpa using h1)
    (by simpa using h2) hr
  exact ⟨List.reverse_injective this.2, List.reverse_injective this.1⟩

theorem Format_length (t : Instant) : t.Format.data.length = 16 := by
  simp [Instant.Format, pad2]

theorem digit_ne_dot (n : Nat) : digit n ≠ '.' := by
  unfold digit
  have h : n % 10 < 10 := Nat.mod_lt _ (by decide)
  generalize n % 10 = k at h
  interval_cases k <;> decide

theorem Format_no_dot (t : Instant) : '.' ∉ t.Format.data := by
  have h : ∀ n, ¬ '.' = digit n := fun n hh => digit_ne_dot n hh.symm
  simp [Instant.Format, pad2, h]

/-- The lower-cased extension is empty, or a dot followed by characters that are neither
dots nor the letter `Z`. -/
theorem ToLower_Ext_spec (path : String) :
    (ToLower (Ext path)).data = [] ∨
    ∃ r, (ToLower (Ext path)).data = '.' :: r ∧ '.' ∉ r ∧ 'Z' ∉ r := by
  rcases Ext_spec path with h | ⟨stem, r, -, hd, -, he⟩
  · exact Or.inl (by simp [ToLower, h])
  · refine Or.inr ⟨r.map unicodeToLower, by simp [ToLower, he, unicodeToLower], ?_, ?_⟩
    · intro hm
      obtain ⟨c, hc, hcl⟩ := List.mem_map.1 hm
      exact hd (toLower_eq_dot c hcl ▸ hc)
    · intro hm
      obtain ⟨c, hc, hcl⟩ := List.mem_map.1 hm
      exact toLower_ne_Z c hcl

end Go

namespace Handlers

open Go Entities DocumentsUC Fixture

/-- The characters of a storage key. -/
theorem buildObjectKey_data (now : Instant) (ownerType ownerID filename : String) :
    (buildObjectKey now ownerType ownerID filename).data =
      (ToLower ownerType).data ++ '/' :: (ownerID.data ++ '/' ::
        ((sanitizeFilename (TrimSuffix filename (Ext filename))).data ++ '_' ::
          (now.Format.data ++ (ToLower (Ext filename)).data))) := by
  simp [buildObjectKey, String.data_append, List.append_assoc]

/-- C18 as stated fails: at one instant, for one owner, the different file names `a b.pdf`
and `a_b.pdf` are given the same key, and so are `A.PDF` and `A.pdf`. -/
theorem buildObjectKey_collision :
    "a b.pdf" ≠ "a_b.pdf" ∧
    buildObjectKey t0 "employee" ownerE1 "a b.pdf" =
      buildObjectKey t0 "employee" ownerE1 "a_b.pdf" ∧
    "A.PDF" ≠ "A.pdf" ∧
    buildObjectKey t0 "employee" ownerE1 "A.PDF" =
      buildObjectKey t0 "employee" ownerE1 "A.pdf" := by
  decide

/-- C18, amended: for a fixed owner type and owner id, two derivations return the same key
exactly when the sanitized file names without extension, the lower-cased extensions and
the printed instants (which have the resolution of one second) are the same. -/
theorem buildObjectKey_eq_iff (t1 t2 : Instant) (ownerType ownerID f1 f2 : String) :
    buildObjectKey t1 ownerType ownerID f1 = buildObjectKey t2 ownerType ownerID f2 ↔
      sanitizeFilename (TrimSuffix f1 (Ext f1)) = sanitizeFilename (TrimSuffix f2 (Ext f2)) ∧
      ToLower (Ext f1) = ToLower (Ext f2) ∧ t1.Format = t2.Format := by
  constructor
  · intro h
    have hd := congrArg String.data h
    rw [buildObjectKey_data, buildObjectKey_data] at hd
    have hd := List.append_cancel_left hd
    simp only [List.cons.injEq, true_and] at hd
    have hd := List.append_cancel_left hd
    simp only [List.cons.injEq, true_and] at hd
    -- the extensions agree
    have hext : (ToLower (Ext f1)).data = (ToLower (Ext f2)).data := by
      have hZ1 : ∀ t : Instant, ∃ init, t.Format.data = init ++ ['Z'] := fun t =>
        ⟨t.Format.data.dropLast, by simp [Instant.Format, pad2]⟩
      rcases ToLower_Ext_spec f1 with e1 | ⟨r1, e1, hd1, hz1⟩ <;>
        rcases ToLower_Ext_spec f2 with e2 | ⟨r2, e2, hd2, hz2⟩
      · rw [e1, e2]
      · exfalso
        rw [e1, e2] at hd
        obtain ⟨init, hi⟩ := hZ1 t1
        rw [hi] at hd
        have hr := congrArg List.reverse hd
        simp only [List.append_nil, List.reverse_append, List.reverse_cons, List.reverse_nil,
          List.nil_append, List.append_assoc, List.singleton_append, List.cons_append] at hr
        cases hrr : r2.reverse with
        | nil => rw [hrr] at hr; simp at hr
        | cons c rest =>
          rw [hrr] at hr
          simp only [List.cons_append, List.cons.injEq] at hr
          have hc : c ∈ r2 := by
            have : c ∈ r2.reverse := by rw [hrr]; exact List.mem_cons_self _ _
            simpa using this
          exact hz2 (hr.1 ▸ hc)
      · exfalso
        rw [e1, e2] at hd
        obtain ⟨init, hi⟩ := hZ1 t2
        rw [hi] at hd
        have hr := congrArg List.reverse hd
        simp only [List.append_nil, List.reverse_append, List.reverse_cons, List.reverse_nil,
          List.nil_append, List.append_assoc, List.singleton_append, List.cons_append] at hr
        cases hrr : r1.reverse with
        | nil => rw [hrr] at hr; simp at hr
        | cons c rest =>
          rw [hrr] at hr
          simp only [List.cons_append, List.cons.injEq] at hr
          have hc : c ∈ r1 := by
            have : c ∈ r1.reverse := by rw [hrr]; exact List.mem_cons_self _ _
            simpa using this
          exact hz1 (hr.1.symm ▸ hc)
      · rw [e1, e2] at hd ⊢
        have h3 : ((sanitizeFilename (TrimSuffix f1 (Ext f1))).data ++ '_' :: t1.Format.data) ++
            '.' :: r1 =
            ((sanitizeFilename (TrimSuffix f2 (Ext f2))).data ++ '_' :: t2.Format.data) ++
            '.' :: r2 := by
          simpa [List.append_assoc] using hd
        rw [(append_cons_inj_right _ _ _ _ hd1 hd2 h3).2]
    rw [hext] at hd
    have h4 : ((sanitizeFilename (TrimSuffix f1 (Ext f1))).data ++ '_' :: t1.Format.data) ++
        (ToLower (Ext f2)).data =
        ((sanitizeFilename (TrimSuffix f2 (Ext f2))).data ++ '_' :: t2.Format.data) ++
        (ToLower (Ext f2)).data := by
      simpa [List.append_assoc] using hd
    have h5 := List.append_cancel_right h4
    have hlen : ('_' :: t1.Format.data).length = ('_' :: t2.Format.data).length := by
      rw [List.length_cons, List.length_cons, Format_length, Format_length]
    have h6 := List.append_inj_right' h5 hlen
    have h7 := List.append_inj_left' h5 hlen
    simp only [List.cons.injEq, true_and] at h6
    refine ⟨?_, ?_, ?_⟩
    · exact String.ext h7
    · exact String.ext hext
    · exact String.ext h6
  · rintro ⟨h1, h2, h3⟩
    simp only [buildObjectKey, h1, h2, h3]

end Handlers

/-! ## Key sanitization of the S3 adapter -/

namespace Go

theorem splitSlash_cons (c : Char) (rest : List Char) :
    splitSlash (c :: rest) =
      if c == '/' then [] :: splitSlash rest
      else
        match splitSlash rest with
        | [] => [[c]]
        | s :: ss => (c :: s) :: ss := by
  rw [splitSlash]

theorem splitSlash_ne_nil (l : List Char) : splitSlash l ≠ [] := by
  cases l with
  | nil => simp [splitSlash]
  | cons c rest =>
    unfold splitSlash
    split
    · simp
    · split <;> simp

/-- The elements of a path contain no slash. -/
theorem splitSlash_no_slash : ∀ (l : List Char), ∀ s ∈ splitSlash l, '/' ∉ s := by
  intro l
  induction l with
  | nil => intro s hs; simp [splitSlash] at hs; subst hs; simp
  | cons c rest ih =>
    intro s hs
    unfold splitSlash at hs
    by_cases hc : c = '/'
    · subst hc
      simp only [beq_self_eq_true, if_true, List.mem_cons] at hs
      rcases hs with rfl | hs
      · simp
      · exact ih s hs
    · simp only [beq_iff_eq, hc, if_false] at hs
      cases hsp : splitSlash rest with
      | nil => exact absurd hsp (splitSlash_ne_nil rest)
      | cons a as =>
        rw [hsp] at hs ih
        simp only [List.mem_cons] at hs
        rcases hs with rfl | hs
        · have := ih a (List.mem_cons_self _ _)
          simp only [List.mem_cons, not_or]
          exact ⟨fun h => hc h.symm, this⟩
        · exact ih s (List.mem_cons_of_mem _ hs)

theorem splitSlash_of_no_slash : ∀ (a : List Char), '/' ∉ a → splitSlash a = [a] := by
  intro a
  induction a with
  | nil => intro _; rfl
  | cons c rest ih =>
    intro h
    simp only [List.mem_cons, not_or] at h
    have hc : (c == '/') = false := by simpa using fun hh => h.1 hh.symm
    rw [splitSlash_cons, ih h.2]
    simp [hc]

theorem splitSlash_append_slash : ∀ (a rest : List Char), '/' ∉ a →
    splitSlash (a ++ '/' :: rest) = a :: splitSlash rest := by
  intro a
  induction a with
  | nil => intro rest _; simp [splitSlash]
  | cons c a ih =>
    intro rest h
    simp only [List.mem_cons, not_or] at h
    have hc : (c == '/') = false := by simpa using fun hh => h.1 hh.symm
    rw [List.cons_append, splitSlash_cons, ih rest h.2]
    simp [hc]

/-- Splitting a path that was joined from slash-free elements gives the elements back. -/
theorem splitSlash_intercalate : ∀ (L : List (List Char)), L ≠ [] → (∀ s ∈ L, '/' ∉ s) →
    splitSlash (List.intercalate ['/'] L) = L := by
  intro L
  induction L with
  | nil => intro h; exact absurd rfl h
  | cons a rest ih =>
    intro _ hall
    cases rest with
    | nil =>
      have : List.intercalate ['/'] [a] = a := by
        simp [List.intercalate, List.intersperse]
      rw [this]
      exact splitSlash_of_no_slash a (hall a (List.mem_cons_self _ _))
    | cons b rest =>
      have hrec := ih (by simp) (fun s hs => hall s (List.mem_cons_of_mem _ hs))
      have : List.intercalate ['/'] (a :: b :: rest) =
          a ++ '/' :: List.intercalate ['/'] (b :: rest) := by
        simp [List.intercalate, List.intersperse]
      rw [this, splitSlash_append_slash a _ (hall a (List.mem_cons_self _ _)), hrec]

end Go

namespace Go

/-- What `path.Clean` keeps while it goes through the elements: real elements without
slash, no `..` at all in a rooted path, and below a `..` only further `..`. -/
theorem cleanStep_inv (rooted : Bool) (acc : List (List Char)) (seg : List Char)
    (hseg : '/' ∉ seg)
    (h1 : ∀ s ∈ acc, s ≠ [] ∧ s ≠ ['.'] ∧ '/' ∉ s)
    (h2 : rooted = true → ∀ s ∈ acc, s ≠ ['.', '.'])
    (h3 : ∀ a b, acc = a ++ ['.', '.'] :: b → ∀ s ∈ b, s = ['.', '.']) :
    (∀ s ∈ cleanStep rooted acc seg, s ≠ [] ∧ s ≠ ['.'] ∧ '/' ∉ s) ∧
    (rooted = true → ∀ s ∈ cleanStep rooted acc seg, s ≠ ['.', '.']) ∧
    (∀ a b, cleanStep rooted acc seg = a ++ ['.', '.'] :: b → ∀ s ∈ b, s = ['.', '.']) := by
  unfold cleanStep
  by_cases hskip : seg = [] ∨ seg = ['.']
  · rw [if_pos hskip]; exact ⟨h1, h2, h3⟩
  rw [if_neg hskip]
  have hne : seg ≠ [] := fun h => hskip (Or.inl h)
  have hnd : seg ≠ ['.'] := fun h => hskip (Or.inr h)
  by_cases hdd : seg = ['.', '.']
  · rw [if_pos hdd]
    cases acc with
    | nil =>
      cases rooted with
      | true => simp
      | false =>
        subst hdd
        simp only [Bool.false_eq_true, if_false]
        refine ⟨by simp, by simp, ?_⟩
        intro a b hab s hs
        cases a with
        | nil =>
          simp only [List.nil_append, List.cons.injEq, true_and] at hab
          rw [← hab] at hs; simp at hs
        | cons x a => simp at hab
    | cons top rest =>
      simp only
      by_cases htop : top = ['.', '.']
      · rw [if_pos htop]
        cases rooted with
        | true => exact ⟨h1, h2, h3⟩
        | false =>
          subst hdd
          simp only [Bool.false_eq_true, if_false]
          refine ⟨?_, by simp, ?_⟩
          · intro s hs
            rcases List.mem_cons.1 hs with rfl | hs
            · simp
            · exact h1 s hs
          · intro a b hab s hs
            cases a with
            | nil =>
              simp only [List.nil_append, List.cons.injEq, true_and] at hab
              rw [← hab] at hs
              rcases List.mem_cons.1 hs with rfl | hs
              · exact htop
              · exact h3 [] rest (by simp [htop]) s hs
            | cons x a =>
              simp only [List.cons_append, List.cons.injEq] at hab
              exact h3 a b hab.2 s hs
      · rw [if_neg htop]
        refine ⟨fun s hs => h1 s (List.mem_cons_of_mem _ hs),
          fun hr s hs => h2 hr s (List.mem_cons_of_mem _ hs), ?_⟩
        intro a b hab s hs
        exact h3 (top :: a) b (by simp [hab]) s hs
  · rw [if_neg hdd]
    refine ⟨?_, ?_, ?_⟩
    · intro s hs
      rcases List.mem_cons.1 hs with rfl | hs
      · exact ⟨hne, hnd, hseg⟩
      · exact h1 s hs
    · intro hr s hs
      rcases List.mem_cons.1 hs with rfl | hs
      · exact hdd
      · exact h2 hr s hs
    · intro a b hab s hs
      cases a with
      | nil =>
        simp only [List.nil_append, List.cons.injEq] at hab
        exact absurd hab.1 hdd
      | cons x a =>
        simp only [List.cons_append, List.cons.injEq] at hab
        exact h3 a b hab.2 s hs

theorem foldl_cleanStep_inv (rooted : Bool) : ∀ (segs : List (List Char)) (acc : List (List Char)),
    (∀ s ∈ segs, '/' ∉ s) →
    (∀ s ∈ acc, s ≠ [] ∧ s ≠ ['.'] ∧ '/' ∉ s) →
    (rooted = true → ∀ s ∈ acc, s ≠ ['.', '.']) →
    (∀ a b, acc = a ++ ['.', '.'] :: b → ∀ s ∈ b, s = ['.', '.']) →
    (∀ s ∈ segs.foldl (cleanStep rooted) acc, s ≠ [] ∧ s ≠ ['.'] ∧ '/' ∉ s) ∧
    (rooted = true → ∀ s ∈ segs.foldl (cleanStep rooted) acc, s ≠ ['.', '.']) ∧
    (∀ a b, segs.foldl (cleanStep rooted) acc = a ++ ['.', '.'] :: b →
      ∀ s ∈ b, s = ['.', '.']) := by
  intro segs
  induction segs with
  | nil => intro acc _ h1 h2 h3; exact ⟨h1, h2, h3⟩
  | cons seg segs ih =>
    intro acc hs h1 h2 h3
    obtain ⟨g1, g2, g3⟩ := cleanStep_inv rooted acc seg (hs seg (List.mem_cons_self _ _)) h1 h2 h3
    exact ih _ (fun s h => hs s (List.mem_cons_of_mem _ h)) g1 g2 g3

/-- When an element kept by `path.Clean` is `..`, the first element of the result is. -/
theorem head_dotdot_of_mem (acc : List (List Char))
    (h3 : ∀ a b, acc = a ++ ['.', '.'] :: b → ∀ s ∈ b, s = ['.', '.'])
    (hm : ['.', '.'] ∈ acc) : ∃ rest, acc.reverse = ['.', '.'] :: rest := by
  obtain ⟨a, b, hab⟩ := List.append_of_mem hm
  have hb := h3 a b hab
  rcases List.eq_nil_or_concat b with hbn | ⟨b1, x, hbx⟩
  · subst hbn
    exact ⟨a.reverse, by rw [hab]; simp⟩
  · have hx : x = ['.', '.'] := hb x (by rw [hbx]; simp)
    subst hx
    refine ⟨(a ++ ['.', '.'] :: b1).reverse, ?_⟩
    rw [hab, hbx]
    simp

end Go

namespace S3Storage

open Go

/-- What `path.Clean` returns is `"."`, `".."`, starts with `"../"`, or has no element
that is `.` or `..`. -/
theorem Clean_segments (p : String) :
    Clean p = "." ∨ Clean p = ".." ∨ HasPrefix (Clean p) "../" = true ∨
    ∀ seg ∈ splitSlash (Clean p).data, seg ≠ ['.'] ∧ seg ≠ ['.', '.'] := by
  unfold Clean
  by_cases hp : p.data = []
  · rw [if_pos hp]; exact Or.inl rfl
  rw [if_neg hp]
  dsimp only
  obtain ⟨g1, g2, g3⟩ := foldl_cleanStep_inv (p.data.head? == some '/') (splitSlash p.data) []
    (splitSlash_no_slash p.data) (by simp) (by simp) (by simp)
  generalize (splitSlash p.data).foldl (cleanStep (p.data.head? == some '/')) [] = acc
    at g1 g2 g3 ⊢
  have hL : ∀ s ∈ acc.reverse, '/' ∉ s := fun s hs => (g1 s (List.mem_reverse.1 hs)).2.2
  cases hr : (p.data.head? == some '/') with
  | true =>
    simp only [if_true]
    rw [if_neg (by simp)]
    refine Or.inr (Or.inr (Or.inr ?_))
    intro seg hseg
    simp only at hseg
    rw [splitSlash_cons] at hseg
    simp only [beq_self_eq_true, if_true, List.mem_cons] at hseg
    rcases hseg with rfl | hseg
    · simp
    · by_cases hnil : acc.reverse = []
      · rw [hnil] at hseg
        simp [List.intercalate, splitSlash] at hseg
        subst hseg; simp
      · rw [splitSlash_intercalate _ hnil hL] at hseg
        have hm := List.mem_reverse.1 hseg
        exact ⟨(g1 seg hm).2.1, g2 hr seg hm⟩
  | false =>
    simp only [Bool.false_eq_true, if_false]
    by_cases hbody : List.intercalate ['/'] acc.reverse = []
    · rw [if_pos hbody]; exact Or.inl rfl
    rw [if_neg hbody]
    have hnil : acc.reverse ≠ [] := by
      intro h; rw [h] at hbody; exact hbody (by simp [List.intercalate])
    by_cases hdd : ['.', '.'] ∈ acc
    · obtain ⟨rest, hrest⟩ := head_dotdot_of_mem acc g3 hdd
      rw [hrest]
      cases rest with
      | nil =>
        refine Or.inr (Or.inl ?_)
        simp [List.intercalate, List.intersperse]
      | cons b rest =>
        refine Or.inr (Or.inr (Or.inl ?_))
        simp [List.intercalate, List.intersperse, HasPrefix]
    · refine Or.inr (Or.inr (Or.inr ?_))
      intro seg hseg
      simp only at hseg
      rw [splitSlash_intercalate _ hnil hL] at hseg
      have hm := List.mem_reverse.1 hseg
      exact ⟨(g1 seg hm).2.1, fun h => hdd (h ▸ hm)⟩

/-- C14: the claim fails on the code. For the key made of a backslash followed by `a`,
`sanitizeKey` returns `"/a"`, which begins with a slash: the leading slashes are trimmed
before the backslashes are turned into slashes. -/
theorem sanitizeKey_leading_backslash :
    sanitizeKey ⟨[Char.ofNat 92, 'a']⟩ = "/a" ∧
    (sanitizeKey ⟨[Char.ofNat 92, 'a']⟩).data.head? = some '/' := by
  decide

/-- C15: what `sanitizeKey` returns is empty or a path none of whose elements is `.` or
`..`; and it is empty whenever the cleaned key is `"."`, `".."` or starts with `"../"`. -/
theorem sanitizeKey_segments (k : String) :
    (sanitizeKey k = "" ∨
      ∀ seg ∈ splitSlash (sanitizeKey k).data, seg ≠ ['.'] ∧ seg ≠ ['.', '.']) ∧
    ((Clean (replaceBackslash (TrimLeftSlash (TrimSpace k))) = "." ∨
        Clean (replaceBackslash (TrimLeftSlash (TrimSpace k))) = ".." ∨
        HasPrefix (Clean (replaceBackslash (TrimLeftSlash (TrimSpace k)))) "../" = true) →
      sanitizeKey k = "") := by
  have hseg := Clean_segments (replaceBackslash (TrimLeftSlash (TrimSpace k)))
  unfold sanitizeKey
  simp only
  generalize Clean (replaceBackslash (TrimLeftSlash (TrimSpace k))) = c at hseg ⊢
  constructor
  · by_cases hc : c = "." ∨ c = ".." ∨ HasPrefix c "../" = true
    · rw [if_pos hc]; exact Or.inl rfl
    · rw [if_neg hc]
      rcases hseg with h | h | h | h
      · exact absurd (Or.inl h) hc
      · exact absurd (Or.inr (Or.inl h)) hc
      · exact absurd (Or.inr (Or.inr h)) hc
      · exact Or.inr h
  · intro hc
    rw [if_pos hc]

/-- C15 at a key with a repeated slash, a `.` and an inner `..`, and at a key that climbs
above its root. -/
theorem sanitizeKey_segments_witness :
    sanitizeKey "a//b/./c/../d" = "a/b/d" ∧
    (sanitizeKey "a//b/./c/../d" = "" ∨
      ∀ seg ∈ splitSlash (sanitizeKey "a//b/./c/../d").data, seg ≠ ['.'] ∧ seg ≠ ['.', '.']) ∧
    sanitizeKey "a/../../b" = "" :=
  ⟨by decide, (sanitizeKey_segments "a//b/./c/../d").1,
    (sanitizeKey_segments "a/../../b").2 (Or.inr (Or.inr (by decide)))⟩

/-- C16: for a key that `sanitizeKey` turns into the empty string, `Save`, `Open`, `Delete`
and `Exists` return an error, whatever the S3 client would answer, and send it nothing. -/
theorem Storage_empty_key_no_request (s : Storage) (join : String → String → String)
    (key : String) (sent : List Request) (h : sanitizeKey key = "") :
    (∀ answer, s.Save join answer key sent = (sent, .error (.msg "s3storage: key vazio"))) ∧
    (∀ answer, s.Open answer key sent = (sent, .error (.msg "s3storage: key vazio"))) ∧
    (∀ answer waited,
      s.Delete answer waited key sent = (sent, some (.msg "s3storage: key vazio"))) ∧
    (∀ answer, s.Exists answer key sent = (sent, false, some (.msg "s3storage: key vazio"))) := by
  refine ⟨?_, ?_, ?_, ?_⟩
  · intro answer; simp [Storage.Save, h]
  · intro answer; simp [Storage.Open, h]
  · intro answer waited; simp [Storage.Delete, h]
  · intro answer; simp [Storage.Exists, h]

/-- C16 at the keys `""`, `"/"`, `"."`, `".."` and `"../x"`. -/
theorem Storage_empty_key_no_request_witness :
    (sanitizeKey "" = "" ∧ sanitizeKey "/" = "" ∧ sanitizeKey "." = "" ∧ sanitizeKey ".." = "" ∧
      sanitizeKey "../x" = "") ∧
    (∀ answer, (⟨"docs", "", "private"⟩ : Storage).Save (fun b k => b ++ "/" ++ k) answer "../x" [] =
      ([], .error (.msg "s3storage: key vazio"))) ∧
    (∀ answer, (⟨"docs", "", "private"⟩ : Storage).Open answer "../x" [] =
      ([], .error (.msg "s3storage: key vazio"))) ∧
    (∀ answer waited, (⟨"docs", "", "private"⟩ : Storage).Delete answer waited "../x" [] =
      ([], some (.msg "s3storage: key vazio"))) ∧
    (∀ answer, (⟨"docs", "", "private"⟩ : Storage).Exists answer "../x" [] =
      ([], false, some (.msg "s3storage: key vazio"))) :=
  ⟨by decide,
    Storage_empty_key_no_request ⟨"docs", "", "private"⟩ (fun b k => b ++ "/" ++ k) "../x" []
      (by decide)⟩

end S3Storage

/-! ## Document handler: further claims -/

namespace Handlers

open Go Entities DocumentsUC Fixture

/-- C13, the failing input: document `docD1` has no row. `Delete`, `ReplaceFile`, `FindByID`
and `Download` all answer `400` with the payload `utils.HumanizeDB` builds for
`sql.ErrNoRows`, which is consulted first; none of them answers `404 not_found`, the branch
written for a document that is not found. -/
theorem Delete_missing_row_answers_400 :
    emptyWorld.rows docD1 = none ∧
    (NewDocumentHandler.Delete env noDeleteFaults trashT1 docD1 emptyWorld).resp =
      some (.JSON 400
        ⟨"Não foram encontrados resultados", "Dados inválidos. Corrija os campos de entrada.", []⟩) ∧
    (NewDocumentHandler.Delete env noDeleteFaults trashT1 docD1 emptyWorld).resp ≠ some notFound ∧
    (NewDocumentHandler.ReplaceFile env noReplaceFaults t0 trashT1 docD1 (some (idPdf pdfBytes))
      emptyWorld).resp =
      some (.JSON 400
        ⟨"Não foram encontrados resultados", "Dados inválidos. Corrija os campos de entrada.", []⟩) ∧
    (NewDocumentHandler.FindByID env none docD1 emptyWorld).resp =
      some (.JSON 400
        ⟨"Não foram encontrados resultados", "Dados inválidos. Corrija os campos de entrada.", []⟩) ∧
    (NewDocumentHandler.Download env none none docD1 emptyWorld).resp =
      some (.JSON 400
        ⟨"Não foram encontrados resultados", "Dados inválidos. Corrija os campos de entrada.", []⟩) ∧
    notFound = .JSON 404 ⟨"not_found", "Documento não encontrado", []⟩ := by
  decide

/-- For every well-formed id without row, `Delete`, `ReplaceFile`, `FindByID` and `Download`
all answer `400` with the error `Não foram encontrados resultados`, the payload of
`utils.HumanizeDB` for `sql.ErrNoRows`; it has the status of the validation-failure answers
and differs from them in its error text. -/
theorem missing_row_answers (h : DocumentHandler) (env : Env) (df : DeleteFaults)
    (rf : ReplaceFaults) (now : Instant) (trashID rawID id : String)
    (file : Option UploadedFile) (open_ : Option Err) (w : World)
    (hid : env.Parse rawID = some id) (hrow : w.rows id = none)
    (hdf : df.find = none) (hrf : rf.find = none) :
    (h.Delete env df trashID rawID w).resp =
      some (.JSON 400
        ⟨"Não foram encontrados resultados", "Dados inválidos. Corrija os campos de entrada.", []⟩) ∧
    (h.ReplaceFile env rf now trashID rawID file w).resp =
      some (.JSON 400
        ⟨"Não foram encontrados resultados", "Dados inválidos. Corrija os campos de entrada.", []⟩) ∧
    (h.FindByID env none rawID w).resp =
      some (.JSON 400
        ⟨"Não foram encontrados resultados", "Dados inválidos. Corrija os campos de entrada.", []⟩) ∧
    (h.Download env none open_ rawID w).resp =
      some (.JSON 400
        ⟨"Não foram encontrados resultados", "Dados inválidos. Corrija os campos de entrada.", []⟩) ∧
    (∀ fields, Response.JSON 400
        ⟨"Não foram encontrados resultados", "Dados inválidos. Corrija os campos de entrada.", []⟩ ≠
      invalidFields fields) ∧
    (∀ message, Response.JSON 400
        ⟨"Não foram encontrados resultados", "Dados inválidos. Corrija os campos de entrada.", []⟩ ≠
      badRequest message) := by
  refine ⟨?_, ?_, ?_, ?_, ?_, ?_⟩
  · simp [DocumentHandler.Delete, hid, deferUnlock, DocumentHandler.deleteLocked,
      FindDocumentByIDUseCase.Execute, World.FindByID, World.call, hrow, hdf, findFailed,
      HumanizeDB, Err.isErrNoRows]
  · simp [DocumentHandler.ReplaceFile, hid, deferUnlock, DocumentHandler.replaceLocked,
      FindDocumentByIDUseCase.Execute, World.FindByID, World.call, hrow, hrf, findFailed,
      HumanizeDB, Err.isErrNoRows]
  · simp [DocumentHandler.FindByID, hid, FindDocumentByIDUseCase.Execute, World.FindByID,
      World.call, hrow, findFailed, HumanizeDB, Err.isErrNoRows]
  · simp [DocumentHandler.Download, hid, FindDocumentByIDUseCase.Execute, World.FindByID,
      World.call, hrow, findFailed, HumanizeDB, Err.isErrNoRows]
  · intro fields; simp [invalidFields]
  · intro message; simp [badRequest]

/-- The answers for a missing row at document `docD1` in a world without rows. -/
theorem missing_row_answers_witness :
    (Fixture.env.Parse docD1 = some docD1 ∧ emptyWorld.rows docD1 = none) ∧
    (NewDocumentHandler.Delete Fixture.env noDeleteFaults trashT1 docD1 emptyWorld).resp =
      some (.JSON 400
        ⟨"Não foram encontrados resultados", "Dados inválidos. Corrija os campos de entrada.", []⟩) ∧
    (NewDocumentHandler.ReplaceFile Fixture.env noReplaceFaults t0 trashT1 docD1
      (some (idPdf pdfBytes)) emptyWorld).resp =
      some (.JSON 400
        ⟨"Não foram encontrados resultados", "Dados inválidos. Corrija os campos de entrada.", []⟩) ∧
    (NewDocumentHandler.FindByID Fixture.env none docD1 emptyWorld).resp =
      some (.JSON 400
        ⟨"Não foram encontrados resultados", "Dados inválidos. Corrija os campos de entrada.", []⟩) ∧
    (NewDocumentHandler.Download Fixture.env none none docD1 emptyWorld).resp =
      some (.JSON 400
        ⟨"Não foram encontrados resultados", "Dados inválidos. Corrija os campos de entrada.", []⟩) ∧
    (∀ fields, Response.JSON 400
        ⟨"Não foram encontrados resultados", "Dados inválidos. Corrija os campos de entrada.", []⟩ ≠
      invalidFields fields) ∧
    (∀ message, Response.JSON 400
        ⟨"Não foram encontrados resultados", "Dados inválidos. Corrija os campos de entrada.", []⟩ ≠
      badRequest message) :=
  ⟨by decide,
    missing_row_answers NewDocumentHandler Fixture.env noDeleteFaults noReplaceFaults t0 trashT1
      docD1 docD1 (some (idPdf pdfBytes)) none emptyWorld (by decide) (by decide) rfl rfl⟩

end Handlers

namespace Handlers

open Go Entities DocumentsUC Fixture

/-- What a created upload leaves: the row under the new id and the whole content of the
file under the key of the record. -/
theorem Upload_created (h : DocumentHandler) (env : Env) (f : UploadFaults)
    (now : Instant) (newID : String) (uploadedAt : Instant) (req : UploadRequest) (w : World)
    (doc : Document)
    (hresp : (h.Upload env f now newID uploadedAt req w).resp = some (.Document 201 doc)) :
    ∃ file, req.file = some file ∧ doc.ID = newID ∧
      (h.Upload env f now newID uploadedAt req w).world.blobs =
        Function.update w.blobs doc.ObjectKey (some file.content) ∧
      (h.Upload env f now newID uploadedAt req w).world.rows =
        Function.update w.rows newID (some doc) := by
  rcases Upload_cases h env f now newID uploadedAt req w with
    ⟨st, p, hU⟩ | ⟨file, ownerID, hfile, hid, -, -, -, -, hU⟩
  · rw [hU] at hresp; simp at hresp
  · rw [hU] at hresp ⊢
    rcases uploadLocked_cases h env f now newID uploadedAt req ownerID file.header
        (ToLower (Ext file.header.Filename)) file.content
        (w.call (.Lock (uploadLockKey req.OwnerType ownerID file.header.Filename))) with
      ⟨e, -, hL⟩ | ⟨-, -, st, p, hL⟩ | ⟨-, -, hL⟩ | ⟨-, -, -, st, p, hL⟩ |
      ⟨-, -, -, doc1, hdid, hkey, hL⟩
    · rw [hL] at hresp; simp [deferUnlock, internal] at hresp
    · rw [hL] at hresp; simp [deferUnlock] at hresp
    · rw [hL] at hresp; simp [deferUnlock] at hresp
    · rw [hL] at hresp; simp [deferUnlock] at hresp
    · rw [hL] at hresp ⊢
      simp only [deferUnlock, Option.some.injEq, Response.Document.injEq, true_and] at hresp
      subst hresp
      exact ⟨file, hfile, hdid, by simp [deferUnlock, World.call, hkey],
        by simp [deferUnlock, World.call]⟩

/-- What a `Delete` without failing call leaves when row and blob exist. -/
theorem Delete_noFaults (h : DocumentHandler) (env : Env)
    (trashID rawID id : String) (w : World) (doc : Document) (content : Bytes)
    (hid : env.Parse rawID = some id) (hrow : w.rows id = some doc)
    (hblob : w.blobs doc.ObjectKey = some content) :
    (h.Delete env noDeleteFaults trashID rawID w).resp = some (.Status 204) ∧
    (∀ key, (h.Delete env noDeleteFaults trashID rawID w).world.blobs key =
      if key = trashKeyFor h trashID doc.ObjectKey ∨ key = doc.ObjectKey then none
      else w.blobs key) ∧
    (h.Delete env noDeleteFaults trashID rawID w).world.rows = Function.update w.rows id none := by
  refine ⟨?_, ?_, ?_⟩
  · simp [DocumentHandler.Delete, hid, DocumentHandler.deleteLocked,
      FindDocumentByIDUseCase.Execute, World.FindByID, World.call, hrow, World.Exists, hblob,
      noDeleteFaults, noBackupFaults, DocumentHandler.backupObject, World.Open, World.Save,
      deferCleanup, deferUnlock, DocumentHandler.deleteBody, World.Delete,
      DeleteDocumentUseCase.Execute, World.DeleteRow, Cleanup.run]
  · intro key
    simp only [DocumentHandler.Delete, hid, DocumentHandler.deleteLocked,
      FindDocumentByIDUseCase.Execute, World.FindByID, World.call, hrow, World.Exists, hblob,
      noDeleteFaults, noBackupFaults, DocumentHandler.backupObject, World.Open, World.Save,
      deferCleanup, deferUnlock, DocumentHandler.deleteBody, World.Delete,
      DeleteDocumentUseCase.Execute, World.DeleteRow, Cleanup.run, Function.update_apply,
      Option.isSome_some, if_true, Bool.false_eq_true, if_false]
    by_cases h1 : key = trashKeyFor h trashID doc.ObjectKey <;>
      by_cases h2 : key = doc.ObjectKey <;> simp [h1, h2]
  · simp [DocumentHandler.Delete, hid, DocumentHandler.deleteLocked,
      FindDocumentByIDUseCase.Execute, World.FindByID, World.call, hrow, World.Exists, hblob,
      noDeleteFaults, noBackupFaults, DocumentHandler.backupObject, World.Open, World.Save,
      deferCleanup, deferUnlock, DocumentHandler.deleteBody, World.Delete,
      DeleteDocumentUseCase.Execute, World.DeleteRow, Cleanup.run]

/-- C11: the claim fails on the code. In a `ReplaceFile` of `id.pdf` by a new `id.pdf`
within the second of its upload the derived key is the key of the record; the new content
is saved over the old blob before the backup is taken, so when the update of the row fails,
what is restored is the new content: the row is unchanged, but the old content is lost and
the new key exists. -/
theorem ReplaceFile_update_failure_same_key :
    buildObjectKey t0 rowD1.OwnerType rowD1.OwnerID "id.pdf" = rowD1.ObjectKey ∧
    worldD1.blobs rowD1.ObjectKey = some pdfBytes ∧ pdfBytes2 ≠ pdfBytes ∧
    (NewDocumentHandler.ReplaceFile env { noReplaceFaults with update := some (.msg "db down") }
      t0 trashT1 docD1 (some (idPdf pdfBytes2)) worldD1).resp =
      some (internal "Falha ao atualizar registo no BD; versão antiga restaurada") ∧
    (NewDocumentHandler.ReplaceFile env { noReplaceFaults with update := some (.msg "db down") }
      t0 trashT1 docD1 (some (idPdf pdfBytes2)) worldD1).world.rows docD1 = some rowD1 ∧
    (NewDocumentHandler.ReplaceFile env { noReplaceFaults with update := some (.msg "db down") }
      t0 trashT1 docD1 (some (idPdf pdfBytes2)) worldD1).world.blobs rowD1.ObjectKey =
      some pdfBytes2 ∧
    ((NewDocumentHandler.ReplaceFile env { noReplaceFaults with update := some (.msg "db down") }
      t0 trashT1 docD1 (some (idPdf pdfBytes2)) worldD1).world.Exists none
      (buildObjectKey t0 rowD1.OwnerType rowD1.OwnerID "id.pdf")).2 = (true, none) := by
  decide

/-- C12: a valid `Upload` followed by the `Delete` of the returned id, no call failing,
answers `204` and leaves no blob that was not there before the upload (in particular none
under the prefix of the owner), no trash copy, and no row under the id. -/
theorem Upload_then_Delete_leaves_nothing (h : DocumentHandler) (env : Env)
    (now : Instant) (newID : String) (uploadedAt : Instant) (req : UploadRequest) (w : World)
    (doc : Document) (trashID : String)
    (hresp : (h.Upload env noUploadFaults now newID uploadedAt req w).resp =
      some (.Document 201 doc))
    (hparse : env.Parse doc.ID = some doc.ID) :
    (h.Delete env noDeleteFaults trashID doc.ID
      (h.Upload env noUploadFaults now newID uploadedAt req w).world).resp = some (.Status 204) ∧
    (∀ key, ((h.Delete env noDeleteFaults trashID doc.ID
        (h.Upload env noUploadFaults now newID uploadedAt req w).world).world.blobs key).isSome =
          true → (w.blobs key).isSome = true) ∧
    (h.Delete env noDeleteFaults trashID doc.ID
      (h.Upload env noUploadFaults now newID uploadedAt req w).world).world.blobs
        (trashKeyFor h trashID doc.ObjectKey) = none ∧
    ((h.Delete env noDeleteFaults trashID doc.ID
      (h.Upload env noUploadFaults now newID uploadedAt req w).world).world.FindByID none
        doc.ID).2 = .error .ErrNoRows := by
  obtain ⟨file, -, hdid, hblobs, hrows⟩ :=
    Upload_created h env noUploadFaults now newID uploadedAt req w doc hresp
  have hrow : (h.Upload env noUploadFaults now newID uploadedAt req w).world.rows doc.ID =
      some doc := by rw [hrows, hdid]; simp
  have hblob : (h.Upload env noUploadFaults now newID uploadedAt req w).world.blobs
      doc.ObjectKey = some file.content := by rw [hblobs]; simp
  obtain ⟨g1, g2, g3⟩ := Delete_noFaults h env trashID doc.ID doc.ID _ doc file.content hparse
    hrow hblob
  refine ⟨g1, ?_, ?_, ?_⟩
  · intro key
    rw [g2 key]
    by_cases hk : key = trashKeyFor h trashID doc.ObjectKey ∨ key = doc.ObjectKey
    · simp [hk]
    · rw [if_neg hk, hblobs]
      have hk2 : key ≠ doc.ObjectKey := fun hh => hk (Or.inr hh)
      simp [Function.update_apply, hk2]
  · rw [g2]; simp
  · simp [World.FindByID, World.call, g3]

/-- C12 at the upload of `id.pdf` for an employee into an empty world. -/
theorem Upload_then_Delete_leaves_nothing_witness :
    (NewDocumentHandler.Upload env noUploadFaults t0 docD1 t0 (uploadReq "employee" "BI")
      emptyWorld).resp = some (.Document 201 rowD1) ∧
    (NewDocumentHandler.Delete env noDeleteFaults trashT1 rowD1.ID
      (NewDocumentHandler.Upload env noUploadFaults t0 docD1 t0 (uploadReq "employee" "BI")
        emptyWorld).world).resp = some (.Status 204) ∧
    (∀ key, ((NewDocumentHandler.Delete env noDeleteFaults trashT1 rowD1.ID
        (NewDocumentHandler.Upload env noUploadFaults t0 docD1 t0 (uploadReq "employee" "BI")
          emptyWorld).world).world.blobs key).isSome = true →
        (emptyWorld.blobs key).isSome = true) ∧
    (NewDocumentHandler.Delete env noDeleteFaults trashT1 rowD1.ID
      (NewDocumentHandler.Upload env noUploadFaults t0 docD1 t0 (uploadReq "employee" "BI")
        emptyWorld).world).world.blobs (trashKeyFor NewDocumentHandler trashT1 rowD1.ObjectKey) =
      none ∧
    ((NewDocumentHandler.Delete env noDeleteFaults trashT1 rowD1.ID
      (NewDocumentHandler.Upload env noUploadFaults t0 docD1 t0 (uploadReq "employee" "BI")
        emptyWorld).world).world.FindByID none rowD1.ID).2 = .error .ErrNoRows :=
  ⟨by decide,
    Upload_then_Delete_leaves_nothing NewDocumentHandler env t0 docD1 t0
      (uploadReq "employee" "BI") emptyWorld rowD1 trashT1 (by decide) (by decide)⟩

end Handlers

/-! ## Calls made by the handlers -/

namespace Handlers

open Go Entities DocumentsUC Fixture

theorem calledFrom_refl (w : World) : calledFrom w w :=
  ⟨[], by simp, by simp⟩

theorem calledFrom_trans {w w1 w2 : World} (h1 : calledFrom w w1) (h2 : calledFrom w1 w2) :
    calledFrom w w2 := by
  obtain ⟨b1, e1, n1⟩ := h1
  obtain ⟨b2, e2, n2⟩ := h2
  refine ⟨b1 ++ b2, by rw [e2, e1, List.append_assoc], ?_⟩
  intro c hc
  rcases List.mem_append.1 hc with hc | hc
  · exact n1 c hc
  · exact n2 c hc

theorem calledFrom_of_log {w w1 : World} (c : Call) (hc : isLockCall c = false)
    (h : w1.log = w.log ++ [c]) : calledFrom w w1 :=
  ⟨[c], h, by simpa using hc⟩

theorem calledFrom_Save (w : World) (url : String → String) (fault : Option Err) (key : String)
    (data : Bytes) : calledFrom w (w.Save url fault key data).1 :=
  calledFrom_of_log (.Save key) rfl (by cases fault <;> rfl)

theorem calledFrom_Open (w : World) (fault : Option Err) (key : String) :
    calledFrom w (w.Open fault key).1 :=
  calledFrom_of_log (.Open key) rfl (by
    cases fault with
    | some e => rfl
    | none => simp only [World.Open, World.call]; cases w.blobs key <;> rfl)

theorem calledFrom_Delete (w : World) (fault : Option Err) (key : String) :
    calledFrom w (w.Delete fault key).1 :=
  calledFrom_of_log (.Delete key) rfl (by cases fault <;> rfl)

theorem calledFrom_Exists (w : World) (fault : Option Err) (key : String) :
    calledFrom w (w.Exists fault key).1 :=
  calledFrom_of_log (.Exists key) rfl (by cases fault <;> rfl)

theorem calledFrom_FindByID (w : World) (fault : Option Err) (id : String) :
    calledFrom w (w.FindByID fault id).1 :=
  calledFrom_of_log (.FindByID id) rfl (by
    cases fault with
    | some e => rfl
    | none => simp only [World.FindByID, World.call]; cases w.rows id <;> rfl)

theorem calledFrom_Update (w : World) (fault : Option Err) (doc : Document) :
    calledFrom w (w.Update fault doc).1 :=
  calledFrom_of_log (.Update doc.ID) rfl (by
    cases fault with
    | some e => rfl
    | none => simp only [World.Update, World.call]; cases w.rows doc.ID <;> rfl)

theorem calledFrom_DeleteRow (w : World) (fault : Option Err) (id : String) :
    calledFrom w (w.DeleteRow fault id).1 :=
  calledFrom_of_log (.DeleteRow id) rfl (by
    cases fault with
    | some e => rfl
    | none => simp only [World.DeleteRow, World.call]; cases w.rows id <;> rfl)

theorem calledFrom_Restore_run {r : Restore} {env : Env} {fault : Option Err} {w w1 : World}
    {e : Option Err} (h : r.run env fault w = some (w1, e)) : calledFrom w w1 := by
  cases r with
  | nil => simp [Restore.run] at h
  | noop =>
    simp only [Restore.run, Option.some.injEq, Prod.mk.injEq] at h
    rw [← h.1]; exact calledFrom_refl w
  | save key buf =>
    have hs := calledFrom_Save w env.URL fault key buf
    simp only [Restore.run] at h
    cases hsv : w.Save env.URL fault key buf with
    | mk w2 res =>
      rw [hsv] at h hs
      cases res <;> simp only [Option.some.injEq, Prod.mk.injEq] at h <;> rw [← h.1] <;> exact hs

theorem calledFrom_Cleanup_run {c : Cleanup} {fault : Option Err} {w w1 : World}
    {e : Option Err} (h : c.run fault w = some (w1, e)) : calledFrom w w1 := by
  cases c with
  | nil => simp [Cleanup.run] at h
  | noop =>
    simp only [Cleanup.run, Option.some.injEq, Prod.mk.injEq] at h
    rw [← h.1]; exact calledFrom_refl w
  | delete tk =>
    have hs := calledFrom_Delete w fault tk
    simp only [Cleanup.run, Option.some.injEq] at h
    rw [h] at hs
    exact hs

theorem calledFrom_deferCleanup (c : Cleanup) (fault : Option Err) (out : Outcome) :
    calledFrom out.world (deferCleanup c fault out).world := by
  unfold deferCleanup
  cases hrun : c.run fault out.world with
  | none => exact calledFrom_refl _
  | some r =>
    obtain ⟨w1, e⟩ := r
    exact calledFrom_Cleanup_run hrun

theorem calledFrom_backupObject (h : DocumentHandler) (env : Env) (bf : BackupFaults)
    (id key : String) (w : World) : calledFrom w (h.backupObject env bf id key w).1 := by
  unfold DocumentHandler.backupObject
  have h1 := calledFrom_Exists w bf.exists_ key
  generalize w.Exists bf.exists_ key = r1 at h1 ⊢
  obtain ⟨w1, ex, err⟩ := r1
  cases err with
  | some e => cases ex <;> exact h1
  | none =>
    cases ex with
    | false => exact h1
    | true =>
      simp only
      have h2 := calledFrom_Open w1 bf.open_ key
      generalize w1.Open bf.open_ key = r2 at h2 ⊢
      obtain ⟨w2, res⟩ := r2
      cases res with
      | error e =>
        simp only
        split <;> exact calledFrom_trans h1 h2
      | ok buf =>
        simp only
        cases bf.copy with
        | some e => exact calledFrom_trans h1 h2
        | none =>
          simp only
          have h3 := calledFrom_Save w2 env.URL bf.save (trashKeyFor h id key) buf
          generalize w2.Save env.URL bf.save (trashKeyFor h id key) buf = r3 at h3 ⊢
          obtain ⟨w3, res3⟩ := r3
          cases res3 <;> exact calledFrom_trans h1 (calledFrom_trans h2 h3)

theorem calledFrom_CreateExecute (p : String → Option String) (fault : Option Err)
    (newID : String) (t : Instant) (input : CreateDocumentInput) (w : World) :
    calledFrom w (CreateDocumentUseCase.Execute p fault newID t input w).1 := by
  rcases Execute_cases p fault newID t input w with
    ⟨-, hE⟩ | ⟨-, e, hE⟩ | ⟨-, e, -, hE⟩ | ⟨-, -, doc, -, -, hE⟩
  · rw [hE]; exact calledFrom_refl w
  · rw [hE]; exact calledFrom_refl w
  · rw [hE]; exact calledFrom_of_log (.Create newID) rfl rfl
  · rw [hE]; exact calledFrom_of_log (.Create newID) rfl rfl

theorem calledFrom_UpdateExecute (p : String → Option String) (findFault updateFault : Option Err)
    (now : Instant) (id : String) (dto : UpdateDocumentDTO) (w : World) :
    calledFrom w (UpdateDocumentUseCase.Execute p findFault updateFault now id dto w).1 := by
  unfold UpdateDocumentUseCase.Execute
  have h1 := calledFrom_FindByID w findFault id
  generalize w.FindByID findFault id = r1 at h1 ⊢
  obtain ⟨w1, res⟩ := r1
  cases res with
  | error e => exact h1
  | ok doc =>
    simp only
    cases ApplyUpdateToDocument p now doc dto with
    | error e => exact h1
    | ok doc1 =>
      simp only
      have h2 := calledFrom_Update w1 updateFault { doc1 with UploadedAt := now }
      generalize w1.Update updateFault { doc1 with UploadedAt := now } = r2 at h2 ⊢
      obtain ⟨w2, err⟩ := r2
      cases err <;> exact calledFrom_trans h1 h2

end Handlers

namespace Handlers

open Go Entities DocumentsUC Fixture

theorem calledFrom_uploadLocked (h : DocumentHandler) (env : Env) (f : UploadFaults)
    (now : Instant) (newID : String) (uploadedAt : Instant) (req : UploadRequest)
    (ownerID : String) (header : FileHeader) (ext : String) (rdr : Bytes) (w : World) :
    calledFrom w (h.uploadLocked env f now newID uploadedAt req ownerID header ext rdr w).world := by
  rcases uploadLocked_cases h env f now newID uploadedAt req ownerID header ext rdr w with
    ⟨e, -, hL⟩ | ⟨-, -, st, p, hL⟩ | ⟨-, -, hL⟩ | ⟨-, -, -, st, p, hL⟩ | ⟨-, -, -, doc, -, -, hL⟩
  · rw [hL]; exact calledFrom_of_log (.Save _) rfl rfl
  · rw [hL]
    exact calledFrom_trans (calledFrom_of_log (.Save _) rfl rfl) (calledFrom_Delete _ _ _)
  · rw [hL]; exact calledFrom_of_log (.Save _) rfl rfl
  · rw [hL]
    refine calledFrom_trans ?_ (calledFrom_Delete _ _ _)
    exact ⟨[.Save (buildObjectKey now req.OwnerType ownerID header.Filename), .Create newID],
      by simp, by simp [isLockCall]⟩
  · rw [hL]
    exact ⟨[.Save (buildObjectKey now req.OwnerType ownerID header.Filename), .Create newID],
      by simp, by simp [isLockCall]⟩

theorem calledFrom_deleteBody (env : Env) (f : DeleteFaults) (id : String) (doc : Document)
    (exists_ : Bool) (restore : Restore) (cleanup : Cleanup) (w : World) :
    calledFrom w (DocumentHandler.deleteBody env f id doc exists_ restore cleanup w).world := by
  unfold DocumentHandler.deleteBody
  have hrem : calledFrom w
      (if exists_ = true then
        match w.Delete f.delete doc.ObjectKey with
        | (w1, some err) => (w1, !isNoSuchKey err)
        | (w1, none) => (w1, false)
      else (w, false)).1 := by
    cases exists_ with
    | false => exact calledFrom_refl w
    | true =>
      simp only [if_true]
      have := calledFrom_Delete w f.delete doc.ObjectKey
      generalize w.Delete f.delete doc.ObjectKey = r at this ⊢
      obtain ⟨w1, err⟩ := r
      cases err <;> exact this
  generalize (if exists_ = true then
        match w.Delete f.delete doc.ObjectKey with
        | (w1, some err) => (w1, !isNoSuchKey err)
        | (w1, none) => (w1, false)
      else (w, false)) = removed at hrem ⊢
  obtain ⟨w1, stop⟩ := removed
  cases stop with
  | true => exact hrem
  | false =>
    simp only [Bool.false_eq_true, if_false]
    have hrow : calledFrom w1 (DeleteDocumentUseCase.Execute f.deleteRow id w1).1 :=
      calledFrom_DeleteRow w1 f.deleteRow id
    generalize DeleteDocumentUseCase.Execute f.deleteRow id w1 = r at hrow ⊢
    obtain ⟨w2, err⟩ := r
    have h2 : calledFrom w w2 := calledFrom_trans hrem hrow
    cases err with
    | some e =>
      simp only
      cases exists_ with
      | false => exact h2
      | true =>
        simp only [if_true]
        cases hr : restore.run env f.restore w2 with
        | none => exact h2
        | some r1 =>
          obtain ⟨w3, e3⟩ := r1
          exact calledFrom_trans h2 (calledFrom_Restore_run hr)
    | none =>
      simp only
      cases hc : cleanup.run f.cleanup w2 with
      | none => exact h2
      | some r1 =>
        obtain ⟨w3, e3⟩ := r1
        exact calledFrom_trans h2 (calledFrom_Cleanup_run hc)

theorem calledFrom_deleteLocked (h : DocumentHandler) (env : Env) (f : DeleteFaults)
    (trashID id : String) (w : World) :
    calledFrom w (h.deleteLocked env f trashID id w).world := by
  unfold DocumentHandler.deleteLocked
  have h1 : calledFrom w (FindDocumentByIDUseCase.Execute f.find id w).1 :=
    calledFrom_FindByID w f.find id
  generalize FindDocumentByIDUseCase.Execute f.find id w = r1 at h1 ⊢
  obtain ⟨w1, res⟩ := r1
  cases res with
  | error e => exact h1
  | ok doc =>
    simp only
    have h2 := calledFrom_Exists w1 f.exists_ doc.ObjectKey
    generalize w1.Exists f.exists_ doc.ObjectKey = r2 at h2 ⊢
    obtain ⟨w2, ex, exErr⟩ := r2
    simp only
    have h3 := calledFrom_backupObject h env f.backup trashID doc.ObjectKey w2
    generalize h.backupObject env f.backup trashID doc.ObjectKey w2 = r3 at h3 ⊢
    obtain ⟨w3, tk, restore, cleanup, bkErr⟩ := r3
    simp only
    have h123 : calledFrom w w3 := calledFrom_trans h1 (calledFrom_trans h2 h3)
    split
    · exact h123
    · exact calledFrom_trans h123
        (calledFrom_trans (calledFrom_deleteBody env f id doc ex restore cleanup w3)
          (calledFrom_deferCleanup _ _ _))

theorem calledFrom_replaceBody (env : Env) (f : ReplaceFaults) (now : Instant)
    (doc : Document) (header : FileHeader) (ext newKey newURL : String)
    (restoreOld : Restore) (cleanupOld : Cleanup) (w : World) :
    calledFrom w (DocumentHandler.replaceBody env f now doc header ext newKey newURL restoreOld
      cleanupOld w).world := by
  unfold DocumentHandler.replaceBody
  simp only
  have h1 := calledFrom_UpdateExecute env.ParseRequestURI f.ucFind f.update now doc.ID
    { Name := sanitizeFilename header.Filename, FileURL := newURL,
      Extension := TrimPrefix ext ".", ObjectKey := newKey } w
  generalize UpdateDocumentUseCase.Execute env.ParseRequestURI f.ucFind f.update now doc.ID
    { Name := sanitizeFilename header.Filename, FileURL := newURL,
      Extension := TrimPrefix ext ".", ObjectKey := newKey } w = r1 at h1 ⊢
  obtain ⟨w1, res⟩ := r1
  cases res with
  | error updErr =>
    simp only
    have h2 : calledFrom w (w1.Delete f.rollback newKey).1 :=
      calledFrom_trans h1 (calledFrom_Delete _ _ _)
    cases hr : restoreOld.run env f.restore (w1.Delete f.rollback newKey).1 with
    | none => exact h2
    | some r2 =>
      obtain ⟨w3, e3⟩ := r2
      simp only
      have h3 := calledFrom_trans h2 (calledFrom_Restore_run hr)
      split <;> exact h3
  | ok updated =>
    simp only
    have h2 : calledFrom w (w1.Delete f.deleteOld doc.ObjectKey).1 :=
      calledFrom_trans h1 (calledFrom_Delete _ _ _)
    cases hc : cleanupOld.run f.cleanup (w1.Delete f.deleteOld doc.ObjectKey).1 with
    | none => exact h2
    | some r2 =>
      obtain ⟨w3, e3⟩ := r2
      exact calledFrom_trans h2 (calledFrom_Cleanup_run hc)

theorem calledFrom_replaceLocked (h : DocumentHandler) (env : Env) (f : ReplaceFaults)
    (now : Instant) (trashID id : String) (file : Option UploadedFile) (w : World) :
    calledFrom w (h.replaceLocked env f now trashID id file w).world := by
  unfold DocumentHandler.replaceLocked
  have h1 : calledFrom w (FindDocumentByIDUseCase.Execute f.find id w).1 :=
    calledFrom_FindByID w f.find id
  generalize FindDocumentByIDUseCase.Execute f.find id w = r1 at h1 ⊢
  obtain ⟨w1, res⟩ := r1
  cases res with
  | error e => exact h1
  | ok doc =>
    simp only
    cases file with
    | none => exact h1
    | some file =>
      simp only
      by_cases hs : file.header.Size ≤ 0
      · rw [if_pos hs]; exact h1
      rw [if_neg hs]
      cases hext : (!h.AllowedExts.isEmpty &&
          !h.AllowedExts.contains (ToLower (Ext file.header.Filename))) with
      | true => simp only [if_true]; exact h1
      | false =>
      simp only [Bool.false_eq_true, if_false]
      cases hsn : sniffAndReset env f.read file with
      | error e => exact h1
      | ok r =>
      obtain ⟨ct, rdr⟩ := r
      simp only
      cases hty : (!h.AllowedTypes.isEmpty && !h.AllowedTypes.contains ct) with
      | true => simp only [if_true]; exact h1
      | false =>
      simp only [Bool.false_eq_true, if_false]
      cases hmd : computeMD5AndSize env f.md5copy rdr with
      | error e => exact h1
      | ok r =>
      obtain ⟨sum, size, rdr2⟩ := r
      simp only
      have h2 := calledFrom_Save w1 env.URL f.save
        (buildObjectKey now doc.OwnerType doc.OwnerID file.header.Filename) rdr2
      generalize w1.Save env.URL f.save
        (buildObjectKey now doc.OwnerType doc.OwnerID file.header.Filename) rdr2 = r2 at h2 ⊢
      obtain ⟨w2, res2⟩ := r2
      cases res2 with
      | error e => exact calledFrom_trans h1 h2
      | ok newURL =>
        simp only
        have h3 := calledFrom_backupObject h env f.backup trashID doc.ObjectKey w2
        generalize h.backupObject env f.backup trashID doc.ObjectKey w2 = r3 at h3 ⊢
        obtain ⟨w3, tk, restoreOld, cleanupOld, bkErr⟩ := r3
        simp only
        have h123 : calledFrom w w3 := calledFrom_trans h1 (calledFrom_trans h2 h3)
        split
        · exact calledFrom_trans h123 (calledFrom_Delete _ _ _)
        · exact calledFrom_trans h123
            (calledFrom_trans (calledFrom_replaceBody env f now doc file.header _ _ newURL
              restoreOld cleanupOld w3) (calledFrom_deferCleanup _ _ _))

end Handlers

namespace Handlers

open Go Entities DocumentsUC Fixture

theorem lockedOnce_deferUnlock (w : World) (lockKey : String) (out : Outcome)
    (h : calledFrom (w.call (.Lock lockKey)) out.world) :
    lockedOnce w (deferUnlock lockKey out).world := by
  obtain ⟨body, hb, hn⟩ := h
  refine Or.inr ⟨lockKey, body, ?_, hn⟩
  simp [deferUnlock, World.call, hb]

/-- C20: in `Upload`, `Delete` and `ReplaceFile`, whatever fails and however the handler
ends (answer or abort), either the lock was never taken and nothing was called, or `Lock`
was the first call, the deferred `unlock` the last one, and no lock was taken or released
in between: the closure is called exactly once on every path after `Lock`. -/
theorem unlock_called_once (h : DocumentHandler) (env : Env) (uf : UploadFaults)
    (df : DeleteFaults) (rf : ReplaceFaults) (now : Instant) (newID : String)
    (uploadedAt : Instant) (req : UploadRequest) (trashID rawID : String)
    (file : Option UploadedFile) (w : World) :
    lockedOnce w (h.Upload env uf now newID uploadedAt req w).world ∧
    lockedOnce w (h.Delete env df trashID rawID w).world ∧
    lockedOnce w (h.ReplaceFile env rf now trashID rawID file w).world := by
  refine ⟨?_, ?_, ?_⟩
  · rcases Upload_cases h env uf now newID uploadedAt req w with
      ⟨st, p, hU⟩ | ⟨file1, ownerID, -, -, -, -, -, -, hU⟩
    · rw [hU]; exact Or.inl rfl
    · rw [hU]
      exact lockedOnce_deferUnlock w _ _ (calledFrom_uploadLocked _ _ _ _ _ _ _ _ _ _ _ _)
  · unfold DocumentHandler.Delete
    cases env.Parse rawID with
    | none => exact Or.inl rfl
    | some id => exact lockedOnce_deferUnlock w _ _ (calledFrom_deleteLocked _ _ _ _ _ _)
  · unfold DocumentHandler.ReplaceFile
    cases env.Parse rawID with
    | none => exact Or.inl rfl
    | some id => exact lockedOnce_deferUnlock w _ _ (calledFrom_replaceLocked _ _ _ _ _ _ _ _)

end Handlers

/-! ## Answers and compensation -/

namespace Handlers

open Go Entities DocumentsUC Fixture

/-- Whether `restore(ctx)` can be called at all depends on the function value only. -/
theorem Restore_run_isSome (r : Restore) (env : Env) (fault : Option Err) (w : World) :
    (r.run env fault w).isSome = !decide (r = .nil) := by
  cases r with
  | nil => rfl
  | noop => rfl
  | save key buf => cases fault <;> rfl

/-- Whether `cleanup(ctx)` can be called at all depends on the function value only. -/
theorem Cleanup_run_isSome (c : Cleanup) (fault : Option Err) (w : World) :
    (c.run fault w).isSome = !decide (c = .nil) := by
  cases c <;> rfl

theorem deferCleanup_resp (c : Cleanup) (fault : Option Err) (out : Outcome) :
    (deferCleanup c fault out).resp = out.resp ∧
    (deferCleanup c fault out).aborted = (out.aborted || decide (c = .nil)) := by
  unfold deferCleanup
  cases c with
  | nil => simp [Cleanup.run]
  | noop => simp [Cleanup.run]
  | delete tk => simp [Cleanup.run]

/-- The answer of the locked part of `Upload` does not depend on the outcome of the
rollback. -/
theorem uploadLocked_resp (h : DocumentHandler) (env : Env) (f : UploadFaults) (r : Option Err)
    (now : Instant) (newID : String) (uploadedAt : Instant) (req : UploadRequest)
    (ownerID : String) (header : FileHeader) (ext : String) (rdr : Bytes) (w : World) :
    (h.uploadLocked env { f with rollback := r } now newID uploadedAt req ownerID header ext rdr
        w).resp =
      (h.uploadLocked env f now newID uploadedAt req ownerID header ext rdr w).resp ∧
    (h.uploadLocked env { f with rollback := r } now newID uploadedAt req ownerID header ext rdr
        w).aborted =
      (h.uploadLocked env f now newID uploadedAt req ownerID header ext rdr w).aborted := by
  unfold DocumentHandler.uploadLocked
  dsimp only
  generalize w.Save env.URL f.save (buildObjectKey now req.OwnerType ownerID header.Filename) rdr
    = r1
  obtain ⟨w1, res⟩ := r1
  cases res with
  | error e => exact ⟨rfl, rfl⟩
  | ok url =>
    dsimp only
    generalize CreateDocumentUseCase.Execute env.ParseRequestURI f.create newID uploadedAt
      { OwnerType := req.OwnerType, OwnerID := ownerID, Type_ := req.Type_,
        FileName := sanitizeFilename header.Filename, FileURL := url,
        Extension := TrimPrefix ext ".", IsActive := true,
        ObjectKey := buildObjectKey now req.OwnerType ownerID header.Filename } w1 = r2
    obtain ⟨w2, res2⟩ := r2
    cases res2 with
    | ok doc => exact ⟨rfl, rfl⟩
    | panic e => exact ⟨rfl, rfl⟩
    | error e =>
      dsimp only
      cases HumanizeDB env e with
      | none => exact ⟨rfl, rfl⟩
      | some p => exact ⟨rfl, rfl⟩

/-- The answer of the body of `Delete` does not depend on the outcome of the restore or of
the cleanup. -/
theorem deleteBody_resp (env : Env) (f : DeleteFaults) (r c d : Option Err) (id : String)
    (doc : Document) (exists_ : Bool) (restore : Restore) (cleanup : Cleanup) (w : World) :
    (DocumentHandler.deleteBody env { f with restore := r, cleanup := c, deferredCleanup := d }
        id doc exists_ restore cleanup w).resp =
      (DocumentHandler.deleteBody env f id doc exists_ restore cleanup w).resp ∧
    (DocumentHandler.deleteBody env { f with restore := r, cleanup := c, deferredCleanup := d }
        id doc exists_ restore cleanup w).aborted =
      (DocumentHandler.deleteBody env f id doc exists_ restore cleanup w).aborted := by
  unfold DocumentHandler.deleteBody
  dsimp only
  generalize (if exists_ = true then
        match w.Delete f.delete doc.ObjectKey with
        | (w1, some err) => (w1, !isNoSuchKey err)
        | (w1, none) => (w1, false)
      else (w, false)) = removed
  obtain ⟨w1, stop⟩ := removed
  cases stop with
  | true => exact ⟨rfl, rfl⟩
  | false =>
    simp only [Bool.false_eq_true, if_false]
    generalize DeleteDocumentUseCase.Execute f.deleteRow id w1 = rr
    obtain ⟨w2, err⟩ := rr
    cases err with
    | some e =>
      dsimp only
      cases exists_ with
      | false => exact ⟨rfl, rfl⟩
      | true =>
        simp only [if_true]
        cases restore with
        | nil => exact ⟨rfl, rfl⟩
        | noop => exact ⟨rfl, rfl⟩
        | save key buf =>
          cases r <;> cases f.restore <;> exact ⟨rfl, rfl⟩
    | none =>
      dsimp only
      cases cleanup with
      | nil => exact ⟨rfl, rfl⟩
      | noop => exact ⟨rfl, rfl⟩
      | delete tk => exact ⟨rfl, rfl⟩

theorem deleteLocked_resp (h : DocumentHandler) (env : Env) (f : DeleteFaults)
    (r c d : Option Err) (trashID id : String) (w : World) :
    (h.deleteLocked env { f with restore := r, cleanup := c, deferredCleanup := d } trashID id
        w).resp = (h.deleteLocked env f trashID id w).resp ∧
    (h.deleteLocked env { f with restore := r, cleanup := c, deferredCleanup := d } trashID id
        w).aborted = (h.deleteLocked env f trashID id w).aborted := by
  unfold DocumentHandler.deleteLocked
  dsimp only
  generalize FindDocumentByIDUseCase.Execute f.find id w = r1
  obtain ⟨w1, res⟩ := r1
  cases res with
  | error e => exact ⟨rfl, rfl⟩
  | ok doc =>
    dsimp only
    generalize w1.Exists f.exists_ doc.ObjectKey = r2
    obtain ⟨w2, ex, exErr⟩ := r2
    dsimp only
    generalize h.backupObject env f.backup trashID doc.ObjectKey w2 = r3
    obtain ⟨w3, tk, restore, cleanup, bkErr⟩ := r3
    dsimp only
    split
    · exact ⟨rfl, rfl⟩
    · have hb := deleteBody_resp env f r c d id doc ex restore cleanup w3
      rw [(deferCleanup_resp _ _ _).1, (deferCleanup_resp _ _ _).1,
        (deferCleanup_resp _ _ _).2, (deferCleanup_resp _ _ _).2, hb.1, hb.2]
      exact ⟨rfl, rfl⟩

/-- The answer of the body of `ReplaceFile` does not depend on the outcome of the rollback,
of the restore or of the cleanup. -/
theorem replaceBody_resp (env : Env) (f : ReplaceFaults) (u r s c d : Option Err)
    (now : Instant) (doc : Document) (header : FileHeader) (ext newKey newURL : String)
    (restoreOld : Restore) (cleanupOld : Cleanup) (w : World) :
    (DocumentHandler.replaceBody env
        { f with undoSave := u, rollback := r, restore := s, cleanup := c, deferredCleanup := d }
        now doc header ext newKey newURL restoreOld cleanupOld w).resp =
      (DocumentHandler.replaceBody env f now doc header ext newKey newURL restoreOld cleanupOld
        w).resp ∧
    (DocumentHandler.replaceBody env
        { f with undoSave := u, rollback := r, restore := s, cleanup := c, deferredCleanup := d }
        now doc header ext newKey newURL restoreOld cleanupOld w).aborted =
      (DocumentHandler.replaceBody env f now doc header ext newKey newURL restoreOld cleanupOld
        w).aborted := by
  unfold DocumentHandler.replaceBody
  dsimp only
  generalize UpdateDocumentUseCase.Execute env.ParseRequestURI f.ucFind f.update now doc.ID
    { Name := sanitizeFilename header.Filename, FileURL := newURL,
      Extension := TrimPrefix ext ".", ObjectKey := newKey } w = r1
  obtain ⟨w1, res⟩ := r1
  cases res with
  | error updErr =>
    dsimp only
    cases restoreOld with
    | nil => exact ⟨rfl, rfl⟩
    | noop =>
      simp only [Restore.run]
      cases HumanizeDB env updErr <;> exact ⟨rfl, rfl⟩
    | save key buf =>
      cases s <;> cases f.restore <;> simp only [Restore.run, World.Save] <;>
        cases HumanizeDB env updErr <;> exact ⟨rfl, rfl⟩
  | ok updated =>
    dsimp only
    cases cleanupOld with
    | nil => exact ⟨rfl, rfl⟩
    | noop => exact ⟨rfl, rfl⟩
    | delete tk => exact ⟨rfl, rfl⟩

end Handlers

namespace Handlers

open Go Entities DocumentsUC Fixture

theorem replaceLocked_resp (h : DocumentHandler) (env : Env) (f : ReplaceFaults)
    (u r s c d : Option Err) (now : Instant) (trashID id : String)
    (file : Option UploadedFile) (w : World) :
    (h.replaceLocked env
        { f with undoSave := u, rollback := r, restore := s, cleanup := c, deferredCleanup := d }
        now trashID id file w).resp = (h.replaceLocked env f now trashID id file w).resp ∧
    (h.replaceLocked env
        { f with undoSave := u, rollback := r, restore := s, cleanup := c, deferredCleanup := d }
        now trashID id file w).aborted =
      (h.replaceLocked env f now trashID id file w).aborted := by
  unfold DocumentHandler.replaceLocked
  dsimp only
  generalize FindDocumentByIDUseCase.Execute f.find id w = r1
  obtain ⟨w1, res⟩ := r1
  cases res with
  | error e => exact ⟨rfl, rfl⟩
  | ok doc =>
    dsimp only
    cases file with
    | none => exact ⟨rfl, rfl⟩
    | some file =>
      dsimp only
      by_cases hs : file.header.Size ≤ 0
      · rw [if_pos hs, if_pos hs]; exact ⟨rfl, rfl⟩
      rw [if_neg hs, if_neg hs]
      cases hext : (!h.AllowedExts.isEmpty &&
          !h.AllowedExts.contains (ToLower (Ext file.header.Filename))) with
      | true => simp only [if_true]; exact ⟨by trivial, by trivial⟩
      | false =>
      simp only [Bool.false_eq_true, if_false]
      cases hsn : sniffAndReset env f.read file with
      | error e => exact ⟨rfl, rfl⟩
      | ok r0 =>
      obtain ⟨ct, rdr⟩ := r0
      dsimp only
      cases hty : (!h.AllowedTypes.isEmpty && !h.AllowedTypes.contains ct) with
      | true => simp only [if_true]; exact ⟨by trivial, by trivial⟩
      | false =>
      simp only [Bool.false_eq_true, if_false]
      cases hmd : computeMD5AndSize env f.md5copy rdr with
      | error e => exact ⟨rfl, rfl⟩
      | ok r0 =>
      obtain ⟨sum, size, rdr2⟩ := r0
      dsimp only
      generalize w1.Save env.URL f.save
        (buildObjectKey now doc.OwnerType doc.OwnerID file.header.Filename) rdr2 = r2
      obtain ⟨w2, res2⟩ := r2
      cases res2 with
      | error e => exact ⟨rfl, rfl⟩
      | ok newURL =>
        dsimp only
        generalize h.backupObject env f.backup trashID doc.ObjectKey w2 = r3
        obtain ⟨w3, tk, restoreOld, cleanupOld, bkErr⟩ := r3
        dsimp only
        split
        · exact ⟨rfl, rfl⟩
        · have hb := replaceBody_resp env f u r s c d now doc file.header
            (ToLower (Ext file.header.Filename))
            (buildObjectKey now doc.OwnerType doc.OwnerID file.header.Filename) newURL
            restoreOld cleanupOld w3
          rw [(deferCleanup_resp _ _ _).1, (deferCleanup_resp _ _ _).1,
            (deferCleanup_resp _ _ _).2, (deferCleanup_resp _ _ _).2, hb.1, hb.2]
          exact ⟨rfl, rfl⟩

/-- C19: in `Upload`, `Delete` and `ReplaceFile` the answer written to the caller (status
and payload, or no answer because the handler aborted) is the same whatever the outcome of
the compensating storage calls: the rollback delete of the new blob, the restore of the old
blob and the trash cleanup. -/
theorem answer_independent_of_compensation (h : DocumentHandler) (env : Env)
    (uf : UploadFaults) (df : DeleteFaults) (rf : ReplaceFaults) (now : Instant)
    (newID : String) (uploadedAt : Instant) (req : UploadRequest) (trashID rawID : String)
    (file : Option UploadedFile) (w : World) (u r s c d : Option Err) :
    ((h.Upload env { uf with rollback := r } now newID uploadedAt req w).resp =
        (h.Upload env uf now newID uploadedAt req w).resp ∧
      (h.Upload env { uf with rollback := r } now newID uploadedAt req w).aborted =
        (h.Upload env uf now newID uploadedAt req w).aborted) ∧
    ((h.Delete env { df with restore := s, cleanup := c, deferredCleanup := d } trashID rawID
          w).resp = (h.Delete env df trashID rawID w).resp ∧
      (h.Delete env { df with restore := s, cleanup := c, deferredCleanup := d } trashID rawID
          w).aborted = (h.Delete env df trashID rawID w).aborted) ∧
    ((h.ReplaceFile env
          { rf with undoSave := u, rollback := r, restore := s, cleanup := c,
                    deferredCleanup := d } now trashID rawID file w).resp =
        (h.ReplaceFile env rf now trashID rawID file w).resp ∧
      (h.ReplaceFile env
          { rf with undoSave := u, rollback := r, restore := s, cleanup := c,
                    deferredCleanup := d } now trashID rawID file w).aborted =
        (h.ReplaceFile env rf now trashID rawID file w).aborted) := by
  refine ⟨?_, ?_, ?_⟩
  · unfold DocumentHandler.Upload
    dsimp only
    generalize (if h.MaxUploadSize > 0 then req.body.MaxBytesReader (h.MaxUploadSize + 1024)
      else req.body) = body
    cases hrd : body.readable with
    | false => exact ⟨rfl, rfl⟩
    | true =>
    simp only [Bool.not_true, Bool.false_eq_true, if_false]
    cases env.ShouldBindWith req.OwnerType req.OwnerID req.Type_ with
    | some fields => exact ⟨rfl, rfl⟩
    | none =>
    cases req.file with
    | none => exact ⟨rfl, rfl⟩
    | some file1 =>
    dsimp only
    by_cases hs : file1.header.Size ≤ 0
    · rw [if_pos hs, if_pos hs]; exact ⟨rfl, rfl⟩
    rw [if_neg hs, if_neg hs]
    by_cases hm : h.MaxUploadSize > 0 ∧ file1.header.Size > h.MaxUploadSize
    · rw [if_pos hm, if_pos hm]; exact ⟨rfl, rfl⟩
    rw [if_neg hm, if_neg hm]
    cases hext : (!h.AllowedExts.isEmpty &&
        !h.AllowedExts.contains (ToLower (Ext file1.header.Filename))) with
    | true => simp only [if_true]; exact ⟨by trivial, by trivial⟩
    | false =>
    simp only [Bool.false_eq_true, if_false]
    cases hsn : sniffAndReset env uf.read file1 with
    | error e => exact ⟨rfl, rfl⟩
    | ok r0 =>
    obtain ⟨ct, rdr⟩ := r0
    dsimp only
    cases hty : (!h.AllowedTypes.isEmpty && !h.AllowedTypes.contains ct) with
    | true => simp only [if_true]; exact ⟨by trivial, by trivial⟩
    | false =>
    simp only [Bool.false_eq_true, if_false]
    cases env.Parse req.OwnerID with
    | none => exact ⟨rfl, rfl⟩
    | some ownerID =>
    dsimp only
    cases hmd : computeMD5AndSize env uf.md5copy rdr with
    | error e => exact ⟨rfl, rfl⟩
    | ok r0 =>
    obtain ⟨sum, size, rdr2⟩ := r0
    exact uploadLocked_resp h env uf r now newID uploadedAt req ownerID file1.header _ rdr2 _
  · unfold DocumentHandler.Delete
    cases env.Parse rawID with
    | none => exact ⟨rfl, rfl⟩
    | some id => exact deleteLocked_resp h env df s c d trashID id _
  · unfold DocumentHandler.ReplaceFile
    cases env.Parse rawID with
    | none => exact ⟨rfl, rfl⟩
    | some id => exact replaceLocked_resp h env rf u r s c d now trashID id file _

end Handlers

/-! ## Boolean query parameters -/

namespace Utils

open Go

/-- Go `ParseBool` answers `true` exactly for the six spellings `strconv.ParseBool` takes as
true, compared as they are written, and for `y`, `yes`, `on` in any letter case. -/
theorem ParseBool_eq_true_iff (s : String) :
    ParseBool s = true ↔
      (TrimSpace s = "1" ∨ TrimSpace s = "t" ∨ TrimSpace s = "T" ∨ TrimSpace s = "true" ∨
        TrimSpace s = "TRUE" ∨ TrimSpace s = "True") ∨
      (ToLower (TrimSpace s) = "y" ∨ ToLower (TrimSpace s) = "yes" ∨
        ToLower (TrimSpace s) = "on") := by
  unfold ParseBool strconvParseBool
  generalize TrimSpace s = t
  by_cases h0 : t = ""
  · subst h0; decide
  · by_cases h1 : t = "1" ∨ t = "t" ∨ t = "T" ∨ t = "true" ∨ t = "TRUE" ∨ t = "True"
    · simp only [h0, h1, if_true, if_false, true_or]
    · by_cases h2 : t = "0" ∨ t = "f" ∨ t = "F" ∨ t = "false" ∨ t = "FALSE" ∨ t = "False"
      · simp only [h0, h1, h2, if_true, if_false, false_or]
        rcases h2 with h | h | h | h | h | h <;> subst h <;> decide
      · simp only [h0, h1, h2, if_false, false_or]
        by_cases h3 : ToLower t = "y" ∨ ToLower t = "yes" ∨ ToLower t = "on"
        · simp only [h3, if_true]
        · simp only [h3, if_false]
          split <;> simp

/-- C21, the failing input: `tRUE` and `TrUe`, compared without regard to letter case, are the
spelling `true`, yet `ParseBool` answers `false` for them, while it answers `true` for `true`,
`TRUE` and `True`: `strconv.ParseBool` knows only these three casings and the lower-casing
branch of `ParseBool` covers only `y`, `yes` and `on`. -/
theorem ParseBool_mixed_case_true :
    ToLower (TrimSpace "tRUE") = "true" ∧ ParseBool "tRUE" = false ∧
    ToLower (TrimSpace " TrUe ") = "true" ∧ ParseBool " TrUe " = false ∧
    ParseBool "true" = true ∧ ParseBool "TRUE" = true ∧ ParseBool "True" = true ∧
    ParseBool "yEs" = true := by
  decide

end Utils

/-! ## Backup, restore and cleanup -/

namespace Handlers

open Go Entities DocumentsUC Fixture

/-- C22, the failing input: the `Exists` call of `backupObject` fails with an error whose text
holds `NoSuchKey`. `backupObject` returns that error together with nil `restore` and `cleanup`
functions; `isNoSuchKey` classifies the error as a missing object, so `Delete` and
`ReplaceFile` go on, change the stores and then call the nil `cleanup`: both handlers end in a
panic without having written an answer. -/
theorem nil_cleanup_invoked :
    (NewDocumentHandler.backupObject env
      { noBackupFaults with exists_ := some (.msg "api error NoSuchKey") } trashT1 keyK1
      worldD1).2.2 =
      (.nil, .nil, some (.wrap "exists: " (.msg "api error NoSuchKey"))) ∧
    isNoSuchKey (.wrap "exists: " (.msg "api error NoSuchKey")) = true ∧
    (Cleanup.run .nil none worldD1).isNone = true ∧
    (NewDocumentHandler.Delete env
      { noDeleteFaults with
        backup := { noBackupFaults with exists_ := some (.msg "api error NoSuchKey") } }
      trashT1 docD1 worldD1).aborted = true ∧
    (NewDocumentHandler.Delete env
      { noDeleteFaults with
        backup := { noBackupFaults with exists_ := some (.msg "api error NoSuchKey") } }
      trashT1 docD1 worldD1).resp = none ∧
    (NewDocumentHandler.Delete env
      { noDeleteFaults with
        backup := { noBackupFaults with exists_ := some (.msg "api error NoSuchKey") } }
      trashT1 docD1 worldD1).world.log =
      [.Lock "doc:id:22222222-2222-4222-8222-222222222222", .FindByID docD1, .Exists keyK1,
        .Exists keyK1, .Delete keyK1, .DeleteRow docD1,
        .Unlock "doc:id:22222222-2222-4222-8222-222222222222"] ∧
    (NewDocumentHandler.ReplaceFile env
      { noReplaceFaults with
        backup := { noBackupFaults with exists_ := some (.msg "api error NoSuchKey") } }
      ⟨2025, 3, 14, 9, 30, 0⟩ trashT1 docD1 (some (idPdf pdfBytes2)) worldD1).aborted = true ∧
    (NewDocumentHandler.ReplaceFile env
      { noReplaceFaults with
        backup := { noBackupFaults with exists_ := some (.msg "api error NoSuchKey") } }
      ⟨2025, 3, 14, 9, 30, 0⟩ trashT1 docD1 (some (idPdf pdfBytes2)) worldD1).resp = none ∧
    (NewDocumentHandler.ReplaceFile env
      { noReplaceFaults with
        backup := { noBackupFaults with exists_ := some (.msg "api error NoSuchKey") } }
      ⟨2025, 3, 14, 9, 30, 0⟩ trashT1 docD1 (some (idPdf pdfBytes2)) worldD1).world.log =
      [.Lock "doc:id:22222222-2222-4222-8222-222222222222", .FindByID docD1,
        .Save "employee/11111111-1111-4111-8111-111111111111/id_20250314T093000Z.pdf",
        .Exists keyK1, .FindByID docD1, .Update docD1, .Delete keyK1,
        .Unlock "doc:id:22222222-2222-4222-8222-222222222222"] := by
  decide

end Handlers

namespace Handlers

open Go Entities DocumentsUC Fixture

/-- What `backupObject` returns besides the world depends on the blobs only. -/
theorem backupObject_congr (h : DocumentHandler) (env : Env) (bf : BackupFaults)
    (id key : String) (w w' : World) (hb : w.blobs = w'.blobs) :
    (h.backupObject env bf id key w).2 = (h.backupObject env bf id key w').2 := by
  obtain ⟨ex, op, cp, sv⟩ := bf
  unfold DocumentHandler.backupObject World.Exists World.Open World.Save World.call
  cases ex <;> cases op <;> cases cp <;> cases sv <;> cases hk : w'.blobs key <;>
    simp [hb, hk] <;> split <;> rfl

/-- A failing `backupObject` leaves both stores as they were. -/
theorem backupObject_error_frame (h : DocumentHandler) (env : Env) (bf : BackupFaults)
    (id key : String) (w : World) (e : Err)
    (herr : (h.backupObject env bf id key w).2.2.2.2 = some e) :
    (h.backupObject env bf id key w).1.blobs = w.blobs ∧
    (h.backupObject env bf id key w).1.rows = w.rows := by
  obtain ⟨ex, op, cp, sv⟩ := bf
  revert herr
  unfold DocumentHandler.backupObject World.Exists World.Open World.Save World.call
  cases ex <;> cases op <;> cases cp <;> cases sv <;> cases hk : w.blobs key <;>
    simp [hk] <;> split <;> simp

end Handlers

namespace Handlers

open Go Entities DocumentsUC Fixture

/-- C23: in `Delete`, when the row of the document is found and `backupObject`, asked about
its blob, fails with an error that `isNoSuchKey` does not classify as a missing object (a
failure of `Exists`, `Open`, the copy or the `Save` of the trash copy), the handler answers
`500 Falha ao preparar backup`, does not panic, and leaves every blob and every row as it
was. -/
theorem Delete_backup_failure_touches_nothing (h : DocumentHandler) (env : Env)
    (f : DeleteFaults) (trashID rawID id : String) (w : World) (doc : Document) (e : Err)
    (hid : env.Parse rawID = some id) (hfind : f.find = none) (hrow : w.rows id = some doc)
    (hbk : (h.backupObject env f.backup trashID doc.ObjectKey w).2.2.2.2 = some e)
    (hne : isNoSuchKey e = false) :
    (h.Delete env f trashID rawID w).resp = some (internal "Falha ao preparar backup") ∧
    (h.Delete env f trashID rawID w).aborted = false ∧
    (h.Delete env f trashID rawID w).world.blobs = w.blobs ∧
    (h.Delete env f trashID rawID w).world.rows = w.rows := by
  have hcall : ∀ (w2 : World), w2.blobs = w.blobs →
      (h.backupObject env f.backup trashID doc.ObjectKey w2).2.2.2.2 = some e := by
    intro w2 hb
    rw [backupObject_congr h env f.backup trashID doc.ObjectKey w2 w hb]
    exact hbk
  unfold DocumentHandler.Delete
  simp only [hid]
  unfold DocumentHandler.deleteLocked FindDocumentByIDUseCase.Execute World.FindByID
  simp only [hfind, World.call, hrow]
  generalize hw2 : (World.Exists _ f.exists_ doc.ObjectKey) = r2
  obtain ⟨w2, ex, exErr⟩ := r2
  have hw2b : w2.blobs = w.blobs ∧ w2.rows = w.rows := by
    have := congrArg Prod.fst hw2
    simp only [World.Exists, World.call] at this
    cases hf : f.exists_ <;> simp only [hf] at this <;> subst this <;> exact ⟨rfl, rfl⟩
  have h3 := hcall w2 hw2b.1
  have h4 := backupObject_error_frame h env f.backup trashID doc.ObjectKey w2 e h3
  generalize hr3 : h.backupObject env f.backup trashID doc.ObjectKey w2 = r3 at h3 h4
  obtain ⟨w3, tk, restore, cleanup, bkErr⟩ := r3
  simp only at h3 h4
  subst h3
  simp only [hne, Bool.not_false, if_true, deferUnlock, World.call]
  exact ⟨trivial, trivial, h4.1.trans hw2b.1, h4.2.trans hw2b.2⟩

/-- C23 on an example: the `Exists` call of `backupObject` times out. -/
theorem Delete_backup_failure_touches_nothing_witness :
    isNoSuchKey (.wrap "exists: " (.msg "context deadline exceeded")) = false ∧
    (NewDocumentHandler.Delete env
      { noDeleteFaults with
        backup := { noBackupFaults with exists_ := some (.msg "context deadline exceeded") } }
      trashT1 docD1 worldD1).resp = some (internal "Falha ao preparar backup") ∧
    (NewDocumentHandler.Delete env
      { noDeleteFaults with
        backup := { noBackupFaults with exists_ := some (.msg "context deadline exceeded") } }
      trashT1 docD1 worldD1).aborted = false ∧
    (NewDocumentHandler.Delete env
      { noDeleteFaults with
        backup := { noBackupFaults with exists_ := some (.msg "context deadline exceeded") } }
      trashT1 docD1 worldD1).world.blobs = worldD1.blobs ∧
    (NewDocumentHandler.Delete env
      { noDeleteFaults with
        backup := { noBackupFaults with exists_ := some (.msg "context deadline exceeded") } }
      trashT1 docD1 worldD1).world.rows = worldD1.rows :=
  ⟨by decide,
    Delete_backup_failure_touches_nothing NewDocumentHandler env
      { noDeleteFaults with
        backup := { noBackupFaults with exists_ := some (.msg "context deadline exceeded") } }
      trashT1 docD1 docD1 worldD1 rowD1 (.wrap "exists: " (.msg "context deadline exceeded"))
      (by decide) rfl (by decide) (by decide) (by decide)⟩

end Handlers

/-! ## Blobs a call leaves alone -/

namespace Handlers

open Go Entities DocumentsUC Fixture

theorem FindByID_blobs (w : World) (fault : Option Err) (id : String) :
    (w.FindByID fault id).1.blobs = w.blobs := by
  unfold World.FindByID World.call
  cases fault with
  | some e => rfl
  | none => simp only; split <;> rfl

theorem Exists_blobs (w : World) (fault : Option Err) (key : String) :
    (w.Exists fault key).1.blobs = w.blobs := by
  unfold World.Exists World.call
  cases fault <;> rfl

theorem Update_blobs (w : World) (fault : Option Err) (doc : Document) :
    (w.Update fault doc).1.blobs = w.blobs := by
  unfold World.Update World.call
  cases fault with
  | some e => rfl
  | none => simp only; split <;> rfl

theorem DeleteRow_blobs (w : World) (fault : Option Err) (id : String) :
    (w.DeleteRow fault id).1.blobs = w.blobs := by
  unfold World.DeleteRow World.call
  cases fault with
  | some e => rfl
  | none => simp only; split <;> rfl

theorem Delete_blobs_ne (w : World) (fault : Option Err) (key k : String) (hk : k ≠ key) :
    (w.Delete fault key).1.blobs k = w.blobs k := by
  unfold World.Delete World.call
  cases fault with
  | some e => rfl
  | none => simp [Function.update, hk]

theorem Save_blobs_ne (w : World) (url : String → String) (fault : Option Err) (key : String)
    (data : Bytes) (k : String) (hk : k ≠ key) :
    (w.Save url fault key data).1.blobs k = w.blobs k := by
  unfold World.Save World.call
  cases fault with
  | some e => rfl
  | none => simp [Function.update, hk]

theorem UpdateExecute_blobs (p : String → Option String) (findFault updateFault : Option Err)
    (now : Instant) (id : String) (dto : UpdateDocumentDTO) (w : World) :
    (UpdateDocumentUseCase.Execute p findFault updateFault now id dto w).1.blobs = w.blobs := by
  unfold UpdateDocumentUseCase.Execute
  have h1 := FindByID_blobs w findFault id
  generalize w.FindByID findFault id = r1 at h1 ⊢
  obtain ⟨w1, res⟩ := r1
  cases res with
  | error e => exact h1
  | ok doc =>
    simp only
    cases ApplyUpdateToDocument p now doc dto with
    | error e => exact h1
    | ok doc1 =>
      simp only
      have h2 := Update_blobs w1 updateFault { doc1 with UploadedAt := now }
      generalize w1.Update updateFault { doc1 with UploadedAt := now } = r2 at h2 ⊢
      obtain ⟨w2, err⟩ := r2
      cases err <;> exact h2.trans h1

/-- What `backupObject` hands back: the trash copy was written and `cleanup` deletes it, or
`restore` and `cleanup` are nil or no-ops and no blob was touched. -/
theorem backupObject_outcomes (h : DocumentHandler) (env : Env) (bf : BackupFaults)
    (id key : String) (w : World) :
    ((h.backupObject env bf id key w).2.2.2.1 = .delete (trashKeyFor h id key) ∧
      (h.backupObject env bf id key w).2.2.2.2 = none) ∨
    (((h.backupObject env bf id key w).2.2.1 = .nil ∨
        (h.backupObject env bf id key w).2.2.1 = .noop) ∧
      ((h.backupObject env bf id key w).2.2.2.1 = .nil ∨
        (h.backupObject env bf id key w).2.2.2.1 = .noop) ∧
      (h.backupObject env bf id key w).1.blobs = w.blobs) := by
  obtain ⟨ex, op, cp, sv⟩ := bf
  unfold DocumentHandler.backupObject World.Exists World.Open World.Save World.call
  cases ex <;> cases op <;> cases cp <;> cases sv <;> cases hk : w.blobs key <;>
    simp [hk] <;> split <;> simp

/-- With nil or no-op `restore` and `cleanup`, the body of `Delete` touches no blob but the
one of the document. -/
theorem deleteBody_blobs (env : Env) (f : DeleteFaults) (id : String) (doc : Document)
    (exists_ : Bool) (restore : Restore) (cleanup : Cleanup) (w : World) (k : String)
    (hr : restore = .nil ∨ restore = .noop) (hc : cleanup = .nil ∨ cleanup = .noop)
    (hk : k ≠ doc.ObjectKey) :
    (DocumentHandler.deleteBody env f id doc exists_ restore cleanup w).world.blobs k =
      w.blobs k := by
  unfold DocumentHandler.deleteBody
  have hrem : (if exists_ = true then
        match w.Delete f.delete doc.ObjectKey with
        | (w1, some err) => (w1, !isNoSuchKey err)
        | (w1, none) => (w1, false)
      else (w, false)).1.blobs k = w.blobs k := by
    cases exists_ with
    | false => rfl
    | true =>
      simp only [if_true]
      have := Delete_blobs_ne w f.delete doc.ObjectKey k hk
      generalize w.Delete f.delete doc.ObjectKey = r at this ⊢
      obtain ⟨w1, err⟩ := r
      cases err <;> exact this
  generalize (if exists_ = true then
        match w.Delete f.delete doc.ObjectKey with
        | (w1, some err) => (w1, !isNoSuchKey err)
        | (w1, none) => (w1, false)
      else (w, false)) = removed at hrem ⊢
  obtain ⟨w1, stop⟩ := removed
  cases stop with
  | true => exact hrem
  | false =>
    simp only [Bool.false_eq_true, if_false]
    have hrow : (DeleteDocumentUseCase.Execute f.deleteRow id w1).1.blobs = w1.blobs :=
      DeleteRow_blobs w1 f.deleteRow id
    generalize DeleteDocumentUseCase.Execute f.deleteRow id w1 = r at hrow ⊢
    obtain ⟨w2, err⟩ := r
    have h2 : w2.blobs k = w.blobs k := by rw [← hrem]; exact congrFun hrow k
    cases err with
    | some e =>
      simp only
      cases exists_ with
      | false => exact h2
      | true =>
        simp only [if_true]
        rcases hr with hr | hr <;> subst hr <;> simp only [Restore.run] <;> exact h2
    | none =>
      simp only
      rcases hc with hc | hc <;> subst hc <;> simp only [Cleanup.run] <;> exact h2

/-- With nil or no-op `restoreOld` and `cleanupOld`, the body of `ReplaceFile` touches no blob
but the old and the new one of the document. -/
theorem replaceBody_blobs (env : Env) (f : ReplaceFaults) (now : Instant)
    (doc : Document) (header : FileHeader) (ext newKey newURL : String)
    (restoreOld : Restore) (cleanupOld : Cleanup) (w : World) (k : String)
    (hr : restoreOld = .nil ∨ restoreOld = .noop) (hc : cleanupOld = .nil ∨ cleanupOld = .noop)
    (hk : k ≠ doc.ObjectKey) (hn : k ≠ newKey) :
    (DocumentHandler.replaceBody env f now doc header ext newKey newURL restoreOld
      cleanupOld w).world.blobs k = w.blobs k := by
  unfold DocumentHandler.replaceBody
  simp only
  have h1 := UpdateExecute_blobs env.ParseRequestURI f.ucFind f.update now doc.ID
    { Name := sanitizeFilename header.Filename, FileURL := newURL,
      Extension := TrimPrefix ext ".", ObjectKey := newKey } w
  generalize UpdateDocumentUseCase.Execute env.ParseRequestURI f.ucFind f.update now doc.ID
    { Name := sanitizeFilename header.Filename, FileURL := newURL,
      Extension := TrimPrefix ext ".", ObjectKey := newKey } w = r1 at h1 ⊢
  obtain ⟨w1, res⟩ := r1
  cases res with
  | error updErr =>
    simp only
    have h2 : (w1.Delete f.rollback newKey).1.blobs k = w.blobs k := by
      rw [Delete_blobs_ne w1 f.rollback newKey k hn]; exact congrFun h1 k
    rcases hr with hr | hr <;> subst hr <;> simp only [Restore.run]
    · exact h2
    · split <;> exact h2
  | ok updated =>
    simp only
    have h2 : (w1.Delete f.deleteOld doc.ObjectKey).1.blobs k = w.blobs k := by
      rw [Delete_blobs_ne w1 f.deleteOld doc.ObjectKey k hk]; exact congrFun h1 k
    rcases hc with hc | hc <;> subst hc <;> simp only [Cleanup.run] <;> exact h2

/-- A `cleanup` that deletes the trash key, deferred and succeeding, leaves no blob there. -/
theorem deferCleanup_delete_blobs (tk : String) (out : Outcome) :
    (deferCleanup (.delete tk) none out).world.blobs tk = none := by
  simp [deferCleanup, Cleanup.run, World.Delete, World.call]

/-- A nil or no-op deferred `cleanup` touches no blob. -/
theorem deferCleanup_blobs (c : Cleanup) (fault : Option Err) (out : Outcome)
    (hc : c = .nil ∨ c = .noop) : (deferCleanup c fault out).world.blobs = out.world.blobs := by
  rcases hc with hc | hc <;> subst hc <;> rfl

end Handlers

namespace Handlers

open Go Entities DocumentsUC Fixture

theorem deleteLocked_trash (h : DocumentHandler) (env : Env) (f : DeleteFaults)
    (trashID id : String) (w : World) (doc : Document)
    (hrow : w.rows id = some doc)
    (hfresh : w.blobs (trashKeyFor h trashID doc.ObjectKey) = none)
    (hd : f.deferredCleanup = none) :
    (h.deleteLocked env f trashID id w).world.blobs (trashKeyFor h trashID doc.ObjectKey) =
      none := by
  unfold DocumentHandler.deleteLocked FindDocumentByIDUseCase.Execute World.FindByID
  cases hf : f.find with
  | some e => exact hfresh
  | none =>
    simp only [World.call, hrow]
    have h2 := Exists_blobs ⟨w.blobs, w.rows, w.log ++ [.FindByID id]⟩ f.exists_ doc.ObjectKey
    generalize World.Exists ⟨w.blobs, w.rows, w.log ++ [.FindByID id]⟩ f.exists_
      doc.ObjectKey = r2 at h2 ⊢
    obtain ⟨w2, ex, exErr⟩ := r2
    simp only at h2 ⊢
    have h3 := backupObject_outcomes h env f.backup trashID doc.ObjectKey w2
    generalize h.backupObject env f.backup trashID doc.ObjectKey w2 = r3 at h3 ⊢
    obtain ⟨w3, tk, restore, cleanup, bkErr⟩ := r3
    simp only at h3 ⊢
    rcases h3 with ⟨hc, he⟩ | ⟨hr, hc, hb⟩
    · subst hc he
      simp only [Bool.false_eq_true, if_false, hd]
      exact deferCleanup_delete_blobs _ _
    · have hw3 : w3.blobs (trashKeyFor h trashID doc.ObjectKey) = none := by
        rw [hb, h2]; exact hfresh
      split
      · exact hw3
      · rw [deferCleanup_blobs _ _ _ hc,
          deleteBody_blobs env f id doc ex restore cleanup w3 _ hr hc
            (trashKeyFor_ne h trashID doc.ObjectKey)]
        exact hw3

theorem replaceLocked_trash (h : DocumentHandler) (env : Env) (f : ReplaceFaults)
    (now : Instant) (trashID id : String) (file : Option UploadedFile) (w : World)
    (doc : Document) (hrow : w.rows id = some doc)
    (hfresh : w.blobs (trashKeyFor h trashID doc.ObjectKey) = none)
    (hd : f.deferredCleanup = none)
    (hkey : ∀ fl, file = some fl →
      buildObjectKey now doc.OwnerType doc.OwnerID fl.header.Filename ≠
        trashKeyFor h trashID doc.ObjectKey) :
    (h.replaceLocked env f now trashID id file w).world.blobs
      (trashKeyFor h trashID doc.ObjectKey) = none := by
  unfold DocumentHandler.replaceLocked FindDocumentByIDUseCase.Execute World.FindByID
  cases hf : f.find with
  | some e => exact hfresh
  | none =>
    simp only [World.call, hrow]
    cases file with
    | none => exact hfresh
    | some file =>
      simp only
      have hne := Ne.symm (hkey file rfl)
      by_cases hs : file.header.Size ≤ 0
      · rw [if_pos hs]; exact hfresh
      rw [if_neg hs]
      cases hext : (!h.AllowedExts.isEmpty &&
          !h.AllowedExts.contains (ToLower (Ext file.header.Filename))) with
      | true => simp only [if_true]; exact hfresh
      | false =>
      simp only [Bool.false_eq_true, if_false]
      cases hsn : sniffAndReset env f.read file with
      | error e => exact hfresh
      | ok r =>
      obtain ⟨ct, rdr⟩ := r
      simp only
      cases hty : (!h.AllowedTypes.isEmpty && !h.AllowedTypes.contains ct) with
      | true => simp only [if_true]; exact hfresh
      | false =>
      simp only [Bool.false_eq_true, if_false]
      cases hmd : computeMD5AndSize env f.md5copy rdr with
      | error e => exact hfresh
      | ok r =>
      obtain ⟨sum, size, rdr2⟩ := r
      simp only
      have h2 := Save_blobs_ne ⟨w.blobs, w.rows, w.log ++ [.FindByID id]⟩ env.URL f.save
        (buildObjectKey now doc.OwnerType doc.OwnerID file.header.Filename) rdr2
        (trashKeyFor h trashID doc.ObjectKey) hne
      generalize World.Save ⟨w.blobs, w.rows, w.log ++ [.FindByID id]⟩ env.URL f.save
        (buildObjectKey now doc.OwnerType doc.OwnerID file.header.Filename) rdr2 = r2 at h2 ⊢
      obtain ⟨w2, res2⟩ := r2
      simp only at h2
      cases res2 with
      | error e => simp only; rw [h2]; exact hfresh
      | ok newURL =>
        simp only
        have h3 := backupObject_outcomes h env f.backup trashID doc.ObjectKey w2
        generalize h.backupObject env f.backup trashID doc.ObjectKey w2 = r3 at h3 ⊢
        obtain ⟨w3, tk, restoreOld, cleanupOld, bkErr⟩ := r3
        simp only at h3 ⊢
        rcases h3 with ⟨hc, he⟩ | ⟨hr, hc, hb⟩
        · subst hc he
          simp only [Bool.false_eq_true, if_false, hd]
          exact deferCleanup_delete_blobs _ _
        · have hw3 : w3.blobs (trashKeyFor h trashID doc.ObjectKey) = none := by
            rw [hb, h2]; exact hfresh
          split
          · rw [Delete_blobs_ne w3 f.undoSave _ _ hne]; exact hw3
          · rw [deferCleanup_blobs _ _ _ hc,
              replaceBody_blobs env f now doc file.header _ _ newURL restoreOld cleanupOld w3 _
                hr hc (trashKeyFor_ne h trashID doc.ObjectKey) hne]
            exact hw3

/-- C24: when `Delete` or `ReplaceFile` returns, the trash key of the call (built from the
fresh `uuid.NewString()` and the key of the document, and holding nothing before the call)
holds no blob, whatever else failed, provided the deferred `Delete` of the trash key
succeeds: on success and on every failure path after `backupObject` wrote the copy, the
deferred `cleanup` removes it, and on the other paths no copy is written. In `ReplaceFile`
the key of the new file is not the trash key. -/
theorem trash_copy_removed (h : DocumentHandler) (env : Env) (fd : DeleteFaults)
    (fr : ReplaceFaults) (now : Instant) (trashID rawID id : String)
    (file : Option UploadedFile) (w : World) (doc : Document)
    (hid : env.Parse rawID = some id) (hrow : w.rows id = some doc)
    (hfresh : w.blobs (trashKeyFor h trashID doc.ObjectKey) = none)
    (hdd : fd.deferredCleanup = none) (hdr : fr.deferredCleanup = none)
    (hkey : ∀ fl, file = some fl →
      buildObjectKey now doc.OwnerType doc.OwnerID fl.header.Filename ≠
        trashKeyFor h trashID doc.ObjectKey) :
    (h.Delete env fd trashID rawID w).world.blobs (trashKeyFor h trashID doc.ObjectKey) =
      none ∧
    (h.ReplaceFile env fr now trashID rawID file w).world.blobs
      (trashKeyFor h trashID doc.ObjectKey) = none := by
  constructor
  · unfold DocumentHandler.Delete
    simp only [hid]
    exact deleteLocked_trash h env fd trashID id (w.call (.Lock (docLockKey id))) doc hrow
      hfresh hdd
  · unfold DocumentHandler.ReplaceFile
    simp only [hid]
    exact replaceLocked_trash h env fr now trashID id file (w.call (.Lock (docLockKey id))) doc
      hrow hfresh hdr hkey

/-- C24 on an example: a `Delete` whose row removal fails and a `ReplaceFile` that succeeds;
both write the trash copy of `id.pdf` and both leave nothing under the trash key. -/
theorem trash_copy_removed_witness :
    (worldD1.rows docD1 = some rowD1 ∧
      worldD1.blobs (trashKeyFor NewDocumentHandler trashT1 rowD1.ObjectKey) = none) ∧
    Call.Save (trashKeyFor NewDocumentHandler trashT1 rowD1.ObjectKey) ∈
      (NewDocumentHandler.Delete env { noDeleteFaults with deleteRow := some (.msg "db down") }
        trashT1 docD1 worldD1).world.log ∧
    Call.Save (trashKeyFor NewDocumentHandler trashT1 rowD1.ObjectKey) ∈
      (NewDocumentHandler.ReplaceFile env noReplaceFaults ⟨2025, 3, 14, 9, 30, 0⟩ trashT1 docD1
        (some (idPdf pdfBytes2)) worldD1).world.log ∧
    (NewDocumentHandler.Delete env { noDeleteFaults with deleteRow := some (.msg "db down") }
      trashT1 docD1 worldD1).world.blobs
      (trashKeyFor NewDocumentHandler trashT1 rowD1.ObjectKey) = none ∧
    (NewDocumentHandler.ReplaceFile env noReplaceFaults ⟨2025, 3, 14, 9, 30, 0⟩ trashT1 docD1
      (some (idPdf pdfBytes2)) worldD1).world.blobs
      (trashKeyFor NewDocumentHandler trashT1 rowD1.ObjectKey) = none :=
  ⟨by decide, by decide, by decide,
    trash_copy_removed NewDocumentHandler env
      { noDeleteFaults with deleteRow := some (.msg "db down") } noReplaceFaults
      ⟨2025, 3, 14, 9, 30, 0⟩ trashT1 docD1 docD1 (some (idPdf pdfBytes2)) worldD1 rowD1
      (by decide) (by decide) (by decide) rfl rfl
      (by intro fl hfl; cases hfl; decide)⟩

end Handlers

/-! ## Removal of a blob that is already gone -/

namespace Handlers

open Go Entities DocumentsUC Fixture

/-- A `backupObject` that returns no error hands back non-nil functions and leaves the rows
alone. -/
theorem backupObject_ok (h : DocumentHandler) (env : Env) (bf : BackupFaults)
    (id key : String) (w : World)
    (herr : (h.backupObject env bf id key w).2.2.2.2 = none) :
    (((h.backupObject env bf id key w).2.2.1 = .noop ∧
        (h.backupObject env bf id key w).2.2.2.1 = .noop) ∨
      ∃ buf, (h.backupObject env bf id key w).2.2.1 = .save key buf ∧
        (h.backupObject env bf id key w).2.2.2.1 = .delete (trashKeyFor h id key)) ∧
    (h.backupObject env bf id key w).1.rows = w.rows := by
  obtain ⟨ex, op, cp, sv⟩ := bf
  revert herr
  unfold DocumentHandler.backupObject World.Exists World.Open World.Save World.call
  cases ex <;> cases op <;> cases cp <;> cases sv <;> cases hk : w.blobs key <;>
    simp [hk] <;> split <;> simp

/-- Off the path on which `backupObject` fails: in `Delete`, when the row is found, the blob
existed (the first `Exists` answers
`true`), `backupObject` returns no error, and `Storage.Delete` on the primary key fails with
an error that `isNoSuchKey` classifies as a missing object, the handler goes on to remove the
row; if that removal succeeds it answers `204`, without a panic, and the row is gone. -/
theorem Delete_primary_missing_is_success (h : DocumentHandler) (env : Env) (f : DeleteFaults)
    (trashID rawID id : String) (w : World) (doc : Document) (content : Bytes) (e : Err)
    (hid : env.Parse rawID = some id) (hfind : f.find = none) (hrow : w.rows id = some doc)
    (hex : f.exists_ = none) (hblob : w.blobs doc.ObjectKey = some content)
    (hbk : (h.backupObject env f.backup trashID doc.ObjectKey w).2.2.2.2 = none)
    (hdel : f.delete = some e) (hmissing : isNoSuchKey e = true) :
    Call.DeleteRow id ∈ (h.Delete env f trashID rawID w).world.log ∧
    (f.deleteRow = none →
      (h.Delete env f trashID rawID w).resp = some (.Status 204) ∧
      (h.Delete env f trashID rawID w).aborted = false ∧
      (h.Delete env f trashID rawID w).world.rows id = none) := by
  obtain ⟨find, exists_, backup, delete, deleteRow, restore, cleanup, deferredCleanup⟩ := f
  simp only at hfind hex hbk hdel
  subst hfind hex hdel
  unfold DocumentHandler.Delete
  simp only [hid]
  unfold DocumentHandler.deleteLocked FindDocumentByIDUseCase.Execute World.FindByID World.Exists
  simp only [World.call, hrow, hblob, Option.isSome_some]
  have hcongr := backupObject_congr h env backup trashID doc.ObjectKey
    ⟨w.blobs, w.rows, w.log ++ [.Lock (docLockKey id)] ++ [.FindByID id] ++
      [.Exists doc.ObjectKey]⟩ w rfl
  have hb3 : (h.backupObject env backup trashID doc.ObjectKey
      ⟨w.blobs, w.rows, w.log ++ [.Lock (docLockKey id)] ++ [.FindByID id] ++
        [.Exists doc.ObjectKey]⟩).2.2.2.2 = none := by
    rw [hcongr]; exact hbk
  have h3 := backupObject_ok h env backup trashID doc.ObjectKey _ hb3
  generalize h.backupObject env backup trashID doc.ObjectKey
      ⟨w.blobs, w.rows, w.log ++ [.Lock (docLockKey id)] ++ [.FindByID id] ++
        [.Exists doc.ObjectKey]⟩ = r3 at hb3 h3 ⊢
  obtain ⟨w3, tk, restoreF, cleanupF, bkErr⟩ := r3
  simp only at hb3 h3
  subst hb3
  obtain ⟨hfun, hrows⟩ := h3
  have hrow3 : w3.rows id = some doc := by rw [hrows]; exact hrow
  simp only [Bool.false_eq_true, if_false]
  unfold DocumentHandler.deleteBody DeleteDocumentUseCase.Execute World.DeleteRow World.Delete
  simp only [hmissing, if_true, World.call, Bool.not_true, Bool.false_eq_true, if_false]
  cases deleteRow with
  | some e2 =>
    refine ⟨?_, fun hc => by cases hc⟩
    rcases hfun with ⟨hr, hc⟩ | ⟨buf, hr, hc⟩ <;> subst hr hc <;>
      cases restore <;> cases deferredCleanup <;>
      simp [Restore.run, World.Save, World.call, deferCleanup, Cleanup.run, deferUnlock,
        World.Delete]
  | none =>
    simp only [hrow3]
    rcases hfun with ⟨hr, hc⟩ | ⟨buf, hr, hc⟩ <;> subst hr hc <;>
      cases cleanup <;> cases deferredCleanup <;>
      simp [Cleanup.run, World.Delete, World.call, deferCleanup, deferUnlock]

/-- The run in which only the primary `Delete` reports `NoSuchKey`. -/
theorem Delete_primary_missing_is_success_witness :
    isNoSuchKey (.msg "api error NoSuchKey: The specified key does not exist.") = true ∧
    Call.DeleteRow docD1 ∈
      (NewDocumentHandler.Delete env
        { noDeleteFaults with
          delete := some (.msg "api error NoSuchKey: The specified key does not exist.") }
        trashT1 docD1 worldD1).world.log ∧
    ((none : Option Err) = none →
      (NewDocumentHandler.Delete env
        { noDeleteFaults with
          delete := some (.msg "api error NoSuchKey: The specified key does not exist.") }
        trashT1 docD1 worldD1).resp = some (.Status 204) ∧
      (NewDocumentHandler.Delete env
        { noDeleteFaults with
          delete := some (.msg "api error NoSuchKey: The specified key does not exist.") }
        trashT1 docD1 worldD1).aborted = false ∧
      (NewDocumentHandler.Delete env
        { noDeleteFaults with
          delete := some (.msg "api error NoSuchKey: The specified key does not exist.") }
        trashT1 docD1 worldD1).world.rows docD1 = none) :=
  ⟨by decide,
    Delete_primary_missing_is_success NewDocumentHandler env
      { noDeleteFaults with
        delete := some (.msg "api error NoSuchKey: The specified key does not exist.") }
      trashT1 docD1 docD1 worldD1 rowD1 pdfBytes
      (.msg "api error NoSuchKey: The specified key does not exist.")
      (by decide) rfl (by decide) rfl (by decide) (by decide) rfl (by decide)⟩

end Handlers

/-! ## Lock scope of `Upload`, and the checks of `ReplaceFile` -/

namespace Handlers

open Go Entities DocumentsUC Fixture

/-- C27, the failing input: two uploads for the same owner, of `a b.pdf` and of `a_b.pdf`, in
the same second. `buildObjectKey` derives the same storage key for both, but the lock keys
differ, because `sanitizeFilename` maps the space to `_` while `utils.Normalize` keeps it.
Each handler run takes its own lock and saves the same key. -/
theorem Upload_same_key_different_locks :
    buildObjectKey t0 "employee" ownerE1 "a b.pdf" =
      buildObjectKey t0 "employee" ownerE1 "a_b.pdf" ∧
    uploadLockKey "employee" ownerE1 "a b.pdf" ≠ uploadLockKey "employee" ownerE1 "a_b.pdf" ∧
    (NewDocumentHandler.Upload env noUploadFaults t0 docD1 t0
      ⟨"employee", ownerE1, "BI", some ⟨⟨"a b.pdf", 8⟩, pdfBytes, true⟩, ⟨700, none⟩⟩ emptyWorld).world.log =
      [.Lock "doc:upload:employee:11111111-1111-4111-8111-111111111111:a b.pdf",
        .Save "employee/11111111-1111-4111-8111-111111111111/a_b_20250314T092653Z.pdf",
        .Create docD1,
        .Unlock "doc:upload:employee:11111111-1111-4111-8111-111111111111:a b.pdf"] ∧
    (NewDocumentHandler.Upload env noUploadFaults t0 trashT1 t0
      ⟨"employee", ownerE1, "BI", some ⟨⟨"a_b.pdf", 9⟩, pdfBytes2, true⟩, ⟨700, none⟩⟩ emptyWorld).world.log =
      [.Lock "doc:upload:employee:11111111-1111-4111-8111-111111111111:a_b.pdf",
        .Save "employee/11111111-1111-4111-8111-111111111111/a_b_20250314T092653Z.pdf",
        .Create trashT1,
        .Unlock "doc:upload:employee:11111111-1111-4111-8111-111111111111:a_b.pdf"] := by
  decide

/-- The route of `Upload` as `SetupRouter` mounts it: a PDF of 1.5 MiB, which is below
`MaxUploadSize`, lies in a body above the limit of 1 MiB that the router installs; the form
cannot be read, and the answer is `400` with no call on the stores. The handler alone saves
the file. -/
theorem Router_Upload_body_limit :
    (1572864 : Int) ≤ NewDocumentHandler.MaxUploadSize ∧
    Router.bodyLimit < 1573464 ∧
    (Router.Upload NewDocumentHandler env noUploadFaults t0 docD1 t0
      ⟨"employee", ownerE1, "BI", some ⟨⟨"id.pdf", 1572864⟩, pdfBytes, true⟩, ⟨1573464, none⟩⟩
      emptyWorld).resp = some (invalidFields []) ∧
    (Router.Upload NewDocumentHandler env noUploadFaults t0 docD1 t0
      ⟨"employee", ownerE1, "BI", some ⟨⟨"id.pdf", 1572864⟩, pdfBytes, true⟩, ⟨1573464, none⟩⟩
      emptyWorld).world.log = [] ∧
    Call.Save keyK1 ∈
      (NewDocumentHandler.Upload env noUploadFaults t0 docD1 t0
        ⟨"employee", ownerE1, "BI", some ⟨⟨"id.pdf", 1572864⟩, pdfBytes, true⟩,
          ⟨1573464, none⟩⟩ emptyWorld).world.log := by
  decide

/-- Go `ReplaceFile` reads the declared size of the file only to refuse a size of zero or
less: two files that differ in their positive declared size alone are handled alike. -/
theorem ReplaceFile_ignores_size (h : DocumentHandler) (env : Env) (f : ReplaceFaults)
    (now : Instant) (trashID rawID name : String) (s1 s2 : Int) (content : Bytes)
    (seeker : Bool) (w : World) (h1 : 0 < s1) (h2 : 0 < s2) :
    h.ReplaceFile env f now trashID rawID (some ⟨⟨name, s1⟩, content, seeker⟩) w =
      h.ReplaceFile env f now trashID rawID (some ⟨⟨name, s2⟩, content, seeker⟩) w := by
  unfold DocumentHandler.ReplaceFile DocumentHandler.replaceLocked DocumentHandler.replaceBody
    sniffAndReset
  simp only [not_le.mpr h1, not_le.mpr h2, if_false]

/-- C28 as stated fails for the handlers themselves: a PDF file `id.pdf` of 2 MiB + 1 byte,
in a body of 2 MiB + 601 bytes that the `MaxBytesReader` of `Upload` (2 MiB + 1024) lets
through, handed to the handlers directly. `Upload` refuses it with `413` before any call on
the stores; `ReplaceFile`, which has no size limit check, saves it under the new key, updates
the row and answers `200`. The same happens with a handler whose `MaxUploadSize` is 8 bytes
and a file of 9 bytes. -/
theorem ReplaceFile_accepts_oversize :
    NewDocumentHandler.MaxUploadSize = 2097152 ∧
    (NewDocumentHandler.Upload env noUploadFaults t0 docD1 t0
      ⟨"employee", ownerE1, "BI", some ⟨⟨"id.pdf", 2097153⟩, pdfBytes, true⟩, ⟨2097753, none⟩⟩
      emptyWorld).resp =
      some (.JSON 413
        ⟨"payload_too_large", "Insira um ficheiro com tamanho máximo de 2Mb", []⟩) ∧
    (NewDocumentHandler.Upload env noUploadFaults t0 docD1 t0
      ⟨"employee", ownerE1, "BI", some ⟨⟨"id.pdf", 2097153⟩, pdfBytes, true⟩, ⟨2097753, none⟩⟩
      emptyWorld).world.log = [] ∧
    (NewDocumentHandler.ReplaceFile env noReplaceFaults ⟨2025, 3, 14, 9, 30, 0⟩ trashT1 docD1
      (some ⟨⟨"id.pdf", 2097153⟩, pdfBytes, true⟩) worldD1).resp =
      some (.Document 200
        { rowD1 with
          FileURL := "s3://docs/employee/11111111-1111-4111-8111-111111111111/id_20250314T093000Z.pdf",
          UploadedAt := ⟨2025, 3, 14, 9, 30, 0⟩,
          ObjectKey := "employee/11111111-1111-4111-8111-111111111111/id_20250314T093000Z.pdf" }) ∧
    (NewDocumentHandler.ReplaceFile env noReplaceFaults ⟨2025, 3, 14, 9, 30, 0⟩ trashT1 docD1
      (some ⟨⟨"id.pdf", 2097153⟩, pdfBytes, true⟩) worldD1).world.log =
      [.Lock "doc:id:22222222-2222-4222-8222-222222222222", .FindByID docD1,
        .Save "employee/11111111-1111-4111-8111-111111111111/id_20250314T093000Z.pdf",
        .Exists keyK1, .Open keyK1,
        .Save "trash/33333333-3333-4333-8333-333333333333_id_20250314T092653Z.pdf",
        .FindByID docD1, .Update docD1, .Delete keyK1,
        .Delete "trash/33333333-3333-4333-8333-333333333333_id_20250314T092653Z.pdf",
        .Delete "trash/33333333-3333-4333-8333-333333333333_id_20250314T092653Z.pdf",
        .Unlock "doc:id:22222222-2222-4222-8222-222222222222"] ∧
    (DocumentHandler.Upload { NewDocumentHandler with MaxUploadSize := 8 } env noUploadFaults t0
      docD1 t0 ⟨"employee", ownerE1, "BI", some (idPdf pdfBytes2), ⟨700, none⟩⟩
      emptyWorld).resp =
      some (.JSON 413
        ⟨"payload_too_large", "Insira um ficheiro com tamanho máximo de 2Mb", []⟩) ∧
    Call.Save "employee/11111111-1111-4111-8111-111111111111/id_20250314T093000Z.pdf" ∈
      (DocumentHandler.ReplaceFile { NewDocumentHandler with MaxUploadSize := 8 } env
        noReplaceFaults ⟨2025, 3, 14, 9, 30, 0⟩ trashT1 docD1 (some (idPdf pdfBytes2))
        worldD1).world.log := by
  decide

/-- A `ReplaceFile` whose `file` part is missing, has a size of zero or less, an extension
that is not allow-listed or a sniffed content type that is not allow-listed, is answered with
an error payload before any call on the object store: no blob and no row changes, and the
handler has called nothing, or taken the lock, looked the row up and released the lock. -/
theorem replaceLocked_refused (h : DocumentHandler) (env : Env) (f : ReplaceFaults)
    (now : Instant) (trashID id : String) (file : Option UploadedFile) (w : World)
    (hbad : ∀ fl, file = some fl →
      fl.header.Size ≤ 0 ∨
      (!h.AllowedExts.isEmpty &&
        !h.AllowedExts.contains (ToLower (Ext fl.header.Filename))) = true ∨
      (!h.AllowedTypes.isEmpty &&
        !h.AllowedTypes.contains (env.DetectContentType (fl.content.take 512))) = true) :
    (∃ st p, (h.replaceLocked env f now trashID id file w).resp = some (.JSON st p)) ∧
    (h.replaceLocked env f now trashID id file w).aborted = false ∧
    (h.replaceLocked env f now trashID id file w).world.blobs = w.blobs ∧
    (h.replaceLocked env f now trashID id file w).world.rows = w.rows ∧
    (h.replaceLocked env f now trashID id file w).world.log = w.log ++ [.FindByID id] := by
  unfold DocumentHandler.replaceLocked FindDocumentByIDUseCase.Execute
  have h1 : (w.FindByID f.find id).1.blobs = w.blobs ∧ (w.FindByID f.find id).1.rows = w.rows ∧
      (w.FindByID f.find id).1.log = w.log ++ [.FindByID id] := by
    unfold World.FindByID World.call
    cases f.find with
    | some e => exact ⟨rfl, rfl, rfl⟩
    | none => simp only; split <;> exact ⟨rfl, rfl, rfl⟩
  generalize w.FindByID f.find id = r1 at h1 ⊢
  obtain ⟨w1, res⟩ := r1
  cases res with
  | error e =>
    refine ⟨?_, rfl, h1.1, h1.2.1, h1.2.2⟩
    simp only [findFailed]
    split
    · exact ⟨_, _, rfl⟩
    · exact ⟨_, _, rfl⟩
  | ok doc =>
    simp only
    cases file with
    | none => exact ⟨⟨_, _, rfl⟩, rfl, h1.1, h1.2.1, h1.2.2⟩
    | some file =>
      simp only
      have hb := hbad file rfl
      by_cases hs : file.header.Size ≤ 0
      · rw [if_pos hs]; exact ⟨⟨_, _, rfl⟩, rfl, h1.1, h1.2.1, h1.2.2⟩
      rw [if_neg hs]
      cases hext : (!h.AllowedExts.isEmpty &&
          !h.AllowedExts.contains (ToLower (Ext file.header.Filename))) with
      | true => simp only [if_true]; exact ⟨⟨_, _, rfl⟩, by trivial, h1.1, h1.2.1, h1.2.2⟩
      | false =>
      simp only [Bool.false_eq_true, if_false]
      cases hsn : sniffAndReset env f.read file with
      | error e => exact ⟨⟨_, _, rfl⟩, rfl, h1.1, h1.2.1, h1.2.2⟩
      | ok r =>
      obtain ⟨ct, rdr⟩ := r
      obtain ⟨hct, hrdr⟩ := sniffAndReset_ok hsn
      subst hct hrdr
      simp only
      cases hty : (!h.AllowedTypes.isEmpty &&
          !h.AllowedTypes.contains (env.DetectContentType (file.content.take 512))) with
      | true => simp only [if_true]; exact ⟨⟨_, _, rfl⟩, by trivial, h1.1, h1.2.1, h1.2.2⟩
      | false =>
        exfalso
        rcases hb with hb | hb | hb
        · exact hs hb
        · rw [hext] at hb; exact Bool.false_ne_true hb
        · rw [hty] at hb; exact Bool.false_ne_true hb

theorem ReplaceFile_refused (h : DocumentHandler) (env : Env) (f : ReplaceFaults)
    (now : Instant) (trashID rawID : String) (file : Option UploadedFile) (w : World)
    (hbad : ∀ fl, file = some fl →
      fl.header.Size ≤ 0 ∨
      (!h.AllowedExts.isEmpty &&
        !h.AllowedExts.contains (ToLower (Ext fl.header.Filename))) = true ∨
      (!h.AllowedTypes.isEmpty &&
        !h.AllowedTypes.contains (env.DetectContentType (fl.content.take 512))) = true) :
    (∃ st p, (h.ReplaceFile env f now trashID rawID file w).resp = some (.JSON st p)) ∧
    (h.ReplaceFile env f now trashID rawID file w).aborted = false ∧
    (h.ReplaceFile env f now trashID rawID file w).world.blobs = w.blobs ∧
    (h.ReplaceFile env f now trashID rawID file w).world.rows = w.rows ∧
    ∀ c ∈ (h.ReplaceFile env f now trashID rawID file w).world.log,
      c ∈ w.log ∨ ∃ id, c = .Lock (docLockKey id) ∨ c = .FindByID id ∨
        c = .Unlock (docLockKey id) := by
  unfold DocumentHandler.ReplaceFile
  cases hp : env.Parse rawID with
  | none => exact ⟨⟨_, _, rfl⟩, rfl, rfl, rfl, fun c hc => Or.inl hc⟩
  | some id =>
    simp only
    obtain ⟨g1, g2, g3, g4, g5⟩ := replaceLocked_refused h env f now trashID id file
      (w.call (.Lock (docLockKey id))) hbad
    refine ⟨g1, g2, g3, g4, ?_⟩
    intro c hc
    have hlog : (deferUnlock (docLockKey id)
        (h.replaceLocked env f now trashID id file (w.call (.Lock (docLockKey id))))).world.log =
        w.log ++ [.Lock (docLockKey id)] ++ [.FindByID id] ++ [.Unlock (docLockKey id)] := by
      show (h.replaceLocked env f now trashID id file
        (w.call (.Lock (docLockKey id)))).world.log ++ [.Unlock (docLockKey id)] = _
      rw [g5]; rfl
    rw [hlog] at hc
    simp only [List.mem_append, List.mem_singleton] at hc
    rcases hc with ((hc | hc) | hc) | hc
    · exact Or.inl hc
    · exact Or.inr ⟨id, Or.inl hc⟩
    · exact Or.inr ⟨id, Or.inr (Or.inl hc)⟩
    · exact Or.inr ⟨id, Or.inr (Or.inr hc)⟩

/-- C28, amended. Take a file that the checks of `Upload` refuse: its size is zero or less,
or above `MaxUploadSize`, or its extension or its sniffed content type is not allow-listed.
The file lies in the body of the request, and the body limit of the router is not above
`MaxUploadSize` (1 MiB and 2 MiB in the program). Then the route of `ReplaceFile`
(`BodySizeLimit`, then the handler) answers with an error payload, does not panic, changes no
blob and no row, and calls nothing but the lock and the lookup of the row: `Save` is not
invoked. The handler alone gives the same for the three grounds it checks itself, size of
zero or less, extension and content type; it has no check against `MaxUploadSize`. -/
theorem ReplaceFile_refuses_like_Upload (h : DocumentHandler) (env : Env) (f : ReplaceFaults)
    (now : Instant) (trashID rawID : String) (body : Body) (file : UploadedFile) (w : World)
    (hrefuse : file.header.Size ≤ 0 ∨
      (h.MaxUploadSize > 0 ∧ file.header.Size > h.MaxUploadSize) ∨
      (!h.AllowedExts.isEmpty &&
        !h.AllowedExts.contains (ToLower (Ext file.header.Filename))) = true ∨
      (!h.AllowedTypes.isEmpty &&
        !h.AllowedTypes.contains (env.DetectContentType (file.content.take 512))) = true)
    (hinside : file.header.Size ≤ body.size)
    (hlimit : Router.bodyLimit ≤ h.MaxUploadSize) :
    ((∃ st p, (Router.ReplaceFile h env f now trashID rawID body (some file) w).resp =
        some (.JSON st p)) ∧
      (Router.ReplaceFile h env f now trashID rawID body (some file) w).aborted = false ∧
      (Router.ReplaceFile h env f now trashID rawID body (some file) w).world.blobs = w.blobs ∧
      (Router.ReplaceFile h env f now trashID rawID body (some file) w).world.rows = w.rows ∧
      ∀ c ∈ (Router.ReplaceFile h env f now trashID rawID body (some file) w).world.log,
        c ∈ w.log ∨ ∃ id, c = .Lock (docLockKey id) ∨ c = .FindByID id ∨
          c = .Unlock (docLockKey id)) ∧
    ((file.header.Size ≤ 0 ∨
        (!h.AllowedExts.isEmpty &&
          !h.AllowedExts.contains (ToLower (Ext file.header.Filename))) = true ∨
        (!h.AllowedTypes.isEmpty &&
          !h.AllowedTypes.contains (env.DetectContentType (file.content.take 512))) = true) →
      (∃ st p, (h.ReplaceFile env f now trashID rawID (some file) w).resp =
        some (.JSON st p)) ∧
      (h.ReplaceFile env f now trashID rawID (some file) w).aborted = false ∧
      (h.ReplaceFile env f now trashID rawID (some file) w).world.blobs = w.blobs ∧
      (h.ReplaceFile env f now trashID rawID (some file) w).world.rows = w.rows ∧
      ∀ c ∈ (h.ReplaceFile env f now trashID rawID (some file) w).world.log,
        c ∈ w.log ∨ ∃ id, c = .Lock (docLockKey id) ∨ c = .FindByID id ∨
          c = .Unlock (docLockKey id)) := by
  constructor
  · unfold Router.ReplaceFile
    apply ReplaceFile_refused
    intro fl hfl
    split at hfl
    · rename_i hrd
      obtain rfl : file = fl := Option.some.inj hfl
      rcases hrefuse with hb | ⟨-, hb⟩ | hb | hb
      · exact Or.inl hb
      · exfalso
        have hle : body.size ≤ Router.bodyLimit := by
          revert hrd
          unfold Middleware.BodySizeLimit Body.MaxBytesReader Body.readable
          cases body.limit with
          | none => simp
          | some l =>
            simp only [decide_eq_true_eq]
            intro hrd
            exact le_trans hrd (min_le_right _ _)
        omega
      · exact Or.inr (Or.inl hb)
      · exact Or.inr (Or.inr hb)
    · cases hfl
  · intro hb
    exact ReplaceFile_refused h env f now trashID rawID (some file) w
      (fun fl hfl => by obtain rfl : file = fl := Option.some.inj hfl; exact hb)

/-- C28, amended, on an example: a file `id.exe` of 3 MiB sent to the route and to the
handler of `ReplaceFile`. -/
theorem ReplaceFile_refuses_like_Upload_witness :
    ((NewDocumentHandler.MaxUploadSize > 0 ∧
        (3145728 : Int) > NewDocumentHandler.MaxUploadSize) ∧
      Router.bodyLimit ≤ NewDocumentHandler.MaxUploadSize) ∧
    ((∃ st p, (Router.ReplaceFile NewDocumentHandler env noReplaceFaults t0 trashT1 docD1
        ⟨3146328, none⟩ (some ⟨⟨"id.exe", 3145728⟩, pdfBytes, true⟩) worldD1).resp =
        some (.JSON st p)) ∧
      (Router.ReplaceFile NewDocumentHandler env noReplaceFaults t0 trashT1 docD1
        ⟨3146328, none⟩ (some ⟨⟨"id.exe", 3145728⟩, pdfBytes, true⟩) worldD1).aborted = false ∧
      (Router.ReplaceFile NewDocumentHandler env noReplaceFaults t0 trashT1 docD1
        ⟨3146328, none⟩ (some ⟨⟨"id.exe", 3145728⟩, pdfBytes, true⟩) worldD1).world.blobs =
        worldD1.blobs ∧
      (Router.ReplaceFile NewDocumentHandler env noReplaceFaults t0 trashT1 docD1
        ⟨3146328, none⟩ (some ⟨⟨"id.exe", 3145728⟩, pdfBytes, true⟩) worldD1).world.rows =
        worldD1.rows ∧
      ∀ c ∈ (Router.ReplaceFile NewDocumentHandler env noReplaceFaults t0 trashT1 docD1
          ⟨3146328, none⟩ (some ⟨⟨"id.exe", 3145728⟩, pdfBytes, true⟩) worldD1).world.log,
        c ∈ worldD1.log ∨ ∃ id, c = .Lock (docLockKey id) ∨ c = .FindByID id ∨
          c = .Unlock (docLockKey id)) ∧
    (NewDocumentHandler.ReplaceFile env noReplaceFaults t0 trashT1 docD1
      (some ⟨⟨"id.exe", 3145728⟩, pdfBytes, true⟩) worldD1).world.blobs = worldD1.blobs :=
  ⟨by decide,
    (ReplaceFile_refuses_like_Upload NewDocumentHandler env noReplaceFaults t0 trashT1 docD1
      ⟨3146328, none⟩ ⟨⟨"id.exe", 3145728⟩, pdfBytes, true⟩ worldD1
      (Or.inr (Or.inl (by decide))) (by decide) (by decide)).1,
    ((ReplaceFile_refuses_like_Upload NewDocumentHandler env noReplaceFaults t0 trashT1 docD1
      ⟨3146328, none⟩ ⟨⟨"id.exe", 3145728⟩, pdfBytes, true⟩ worldD1
      (Or.inr (Or.inl (by decide))) (by decide) (by decide)).2
      (Or.inr (Or.inl (by decide)))).2.2.1⟩

end Handlers

/-! ## File names built by the handler -/

namespace Handlers

open Go Entities DocumentsUC Fixture

/-- The characters `sanitizeFilename` keeps are the ones of its `allowed` string. -/
theorem allowedRune_iff (c : Char) :
    allowedRune c = true ↔
      c ∈ "abcdefghijklmnopqrstuvwxyzABCDEFGHIJKLMNOPQRSTUVWXYZ0123456789-_.".data := by
  constructor
  · intro h
    have hc : c = Char.ofNat c.toNat := (Char.ofNat_toNat c).symm
    simp only [allowedRune, Char.isAlphanum, Char.isAlpha, Char.isUpper, Char.isLower,
      Char.isDigit, Bool.or_eq_true, Bool.and_eq_true, decide_eq_true_eq, beq_iff_eq] at h
    rcases h with (((((⟨h1, h2⟩ | ⟨h1, h2⟩) | ⟨h1, h2⟩) | h) | h) | h)
    · have a1 : 65 ≤ c.toNat := h1
      have a2 : c.toNat ≤ 90 := h2
      rw [hc]
      generalize c.toNat = n at a1 a2
      interval_cases n <;> decide
    · have a1 : 97 ≤ c.toNat := h1
      have a2 : c.toNat ≤ 122 := h2
      rw [hc]
      generalize c.toNat = n at a1 a2
      interval_cases n <;> decide
    · have a1 : 48 ≤ c.toNat := h1
      have a2 : c.toNat ≤ 57 := h2
      rw [hc]
      generalize c.toNat = n at a1 a2
      interval_cases n <;> decide
    · subst h; decide
    · subst h; decide
    · subst h; decide
  · revert c
    decide

end Handlers

namespace Go

theorem dropWhile_eq_self_of_head (p : Char → Bool) (l : List Char)
    (h : ∀ c, l.head? = some c → p c = false) : l.dropWhile p = l := by
  cases l with
  | nil => rfl
  | cons a t => simp [List.dropWhile, h a rfl]

/-- Go `strings.TrimSpace` returns a string that neither starts nor ends with white space
as it is. -/
theorem TrimSpace_eq_self (s : String)
    (h1 : ∀ c, s.data.head? = some c → isSpace c = false)
    (h2 : ∀ c, s.data.getLast? = some c → isSpace c = false) : TrimSpace s = s := by
  unfold TrimSpace
  rw [dropWhile_eq_self_of_head isSpace s.data h1,
    dropWhile_eq_self_of_head isSpace s.data.reverse (by simpa using h2), List.reverse_reverse]

theorem utf8ByteSize_go_eq_length : ∀ l : List Char, (∀ c ∈ l, c.utf8Size = 1) →
    String.utf8ByteSize.go l = l.length := by
  intro l
  induction l with
  | nil => intro _; rfl
  | cons a t ih =>
    intro h
    simp only [String.utf8ByteSize.go, List.length_cons]
    rw [ih (fun c hc => h c (List.mem_cons_of_mem a hc)), h a (List.mem_cons_self a t)]

end Go

namespace Handlers

open Go Entities DocumentsUC Fixture

theorem allowedRune_props (c : Char) (h : allowedRune c = true) :
    isSpace c = false ∧ c.utf8Size = 1 ∧ Vos.filenameChar c = true ∧ c ≠ '/' ∧
      c ≠ Char.ofNat 92 := by
  have hm := (allowedRune_iff c).mp h
  clear h
  revert c
  decide

theorem sanitizeFilename_allowed (x : String) :
    ∀ c ∈ (sanitizeFilename x).data, allowedRune c = true := by
  intro c hc
  unfold sanitizeFilename at hc
  have hmap : ∀ (l : List Char),
      ∀ c ∈ l.map (fun r => if allowedRune r = true then r else '_'), allowedRune c = true := by
    intro l c hc
    obtain ⟨r, -, hr⟩ := List.mem_map.mp hc
    by_cases ha : allowedRune r = true
    · rw [if_pos ha] at hr; subst hr; exact ha
    · rw [if_neg ha] at hr; subst hr; decide
  simp only at hc
  split at hc
  · revert c; decide
  · split at hc
    · exact hmap _ c (List.mem_of_mem_take hc)
    · exact hmap _ c hc

theorem sanitizeFilename_ne_nil (x : String) : (sanitizeFilename x).data ≠ [] := by
  unfold sanitizeFilename
  simp only
  split
  · decide
  · split
    · rename_i hlen
      intro h
      have := congrArg List.length h
      simp only [List.length_take, List.length_nil] at this
      omega
    · assumption

theorem sanitizeFilename_length (x : String) : (sanitizeFilename x).data.length ≤ 100 := by
  unfold sanitizeFilename
  simp only
  split
  · decide
  · split
    · simp only [List.length_take]; omega
    · rename_i hlen
      simpa using hlen

end Handlers

namespace Handlers

open Go Entities DocumentsUC Fixture

theorem TrimSpace_sanitizeFilename (x : String) :
    TrimSpace (sanitizeFilename x) = sanitizeFilename x := by
  apply TrimSpace_eq_self
  · intro c hc
    exact (allowedRune_props c (sanitizeFilename_allowed x c (List.mem_of_mem_head? hc))).1
  · intro c hc
    exact (allowedRune_props c (sanitizeFilename_allowed x c (List.mem_of_mem_getLast? hc))).1

theorem sanitizeFilename_utf8ByteSize (x : String) :
    (sanitizeFilename x).utf8ByteSize = (sanitizeFilename x).data.length := by
  have h := utf8ByteSize_go_eq_length (sanitizeFilename x).data
    (fun c hc => (allowedRune_props c (sanitizeFilename_allowed x c hc)).2.1)
  generalize sanitizeFilename x = s at h ⊢
  cases s
  exact h

/-- Go `NewFilename` accepts every result of `sanitizeFilename` and returns it as it is. -/
theorem NewFilename_sanitizeFilename (x : String) :
    Vos.NewFilename (sanitizeFilename x) = .ok (sanitizeFilename x) := by
  unfold Vos.NewFilename
  simp only [TrimSpace_sanitizeFilename]
  have h1 : sanitizeFilename x ≠ "" := fun h =>
    sanitizeFilename_ne_nil x (by rw [h])
  have h2 : ¬ (sanitizeFilename x).utf8ByteSize > 255 := by
    rw [sanitizeFilename_utf8ByteSize]
    have := sanitizeFilename_length x
    omega
  have h3 : (sanitizeFilename x).data.all Vos.filenameChar = true := by
    rw [List.all_eq_true]
    intro c hc
    exact (allowedRune_props c (sanitizeFilename_allowed x c hc)).2.2.1
  simp only [h1, h2, h3, if_false, Bool.not_true, Bool.false_eq_true]

end Handlers

namespace Go

namespace ByteString

/-- The first byte of the encoding of a rune above ASCII is above ASCII. -/
theorem AppendRune_head (r : Nat) (h : 0x80 ≤ r) :
    ∃ b rest, AppendRune r = b :: rest ∧ 0x80 ≤ b.val := by
  unfold AppendRune
  rw [if_neg (by omega)]
  split
  · exact ⟨_, _, rfl, by simp only [byte]; omega⟩
  · split
    · exact ⟨_, _, rfl, by decide⟩
    · split
      · exact ⟨_, _, rfl, by simp only [byte]; omega⟩
      · exact ⟨_, _, rfl, by simp only [byte]; omega⟩

/-- A string of ASCII bytes holds no rune above ASCII. -/
theorem ContainsRune_ascii (s : List Byte) (hs : ∀ b ∈ s, b.val < 0x80)
    (hr : (Runes 0 s).contains RuneError = false) (r : Nat)
    (h : ContainsRune s r = true) : r < 0x80 ∧ byte r ∈ s := by
  unfold ContainsRune at h
  by_cases h1 : r < 0x80
  · rw [if_pos h1] at h
    exact ⟨h1, by simpa using h⟩
  · rw [if_neg h1] at h
    by_cases h2 : r = RuneError
    · rw [if_pos h2, hr] at h
      cases h
    · rw [if_neg h2] at h
      split at h
      · cases h
      · exfalso
        obtain ⟨b, rest, hb, hge⟩ := AppendRune_head r (by omega)
        rw [hb] at h
        simp only [Contains, List.any_eq_true] at h
        obtain ⟨t, ht, hp⟩ := h
        cases t with
        | nil => simp [List.isPrefixOf] at hp
        | cons a t2 =>
          simp only [List.isPrefixOf, Bool.and_eq_true, beq_iff_eq] at hp
          have hmem : a ∈ s := ((List.mem_tails _ _).1 ht).subset (List.mem_cons_self a t2)
          have := hs a hmem
          rw [← hp.1] at this
          omega

end ByteString

end Go

namespace Handlers

open Go Entities DocumentsUC Fixture

set_option maxRecDepth 100000 in
/-- Every byte of `allowed` is ASCII, is the whole encoding of its character, and its
character is one `sanitizeFilename` keeps. -/
theorem allowed_bytes : ∀ b ∈ ByteString.allowed,
    b.val < 0x80 ∧ Go.ByteString.AppendRune (Char.ofNat b.val).toNat = [b] ∧
      Go.ByteString.AppendRune b.val = [b] ∧ allowedRune (Char.ofNat b.val) = true := by
  decide

theorem allowed_no_RuneError :
    (Go.ByteString.Runes 0 ByteString.allowed).contains Go.ByteString.RuneError = false := by
  decide

set_option maxRecDepth 100000 in
theorem underscore_allowed : ∀ b ∈ Go.ByteString.AppendRune 0x5F, b ∈ ByteString.allowed := by
  decide

set_option maxRecDepth 100000 in
theorem file_allowed : ∀ b ∈ Go.ByteString.ofString "file", b ∈ ByteString.allowed := by
  decide

/-- What the loop of `sanitizeFilename` writes is a byte of `allowed`. -/
theorem sanitizeRunes_allowed : ∀ (s : List Go.ByteString.Byte) (k : Nat),
    ∀ b ∈ ByteString.sanitizeRunes k s, b ∈ ByteString.allowed := by
  intro s
  induction s with
  | nil => intro k b hb; cases k <;> simp [ByteString.sanitizeRunes] at hb
  | cons a rest ih =>
    intro k b hb
    cases k with
    | succ k => exact ih k b (by simpa [ByteString.sanitizeRunes] using hb)
    | zero =>
      simp only [ByteString.sanitizeRunes, List.mem_append] at hb
      rcases hb with hb | hb
      · split at hb
        · rename_i hc
          obtain ⟨h1, h2⟩ := Go.ByteString.ContainsRune_ascii ByteString.allowed
            (fun b hb => (allowed_bytes b hb).1) allowed_no_RuneError _ hc
          have h3 : Go.ByteString.AppendRune (Go.ByteString.DecodeRuneInString (a :: rest)).1 =
              [Go.ByteString.byte (Go.ByteString.DecodeRuneInString (a :: rest)).1] := by
            unfold Go.ByteString.AppendRune
            rw [if_pos (by omega)]
          rw [h3] at hb
          simp only [List.mem_singleton] at hb
          rw [hb]; exact h2
        · exact underscore_allowed b hb
      · exact ih _ b hb

theorem sanitizeFilename_bytes_allowed (x : List Go.ByteString.Byte) :
    ∀ b ∈ ByteString.sanitizeFilename x, b ∈ ByteString.allowed := by
  intro b hb
  unfold ByteString.sanitizeFilename at hb
  simp only at hb
  split at hb
  · exact file_allowed b hb
  · split at hb
    · exact sanitizeRunes_allowed _ 0 b (List.mem_of_mem_take hb)
    · exact sanitizeRunes_allowed _ 0 b hb

theorem sanitizeFilename_bytes_ne_nil (x : List Go.ByteString.Byte) :
    ByteString.sanitizeFilename x ≠ [] := by
  unfold ByteString.sanitizeFilename
  simp only
  split
  · decide
  · split
    · rename_i hlen
      intro h
      have := congrArg List.length h
      simp only [List.length_take, List.length_nil] at this
      omega
    · assumption

theorem sanitizeFilename_bytes_length (x : List Go.ByteString.Byte) :
    (ByteString.sanitizeFilename x).length ≤ 100 := by
  unfold ByteString.sanitizeFilename
  simp only
  split
  · decide
  · split
    · simp only [List.length_take]; omega
    · omega

set_option maxRecDepth 100000 in
/-- Go `sanitizeFilename` on bytes that are not UTF-8 (a lone `0xFF` and a lone lead byte; a
cut-off three-byte sequence and an encoded surrogate), on the empty string, and on a text
with blanks, two dots in a row and a letter outside ASCII, where it returns the bytes of what
`sanitizeFilename` on texts returns. -/
theorem sanitizeFilename_bytes_examples :
    ByteString.sanitizeFilename [0xFF, 0x20, 0xC3] = Go.ByteString.ofString "___" ∧
    ByteString.sanitizeFilename [0x61, 0xE2, 0x82, 0x2E, 0x2E, 0x62, 0xED, 0xA0, 0x80] =
      Go.ByteString.ofString "a__.b___" ∧
    ByteString.sanitizeFilename [] = Go.ByteString.ofString "file" ∧
    ByteString.sanitizeFilename (Go.ByteString.ofString "  Relatório  final..v2 \t") =
      Go.ByteString.ofString "Relat_rio__final.v2" ∧
    sanitizeFilename "  Relatório  final..v2 \t" = "Relat_rio__final.v2" := by
  decide

/-- A sequence of bytes of `allowed` is the encoding of the text of its characters. -/
theorem ofString_of_allowed : ∀ l : List Go.ByteString.Byte, (∀ b ∈ l, b ∈ ByteString.allowed) →
    Go.ByteString.ofString ⟨l.map (fun b => Char.ofNat b.val)⟩ = l := by
  intro l
  induction l with
  | nil => intro _; rfl
  | cons a t ih =>
    intro h
    have ht := ih (fun b hb => h b (List.mem_cons_of_mem a hb))
    simp only [Go.ByteString.ofString, List.map_cons, List.flatMap_cons] at ht ⊢
    rw [ht, (allowed_bytes a (h a (List.mem_cons_self a t))).2.1]
    rfl

/-- Go `NewFilename` accepts every non-empty text of at most 100 kept characters and returns
it as it is. -/
theorem NewFilename_of_allowed (s : String) (hne : s.data ≠ []) (hlen : s.data.length ≤ 100)
    (hal : ∀ c ∈ s.data, allowedRune c = true) : Vos.NewFilename s = .ok s := by
  have hts : TrimSpace s = s := by
    apply TrimSpace_eq_self
    · intro c hc
      exact (allowedRune_props c (hal c (List.mem_of_mem_head? hc))).1
    · intro c hc
      exact (allowedRune_props c (hal c (List.mem_of_mem_getLast? hc))).1
  have hsz : s.utf8ByteSize = s.data.length := by
    have h := utf8ByteSize_go_eq_length s.data (fun c hc => (allowedRune_props c (hal c hc)).2.1)
    cases s
    exact h
  unfold Vos.NewFilename
  simp only [hts]
  have h1 : s ≠ "" := fun h => hne (by rw [h])
  have h2 : ¬ s.utf8ByteSize > 255 := by rw [hsz]; omega
  have h3 : s.data.all Vos.filenameChar = true := by
    rw [List.all_eq_true]
    intro c hc
    exact (allowedRune_props c (hal c hc)).2.2.1
  simp only [h1, h2, h3, if_false, Bool.not_true, Bool.false_eq_true]

/-- A run of `CreateDocumentUseCase.Execute` on a file name `NewFilename` accepts aborts
only in one of the other constructors. -/
theorem Execute_panic_origin (s : String) (hs : Vos.NewFilename s = .ok s)
    (p : String → Option String) (fault : Option Err) (newID : String) (t : Instant)
    (input : CreateDocumentInput) (w : World) (e : Err) (hname : input.FileName = s)
    (h : ∃ w1, CreateDocumentUseCase.Execute p fault newID t input w = (w1, .panic e)) :
    Vos.NewDocumentType input.Type_ = .error e ∨
      Vos.NewDocumentURL p input.FileURL = .error e ∨
      Vos.NewFileExtension input.Extension = .error e := by
  obtain ⟨w1, hE⟩ := h
  unfold CreateDocumentUseCase.Execute at hE
  rw [hname, hs] at hE
  split at hE
  · cases hE
  · cases hty : Vos.NewDocumentType input.Type_ with
    | error e1 =>
      rw [hty] at hE
      simp only [Prod.mk.injEq, Result.panic.injEq] at hE
      exact Or.inl (by rw [hE.2])
    | ok ty =>
      rw [hty] at hE
      simp only at hE
      cases hurl : Vos.NewDocumentURL p input.FileURL with
      | error e1 =>
        rw [hurl] at hE
        simp only [Prod.mk.injEq, Result.panic.injEq] at hE
        exact Or.inr (Or.inl (by rw [hE.2]))
      | ok u =>
        rw [hurl] at hE
        simp only at hE
        cases hext : Vos.NewFileExtension input.Extension with
        | error e1 =>
          rw [hext] at hE
          simp only [Prod.mk.injEq, Result.panic.injEq] at hE
          exact Or.inr (Or.inr (by rw [hE.2]))
        | ok ex =>
          rw [hext] at hE
          simp only at hE
          split at hE <;> cases hE

end Handlers

namespace Go

namespace ByteString

theorem byte_val (n : Nat) : (byte n).val = n % 256 := rfl

theorem char_range (c : Char) :
    c.toNat < 0xD800 ∨ (0xDFFF < c.toNat ∧ c.toNat < 0x110000) := c.valid

theorem first_two (b : Nat) (h1 : 194 ≤ b) (h2 : b ≤ 223) : first b = some (2, 128, 191) := by
  unfold first
  rw [if_pos ⟨h1, h2⟩]

theorem first_three (b : Nat) (h1 : 224 ≤ b) (h2 : b ≤ 239) :
    first b = some (3, if b = 224 then 160 else 128, if b = 237 then 159 else 191) := by
  interval_cases b <;> rfl

theorem first_four (b : Nat) (h1 : 240 ≤ b) (h2 : b ≤ 244) :
    first b = some (4, if b = 240 then 144 else 128, if b = 244 then 143 else 191) := by
  interval_cases b <;> rfl

/-- Decoding undoes encoding: the bytes `AppendRune` writes for a character decode to that
character, whatever follows them. -/
theorem DecodeRuneInString_AppendRune (n : Nat)
    (hn : n < 0xD800 ∨ (0xDFFF < n ∧ n < 0x110000)) (rest : List Byte) :
    DecodeRuneInString (AppendRune n ++ rest) = (n, (AppendRune n).length) := by
  unfold AppendRune
  by_cases h1 : n ≤ 0x7F
  · rw [if_pos h1]
    simp only [List.singleton_append, DecodeRuneInString, byte_val, List.length_singleton]
    rw [if_pos (by omega)]
    congr 1
    omega
  · rw [if_neg h1]
    by_cases h2 : n ≤ 0x7FF
    · rw [if_pos h2]
      have hb0 : (192 + n / 64) % 256 = 192 + n / 64 := by omega
      have hb1 : (128 + n % 64) % 256 = 128 + n % 64 := by omega
      simp only [List.cons_append, List.nil_append, DecodeRuneInString, byte_val,
        List.length_cons, List.length_nil, hb0, hb1]
      rw [if_neg (by omega), first_two _ (by omega) (by omega)]
      simp only []
      rw [if_neg (by omega), if_neg (by simp; omega), if_pos (by omega)]
      congr 1
      omega
    · rw [if_neg h2]
      rw [if_neg (by omega)]
      by_cases h3 : n ≤ 0xFFFF
      · rw [if_pos h3]
        have hb0 : (224 + n / 4096) % 256 = 224 + n / 4096 := by omega
        have hb1 : (128 + n / 64 % 64) % 256 = 128 + n / 64 % 64 := by omega
        have hb2 : (128 + n % 64) % 256 = 128 + n % 64 := by omega
        simp only [List.cons_append, List.nil_append, DecodeRuneInString, byte_val,
          List.length_cons, List.length_nil, hb0, hb1, hb2]
        rw [if_neg (by omega), first_three _ (by omega) (by omega)]
        simp only []
        rw [if_neg (by omega), if_neg (by
          simp only [Bool.or_eq_true, decide_eq_true_eq, not_or, not_lt]
          constructor <;> split_ifs <;> omega), if_neg (by omega), if_neg (by simp; omega),
          if_pos (by omega)]
        congr 1
        omega
      · rw [if_neg h3]
        have hb0 : (240 + n / 262144) % 256 = 240 + n / 262144 := by omega
        have hb1 : (128 + n / 4096 % 64) % 256 = 128 + n / 4096 % 64 := by omega
        have hb2 : (128 + n / 64 % 64) % 256 = 128 + n / 64 % 64 := by omega
        have hb3 : (128 + n % 64) % 256 = 128 + n % 64 := by omega
        simp only [List.cons_append, List.nil_append, DecodeRuneInString, byte_val,
          List.length_cons, List.length_nil, hb0, hb1, hb2, hb3]
        rw [if_neg (by omega), first_four _ (by omega) (by omega)]
        simp only []
        rw [if_neg (by omega), if_neg (by
          simp only [Bool.or_eq_true, decide_eq_true_eq, not_or, not_lt]
          constructor <;> split_ifs <;> omega), if_neg (by omega), if_neg (by simp; omega),
          if_neg (by omega), if_neg (by simp; omega)]
        congr 1
        omega

theorem ofString_nil : ofString ⟨[]⟩ = [] := rfl

theorem ofString_cons (c : Char) (l : List Char) :
    ofString ⟨c :: l⟩ = AppendRune c.toNat ++ ofString ⟨l⟩ := by
  simp [ofString]

theorem ofString_append (l1 l2 : List Char) :
    ofString ⟨l1 ++ l2⟩ = ofString ⟨l1⟩ ++ ofString ⟨l2⟩ := by
  simp [ofString]

/-- The encoding of an ASCII character is its one byte. -/
theorem AppendRune_ascii (n : Nat) (h : n < 0x80) :
    AppendRune n = [byte n] ∧ (byte n).val = n := by
  unfold AppendRune
  rw [if_pos (by omega)]
  exact ⟨rfl, by rw [byte_val]; omega⟩

set_option maxRecDepth 100000 in
/-- The encoding of a character above ASCII: a byte that starts a rune, followed by one to
three bytes that do not, all of them above ASCII. -/
theorem AppendRune_high (n : Nat) (h : 0x80 ≤ n) :
    ∃ b tail, AppendRune n = b :: tail ∧ RuneStart b = true ∧ 0x80 ≤ b.val ∧
      (∀ x ∈ tail, RuneStart x = false ∧ 0x80 ≤ x.val) ∧ 1 ≤ tail.length ∧ tail.length ≤ 3 := by
  have hcont : ∀ k : Nat, k < 64 →
      RuneStart (byte (128 + k)) = false ∧ 0x80 ≤ (byte (128 + k)).val := by
    intro k hk
    simp only [RuneStart, byte_val, bne_eq_false_iff_eq]
    omega
  unfold AppendRune
  rw [if_neg (by omega)]
  split
  · refine ⟨_, _, rfl, ?_, ?_, ?_, by simp, by simp⟩
    · simp only [RuneStart, byte_val, bne_iff_ne, ne_eq]; omega
    · rw [byte_val]; omega
    · intro x hx
      simp only [List.mem_singleton] at hx
      rw [hx]
      exact hcont _ (Nat.mod_lt _ (by decide))
  · split
    · exact ⟨_, _, rfl, by decide, by decide, by decide, by decide, by decide⟩
    · split
      · refine ⟨_, _, rfl, ?_, ?_, ?_, by simp, by simp⟩
        · simp only [RuneStart, byte_val, bne_iff_ne, ne_eq]; omega
        · rw [byte_val]; omega
        · intro x hx
          simp only [List.mem_cons, List.mem_singleton, List.not_mem_nil, or_false] at hx
          rcases hx with hx | hx <;> rw [hx] <;> exact hcont _ (Nat.mod_lt _ (by decide))
      · refine ⟨_, _, rfl, ?_, ?_, ?_, by simp, by simp⟩
        · simp only [RuneStart, byte_val, bne_iff_ne, ne_eq]; omega
        · rw [byte_val]; omega
        · intro x hx
          simp only [List.mem_cons, List.mem_singleton, List.not_mem_nil, or_false] at hx
          rcases hx with hx | hx | hx <;> rw [hx] <;>
            exact hcont _ (Nat.mod_lt _ (by decide))

theorem AppendRune_ne_nil (n : Nat) : AppendRune n ≠ [] := by
  by_cases h : n < 0x80
  · rw [(AppendRune_ascii n h).1]; simp
  · obtain ⟨b, tail, hb, -⟩ := AppendRune_high n (by omega)
    rw [hb]; simp

end ByteString

end Go

namespace Go

namespace ByteString

theorem char_eq_of_toNat (c d : Char) (h : c.toNat = d.toNat) : c = d := by
  rw [← Char.ofNat_toNat c, ← Char.ofNat_toNat d, h]

/-- Go `strings.ReplaceAll(s, " ", "_")` on the bytes of a text replaces its blanks. -/
theorem replaceSpaces_ofString (l : List Char) :
    replaceSpaces (ofString ⟨l⟩) = ofString ⟨Go.replaceSpaces l⟩ := by
  induction l with
  | nil => rfl
  | cons c t ih =>
    have hc : (AppendRune c.toNat).map (fun b : Byte => if b = 0x20 then 0x5F else b) =
        AppendRune (if c == ' ' then '_' else c).toNat := by
      by_cases hsp : c = ' '
      · subst hsp; decide
      · have hne : (c == ' ') = false := by simpa using hsp
        rw [hne]
        simp only [Bool.false_eq_true, if_false]
        by_cases h : c.toNat < 0x80
        · obtain ⟨h1, h2⟩ := AppendRune_ascii c.toNat h
          rw [h1]
          have : byte c.toNat ≠ 0x20 := by
            intro hb
            apply hsp
            apply char_eq_of_toNat
            rw [← h2, hb]
            rfl
          simp [this]
        · obtain ⟨b, tail, hb, -, hb0, htail, -⟩ := AppendRune_high c.toNat (by omega)
          rw [hb]
          have hall : ∀ x ∈ b :: tail, (if x = (0x20 : Byte) then (0x5F : Byte) else x) = x := by
            intro x hx
            have hx80 : 0x80 ≤ x.val := by
              rcases List.mem_cons.1 hx with hx | hx
              · rw [hx]; exact hb0
              · exact (htail x hx).2
            have : x ≠ 0x20 := by
              intro hh
              rw [hh] at hx80
              revert hx80
              decide
            simp [this]
          exact (List.map_congr_left hall).trans (List.map_id _)
    unfold replaceSpaces Go.replaceSpaces at *
    rw [ofString_cons, List.map_append, ih, hc, List.map_cons, ofString_cons]

theorem replaceDotDot_append (pre tail : List Byte) (h : ∀ b ∈ pre, b ≠ 0x2E) :
    replaceDotDot (pre ++ tail) = pre ++ replaceDotDot tail := by
  induction pre with
  | nil => rfl
  | cons a t ih =>
    have ha : a ≠ 0x2E := h a (List.mem_cons_self a t)
    rw [List.cons_append, replaceDotDot.eq_2 a (t ++ tail) (fun r h1 _ => ha h1),
      ih (fun b hb => h b (List.mem_cons_of_mem a hb)), List.cons_append]

theorem AppendRune_dot : AppendRune '.'.toNat = [0x2E] := by decide

theorem ofString_dot (l : List Char) : ofString ⟨'.' :: l⟩ = 0x2E :: ofString ⟨l⟩ := by
  rw [ofString_cons, AppendRune_dot]
  rfl

/-- No byte of the encoding of a character other than the dot is the byte of the dot. -/
theorem AppendRune_no_dot (c : Char) (hc : c ≠ '.') : ∀ b ∈ AppendRune c.toNat, b ≠ 0x2E := by
  intro b hb
  by_cases h : c.toNat < 0x80
  · obtain ⟨h1, h2⟩ := AppendRune_ascii c.toNat h
    rw [h1, List.mem_singleton] at hb
    intro hh
    apply hc
    apply char_eq_of_toNat
    rw [← h2, ← hb, hh]
    rfl
  · obtain ⟨b0, tail, hb0, -, h0, htail, -⟩ := AppendRune_high c.toNat (by omega)
    rw [hb0] at hb
    have hx80 : 0x80 ≤ b.val := by
      rcases List.mem_cons.1 hb with hx | hx
      · rw [hx]; exact h0
      · exact (htail b hx).2
    intro hh
    rw [hh] at hx80
    revert hx80
    decide

/-- Go `strings.ReplaceAll(s, "..", ".")` on the bytes of a text collapses its pairs of
dots. -/
theorem replaceDotDot_ofString : ∀ (n : Nat) (l : List Char), l.length ≤ n →
    replaceDotDot (ofString ⟨l⟩) = ofString ⟨Go.replaceDotDot l⟩ := by
  intro n
  induction n with
  | zero =>
    intro l hl
    have : l = [] := List.length_eq_zero.1 (by omega)
    subst this
    rfl
  | succ n ih =>
    intro l hl
    match l, hl with
    | [], _ => rfl
    | c :: rest, hl =>
      have hrest : rest.length ≤ n := by simpa using hl
      by_cases hc : c = '.'
      · subst hc
        match rest, hrest with
        | [], _ => decide
        | d :: rest2, hrest =>
          by_cases hd : d = '.'
          · subst hd
            rw [Go.replaceDotDot.eq_1, ofString_dot, ofString_dot, ofString_dot,
              replaceDotDot.eq_1, ih rest2 (by simp at hrest; omega)]
          · have hside : ∀ r : List Char, ('.' : Char) = '.' → d :: rest2 = '.' :: r → False := by
              intro r _ h2
              exact hd (List.cons.inj h2).1
            rw [Go.replaceDotDot.eq_2 '.' (d :: rest2) hside, ofString_dot, ofString_dot,
              ← ih (d :: rest2) hrest]
            obtain ⟨b, tl, hb⟩ : ∃ b tl, ofString ⟨d :: rest2⟩ = b :: tl := by
              rw [ofString_cons]
              cases hA : AppendRune d.toNat with
              | nil => exact absurd hA (AppendRune_ne_nil _)
              | cons b tl => exact ⟨b, _, rfl⟩
            have hbne : b ≠ 0x2E := by
              apply AppendRune_no_dot d hd
              rw [ofString_cons] at hb
              cases hA : AppendRune d.toNat with
              | nil => exact absurd hA (AppendRune_ne_nil _)
              | cons b2 tl2 =>
                rw [hA] at hb
                simp only [List.cons_append, List.cons.injEq] at hb
                rw [← hb.1]
                exact List.mem_cons_self _ _
            rw [hb]
            rw [replaceDotDot.eq_2 (0x2E : Byte) (b :: tl)
              (fun r _ h2 => hbne (List.cons.inj h2).1)]
      · have hside : ∀ r : List Char, c = '.' → rest = '.' :: r → False := fun r h1 _ => hc h1
        rw [Go.replaceDotDot.eq_2 c rest hside, ofString_cons, ofString_cons,
          replaceDotDot_append _ _ (AppendRune_no_dot c hc), ih rest hrest]

end ByteString

end Go

namespace Go

namespace ByteString

/-- Go `unicode.IsSpace` on the code point of a character. -/
theorem IsSpace_toNat (c : Char) : IsSpace c.toNat = isSpace c := by
  have hv : c.val.toNat = c.toNat := rfl
  have hlt : c.toNat < 4294967296 := by
    have := char_range c
    omega
  have e : ∀ k : Nat, k < 4294967296 → ((c.val == UInt32.ofNat k) = decide (c.toNat = k)) := by
    intro k hk
    rw [Bool.eq_iff_iff]
    simp only [beq_iff_eq, decide_eq_true_eq]
    constructor
    · intro h
      rw [← hv, h]
      simp [UInt32.toNat, UInt32.ofNat, Fin.ofNat, Nat.mod_eq_of_lt hk]
    · intro h
      apply UInt32.ext
      rw [hv, h]
      simp [UInt32.toNat, UInt32.ofNat, Fin.ofNat, Nat.mod_eq_of_lt hk]
  have le1 : ∀ k : Nat, k < 4294967296 →
      (decide (UInt32.ofNat k ≤ c.val) = decide (k ≤ c.toNat)) := by
    intro k hk
    rw [Bool.eq_iff_iff]
    simp only [decide_eq_true_eq]
    show (UInt32.ofNat k).toNat ≤ c.val.toNat ↔ _
    rw [hv]
    simp [UInt32.toNat, UInt32.ofNat, Fin.ofNat, Nat.mod_eq_of_lt hk]
  have le2 : ∀ k : Nat, k < 4294967296 →
      (decide (c.val ≤ UInt32.ofNat k) = decide (c.toNat ≤ k)) := by
    intro k hk
    rw [Bool.eq_iff_iff]
    simp only [decide_eq_true_eq]
    show c.val.toNat ≤ (UInt32.ofNat k).toNat ↔ _
    rw [hv]
    simp [UInt32.toNat, UInt32.ofNat, Fin.ofNat, Nat.mod_eq_of_lt hk]
  have esp : (c == ' ') = decide (c.toNat = 32) := by
    rw [Bool.eq_iff_iff]
    simp only [beq_iff_eq, decide_eq_true_eq]
    constructor
    · intro h; rw [h]; rfl
    · intro h; exact char_eq_of_toNat c ' ' h
  have a1 : (c.val == 0x85) = decide (c.toNat = 0x85) := e 0x85 (by decide)
  have a2 : (c.val == 0xA0) = decide (c.toNat = 0xA0) := e 0xA0 (by decide)
  have a3 : (c.val == 0x1680) = decide (c.toNat = 0x1680) := e 0x1680 (by decide)
  have a4 : (c.val == 0x2028) = decide (c.toNat = 0x2028) := e 0x2028 (by decide)
  have a5 : (c.val == 0x2029) = decide (c.toNat = 0x2029) := e 0x2029 (by decide)
  have a6 : (c.val == 0x202F) = decide (c.toNat = 0x202F) := e 0x202F (by decide)
  have a7 : (c.val == 0x205F) = decide (c.toNat = 0x205F) := e 0x205F (by decide)
  have a8 : (c.val == 0x3000) = decide (c.toNat = 0x3000) := e 0x3000 (by decide)
  have b1 : decide (9 ≤ c.val) = decide (9 ≤ c.toNat) := le1 9 (by decide)
  have b2 : decide (c.val ≤ 13) = decide (c.toNat ≤ 13) := le2 13 (by decide)
  have b3 : decide (0x2000 ≤ c.val) = decide (0x2000 ≤ c.toNat) := le1 0x2000 (by decide)
  have b4 : decide (c.val ≤ 0x200A) = decide (c.toNat ≤ 0x200A) := le2 0x200A (by decide)
  unfold isSpace IsSpace
  rw [esp, a1, a2, a3, a4, a5, a6, a7, a8, b1, b2, b3, b4]
  generalize c.toNat = n
  rw [Bool.eq_iff_iff]
  split <;>
    simp only [Bool.or_eq_true, Bool.and_eq_true, decide_eq_true_eq, beq_iff_eq] <;> omega

end ByteString

end Go

namespace Go

namespace ByteString

set_option maxRecDepth 100000 in
theorem asciiSpace_eq : ∀ b : Byte, b.val < 0x80 → asciiSpace b = IsSpace b.val := by
  decide

theorem TrimLeftFunc_skip (f : Nat → Bool) : ∀ (pre rest : List Byte),
    TrimLeftFunc f pre.length (pre ++ rest) = TrimLeftFunc f 0 rest := by
  intro pre
  induction pre with
  | nil => intro rest; rfl
  | cons a t ih =>
    intro rest
    simp only [List.length_cons, List.cons_append, TrimLeftFunc]
    exact ih rest

/-- One step of `TrimLeftFunc` on the encoding of a character. -/
theorem TrimLeftFunc_AppendRune (f : Nat → Bool) (n : Nat)
    (hn : n < 0xD800 ∨ (0xDFFF < n ∧ n < 0x110000)) (rest : List Byte) :
    TrimLeftFunc f 0 (AppendRune n ++ rest) =
      if f n then TrimLeftFunc f 0 rest else AppendRune n ++ rest := by
  have hd := DecodeRuneInString_AppendRune n hn rest
  cases hA : AppendRune n with
  | nil => exact absurd hA (AppendRune_ne_nil n)
  | cons b tl =>
    rw [hA] at hd
    simp only [List.cons_append] at hd ⊢
    simp only [TrimLeftFunc, hd, List.length_cons, Nat.add_sub_cancel]
    rw [TrimLeftFunc_skip]

/-- Go `strings.TrimLeftFunc` with `unicode.IsSpace` on the bytes of a text drops its leading
white space. -/
theorem TrimLeftFunc_ofString (l : List Char) :
    TrimLeftFunc IsSpace 0 (ofString ⟨l⟩) = ofString ⟨l.dropWhile isSpace⟩ := by
  induction l with
  | nil => rfl
  | cons c t ih =>
    rw [ofString_cons, TrimLeftFunc_AppendRune IsSpace c.toNat (char_range c), IsSpace_toNat]
    by_cases h : isSpace c = true
    · rw [if_pos h, ih, List.dropWhile_cons_of_pos h]
    · rw [if_neg h, List.dropWhile_cons_of_neg h, ofString_cons]

end ByteString

end Go

namespace Go

namespace ByteString

/-- The loop of `DecodeLastRuneInString` stops at the byte that starts a rune when only
continuation bytes lie between it and the end. -/
theorem scanBack_stop (s : List Byte) (lim p : Nat) (hlim : lim ≤ p)
    (hstart : RuneStart (s.getD p 0) = true) : ∀ k : Nat, 1 ≤ k →
    (∀ j, 1 ≤ j → j < k → RuneStart (s.getD (p + j) 0) = false) →
    scanBack s lim (p + k) = p := by
  intro k
  induction k with
  | zero => intro h; omega
  | succ j ih =>
    intro _ hcont
    show scanBack s lim (p + j + 1) = p
    unfold scanBack
    rw [if_pos (by omega)]
    by_cases hj : j = 0
    · subst hj
      simp only [Nat.add_zero, hstart, if_true]
    · have := hcont j (by omega) (by omega)
      rw [this]
      simp only [Bool.false_eq_true, if_false]
      exact ih (by omega) (fun i h1 h2 => hcont i h1 (by omega))

/-- Decoding the last rune undoes encoding: after any bytes, the bytes `AppendRune` writes
for a character decode backwards to that character. -/
theorem DecodeLastRuneInString_AppendRune (n : Nat)
    (hn : n < 0xD800 ∨ (0xDFFF < n ∧ n < 0x110000)) (pre : List Byte) :
    DecodeLastRuneInString (pre ++ AppendRune n) = (n, (AppendRune n).length) := by
  unfold DecodeLastRuneInString
  by_cases h : n < 0x80
  · obtain ⟨h1, h2⟩ := AppendRune_ascii n h
    rw [h1]
    have hlast : (pre ++ [byte n]).getD ((pre ++ [byte n]).length - 1) 0 = byte n := by
      simp [List.getD_eq_getElem?_getD]
    rw [if_neg (by simp), hlast, if_pos (by omega), h2]
    rfl
  · obtain ⟨b, tail, hb, hb1, hb2, htail, hl1, hl3⟩ := AppendRune_high n (by omega)
    have hd := DecodeRuneInString_AppendRune n hn []
    rw [hb] at hd ⊢
    simp only [List.append_nil] at hd
    have hlen : (pre ++ b :: tail).length = pre.length + tail.length + 1 := by
      simp; omega
    have hget : ∀ j, j < tail.length →
        (pre ++ b :: tail).getD (pre.length + (j + 1)) 0 = tail.getD j 0 := by
      intro j hj
      simp only [List.getD_eq_getElem?_getD]
      rw [List.getElem?_append_right (by omega)]
      simp [Nat.add_sub_cancel_left]
    have hget0 : (pre ++ b :: tail).getD pre.length 0 = b := by
      simp only [List.getD_eq_getElem?_getD]
      rw [List.getElem?_append_right (le_refl _)]
      simp
    have hmem : ∀ j, j < tail.length → tail.getD j 0 ∈ tail := by
      intro j hj
      simp only [List.getD_eq_getElem?_getD, List.getElem?_eq_getElem hj, Option.getD_some]
      exact List.getElem_mem _
    have hlastb : 0x80 ≤ ((pre ++ b :: tail).getD ((pre ++ b :: tail).length - 1) 0).val := by
      rw [hlen]
      have : pre.length + tail.length + 1 - 1 = pre.length + ((tail.length - 1) + 1) := by omega
      rw [this, hget _ (by omega)]
      exact (htail _ (hmem _ (by omega))).2
    rw [if_neg (by rw [hlen]; omega), if_neg (by omega)]
    have hscan : scanBack (pre ++ b :: tail) ((pre ++ b :: tail).length - 4)
        ((pre ++ b :: tail).length - 1) = pre.length := by
      have : (pre ++ b :: tail).length - 1 = pre.length + tail.length := by rw [hlen]; omega
      rw [this]
      apply scanBack_stop _ _ _ (by rw [hlen]; omega) (by rw [hget0]; exact hb1) _ hl1
      intro j h1 h2
      have : pre.length + j = pre.length + ((j - 1) + 1) := by omega
      rw [this, hget _ (by omega)]
      exact (htail _ (hmem _ (by omega))).1
    simp only [hscan, List.drop_left, hd]
    rw [if_neg (by simp [hlen]; omega)]

end ByteString

end Go

namespace Go

namespace ByteString

theorem lastIndexFunc_skip (s : List Byte) (f : Nat → Bool) (t : Bool) (j : Nat) :
    ∀ k : Nat, lastIndexFunc s f t k (j + k) = lastIndexFunc s f t 0 j := by
  intro k
  induction k with
  | zero => rfl
  | succ k ih =>
    show lastIndexFunc s f t (k + 1) (j + k + 1) = _
    rw [lastIndexFunc]
    exact ih

/-- One step of `lastIndexFunc` at the end of the encoding of a character. -/
theorem lastIndexFunc_AppendRune (s : List Byte) (f : Nat → Bool) (t : Bool) (n : Nat)
    (hn : n < 0xD800 ∨ (0xDFFF < n ∧ n < 0x110000)) (pre : List Byte)
    (hs : s.take (pre.length + (AppendRune n).length) = pre ++ AppendRune n) :
    lastIndexFunc s f t 0 (pre.length + (AppendRune n).length) =
      if f n == t then some pre.length else lastIndexFunc s f t 0 pre.length := by
  have hd := DecodeLastRuneInString_AppendRune n hn pre
  obtain ⟨m, hm⟩ : ∃ m, (AppendRune n).length = m + 1 := by
    cases hA : AppendRune n with
    | nil => exact absurd hA (AppendRune_ne_nil n)
    | cons b tl => exact ⟨tl.length, rfl⟩
  rw [hm] at hs hd ⊢
  show lastIndexFunc s f t 0 (pre.length + m + 1) = _
  rw [lastIndexFunc]
  have hs2 : List.take (pre.length + m + 1) s = pre ++ AppendRune n := hs
  simp only [hs2, hd, Nat.add_sub_cancel]
  rw [lastIndexFunc_skip]
  have : pre.length + m + 1 - (m + 1) = pre.length := by omega
  rw [this]

/-- Where `lastIndexFunc` with `unicode.IsSpace` ends on the bytes of a text: nowhere when
the text is white space only, and at the start of the last character that is not white
space otherwise. -/
theorem lastIndexFunc_ofString (s : List Byte) : ∀ l : List Char,
    s.take (ofString ⟨l⟩).length = ofString ⟨l⟩ →
    (l.rdropWhile isSpace = [] ∧
        lastIndexFunc s IsSpace false 0 (ofString ⟨l⟩).length = none) ∨
      ∃ core c, l.rdropWhile isSpace = core ++ [c] ∧ isSpace c = false ∧
        lastIndexFunc s IsSpace false 0 (ofString ⟨l⟩).length =
          some (ofString ⟨core⟩).length := by
  intro l
  induction l using List.reverseRecOn with
  | nil =>
    intro _
    exact Or.inl ⟨rfl, rfl⟩
  | append_singleton init c ih =>
    intro hs
    have hof : ofString ⟨init ++ [c]⟩ = ofString ⟨init⟩ ++ AppendRune c.toNat := by
      rw [ofString_append, ofString_cons, ofString_nil, List.append_nil]
    rw [hof, List.length_append] at hs ⊢
    have hstep := lastIndexFunc_AppendRune s IsSpace false c.toNat (char_range c)
      (ofString ⟨init⟩) hs
    rw [hstep, IsSpace_toNat]
    by_cases hc : isSpace c = true
    · have hinit : s.take (ofString ⟨init⟩).length = ofString ⟨init⟩ := by
        have := congrArg (List.take (ofString ⟨init⟩).length) hs
        rw [List.take_take, List.take_left, Nat.min_eq_left (Nat.le_add_right _ _)] at this
        exact this
      rw [List.rdropWhile_concat_pos _ _ _ hc, hc]
      simp only [beq_iff_eq, Bool.true_eq_false, if_false]
      exact ih hinit
    · have hc2 : isSpace c = false := by simpa using hc
      rw [List.rdropWhile_concat_neg _ _ _ hc, hc2]
      exact Or.inr ⟨init, c, rfl, hc2, by simp⟩

/-- Go `strings.TrimRightFunc` with `unicode.IsSpace` on the bytes of a text drops its
trailing white space. -/
theorem TrimRightFunc_ofString (l : List Char) :
    TrimRightFunc (ofString ⟨l⟩) IsSpace = ofString ⟨l.rdropWhile isSpace⟩ := by
  unfold TrimRightFunc
  rcases lastIndexFunc_ofString (ofString ⟨l⟩) l (List.take_length _) with
    ⟨h1, h2⟩ | ⟨core, c, h1, hc, h2⟩
  · rw [h2, h1]
    rfl
  · rw [h2, h1]
    simp only []
    obtain ⟨sp, hsp⟩ := List.rdropWhile_prefix isSpace l
    rw [h1] at hsp
    have hl : ofString ⟨l⟩ = ofString ⟨core⟩ ++ (AppendRune c.toNat ++ ofString ⟨sp⟩) := by
      rw [← hsp, ofString_append, ofString_append, ofString_cons, ofString_nil,
        List.append_nil, List.append_assoc]
    have hcore : ofString ⟨core ++ [c]⟩ = ofString ⟨core⟩ ++ AppendRune c.toNat := by
      rw [ofString_append, ofString_cons, ofString_nil, List.append_nil]
    rw [hl, hcore, List.drop_left, DecodeRuneInString_AppendRune c.toNat (char_range c)]
    have hget : (ofString ⟨core⟩ ++ (AppendRune c.toNat ++ ofString ⟨sp⟩)).getD
        (ofString ⟨core⟩).length 0 = (AppendRune c.toNat ++ ofString ⟨sp⟩).getD 0 0 := by
      simp only [List.getD_eq_getElem?_getD]
      rw [List.getElem?_append_right (le_refl _)]
      simp
    rw [hget]
    by_cases h : c.toNat < 0x80
    · obtain ⟨e1, e2⟩ := AppendRune_ascii c.toNat h
      rw [e1]
      simp only [List.singleton_append, List.getD_cons_zero]
      rw [if_neg (by omega)]
      have : (ofString ⟨core⟩).length + 1 = (ofString ⟨core⟩ ++ [byte c.toNat]).length := by
        simp
      rw [show ofString ⟨core⟩ ++ byte c.toNat :: ofString ⟨sp⟩ =
        (ofString ⟨core⟩ ++ [byte c.toNat]) ++ ofString ⟨sp⟩ by simp, this, List.take_left]
    · obtain ⟨b, tail, hb, -, hb2, -⟩ := AppendRune_high c.toNat (by omega)
      rw [hb]
      simp only [List.cons_append, List.getD_cons_zero]
      rw [if_pos (by omega)]
      have : (ofString ⟨core⟩).length + (b :: tail).length =
          (ofString ⟨core⟩ ++ b :: tail).length := by simp
      rw [show ofString ⟨core⟩ ++ b :: (tail ++ ofString ⟨sp⟩) =
        (ofString ⟨core⟩ ++ b :: tail) ++ ofString ⟨sp⟩ by simp, this, List.take_left]

end ByteString

end Go

namespace Go

namespace ByteString

/-- The second loop of `strings.TrimSpace` on the bytes of a text drops its trailing white
space. -/
theorem trimSpaceStop_ofString (l : List Char) :
    trimSpaceStop (ofString ⟨l⟩).reverse = ofString ⟨l.rdropWhile isSpace⟩ := by
  induction l using List.reverseRecOn with
  | nil => rfl
  | append_singleton init c ih =>
    have hof : ofString ⟨init ++ [c]⟩ = ofString ⟨init⟩ ++ AppendRune c.toNat := by
      rw [ofString_append, ofString_cons, ofString_nil, List.append_nil]
    by_cases h : c.toNat < 0x80
    · obtain ⟨e1, e2⟩ := AppendRune_ascii c.toNat h
      have hrev : (ofString ⟨init ++ [c]⟩).reverse =
          byte c.toNat :: (ofString ⟨init⟩).reverse := by
        rw [hof, e1]
        simp
      rw [hrev, trimSpaceStop]
      rw [if_neg (by omega), asciiSpace_eq _ (by omega), e2, IsSpace_toNat]
      by_cases hc : isSpace c = true
      · rw [if_pos hc, ih, List.rdropWhile_concat_pos _ _ _ hc]
      · rw [if_neg hc, List.rdropWhile_concat_neg _ _ _ hc, ← hrev, List.reverse_reverse]
    · obtain ⟨b, tail, hb, -, hb2, htail, hl1, -⟩ := AppendRune_high c.toNat (by omega)
      have hne : tail ≠ [] := by
        intro ht
        rw [ht] at hl1
        simp at hl1
      obtain ⟨x, rest, hrev⟩ : ∃ x rest, (ofString ⟨init ++ [c]⟩).reverse = x :: rest ∧
          0x80 ≤ x.val := by
        rw [hof, hb]
        refine ⟨tail.getLast hne, (b :: tail.dropLast).reverse ++ (ofString ⟨init⟩).reverse,
          ?_, (htail _ (List.getLast_mem hne)).2⟩
        rw [List.reverse_append]
        have : b :: tail = (b :: tail.dropLast) ++ [tail.getLast hne] := by
          rw [List.cons_append, List.dropLast_append_getLast hne]
        rw [this]
        simp
      rw [hrev.1, trimSpaceStop, if_pos hrev.2, ← hrev.1, List.reverse_reverse,
        TrimRightFunc_ofString]

/-- Go `strings.TrimSpace` on the bytes of a text returns the bytes of the trimmed text. -/
theorem TrimSpace_ofString (l : List Char) :
    TrimSpace (ofString ⟨l⟩) = ofString (Go.TrimSpace ⟨l⟩) := by
  have hT : ∀ l : List Char,
      Go.TrimSpace ⟨l⟩ = ⟨(l.dropWhile isSpace).rdropWhile isSpace⟩ := fun _ => rfl
  rw [hT]
  induction l with
  | nil => rfl
  | cons c t ih =>
    by_cases h : c.toNat < 0x80
    · obtain ⟨e1, e2⟩ := AppendRune_ascii c.toNat h
      have hof : ofString ⟨c :: t⟩ = byte c.toNat :: ofString ⟨t⟩ := by
        rw [ofString_cons, e1]
        rfl
      rw [hof, TrimSpace, if_neg (by omega), asciiSpace_eq _ (by omega), e2, IsSpace_toNat]
      by_cases hc : isSpace c = true
      · rw [if_pos hc, ih, List.dropWhile_cons_of_pos hc]
      · rw [if_neg hc, List.dropWhile_cons_of_neg hc, ← hof, trimSpaceStop_ofString]
    · obtain ⟨b, tail, hb, -, hb2, -⟩ := AppendRune_high c.toNat (by omega)
      have hof : ofString ⟨c :: t⟩ = b :: (tail ++ ofString ⟨t⟩) := by
        rw [ofString_cons, hb]
        rfl
      rw [hof, TrimSpace, if_pos hb2, ← hof, TrimFunc, TrimLeftFunc_ofString,
        TrimRightFunc_ofString]

end ByteString

end Go

namespace Handlers

open Go Entities DocumentsUC Fixture

theorem sanitizeRunes_skip : ∀ (pre rest : List Go.ByteString.Byte),
    ByteString.sanitizeRunes pre.length (pre ++ rest) = ByteString.sanitizeRunes 0 rest := by
  intro pre
  induction pre with
  | nil => intro rest; rfl
  | cons a t ih =>
    intro rest
    simp only [List.length_cons, List.cons_append, ByteString.sanitizeRunes]
    exact ih rest

set_option maxRecDepth 100000 in
theorem ContainsRune_of_allowed :
    ∀ c ∈ "abcdefghijklmnopqrstuvwxyzABCDEFGHIJKLMNOPQRSTUVWXYZ0123456789-_.".data,
      Go.ByteString.ContainsRune ByteString.allowed c.toNat = true ∧ c.toNat < 0x80 := by
  decide

/-- Go `strings.ContainsRune(allowed, r)` on the code point of a character is the test of
`sanitizeFilename` on texts. -/
theorem ContainsRune_allowed (c : Char) :
    Go.ByteString.ContainsRune ByteString.allowed c.toNat = allowedRune c := by
  rw [Bool.eq_iff_iff]
  constructor
  · intro h
    obtain ⟨h1, h2⟩ := Go.ByteString.ContainsRune_ascii ByteString.allowed
      (fun b hb => (allowed_bytes b hb).1) allowed_no_RuneError _ h
    have h3 := (allowed_bytes _ h2).2.2.2
    rw [(Go.ByteString.AppendRune_ascii c.toNat h1).2, Char.ofNat_toNat] at h3
    exact h3
  · intro h
    exact (ContainsRune_of_allowed c ((allowedRune_iff c).mp h)).1

/-- One step of the loop of `sanitizeFilename` on the encoding of a character. -/
theorem sanitizeRunes_AppendRune (c : Char) (rest : List Go.ByteString.Byte) :
    ByteString.sanitizeRunes 0 (Go.ByteString.AppendRune c.toNat ++ rest) =
      Go.ByteString.AppendRune (if allowedRune c = true then c else '_').toNat ++
        ByteString.sanitizeRunes 0 rest := by
  have hd := Go.ByteString.DecodeRuneInString_AppendRune c.toNat
    (Go.ByteString.char_range c) rest
  cases hA : Go.ByteString.AppendRune c.toNat with
  | nil => exact absurd hA (Go.ByteString.AppendRune_ne_nil _)
  | cons b tl =>
    rw [hA] at hd
    simp only [List.cons_append] at hd ⊢
    simp only [ByteString.sanitizeRunes, hd, List.length_cons, Nat.add_sub_cancel]
    rw [sanitizeRunes_skip, ContainsRune_allowed]
    by_cases h : allowedRune c = true
    · rw [if_pos h, if_pos h, hA]
    · rw [if_neg h, if_neg h]
      rfl

/-- The loop of `sanitizeFilename` on the bytes of a text keeps the characters of `allowed`
and writes an underscore for every other character. -/
theorem sanitizeRunes_ofString (l : List Char) :
    ByteString.sanitizeRunes 0 (Go.ByteString.ofString ⟨l⟩) =
      Go.ByteString.ofString ⟨l.map (fun r => if allowedRune r = true then r else '_')⟩ := by
  induction l with
  | nil => rfl
  | cons c t ih =>
    rw [Go.ByteString.ofString_cons, sanitizeRunes_AppendRune, ih, List.map_cons,
      Go.ByteString.ofString_cons]

/-- A text of kept characters has one byte per character. -/
theorem ofString_allowed (m : List Char) (h : ∀ c ∈ m, allowedRune c = true) :
    Go.ByteString.ofString ⟨m⟩ = m.map (fun c => Go.ByteString.byte c.toNat) := by
  induction m with
  | nil => rfl
  | cons c t ih =>
    have hc := (ContainsRune_of_allowed c
      ((allowedRune_iff c).mp (h c (List.mem_cons_self c t)))).2
    rw [Go.ByteString.ofString_cons, (Go.ByteString.AppendRune_ascii c.toNat hc).1,
      ih (fun d hd => h d (List.mem_cons_of_mem c hd))]
    rfl

/-- Go `sanitizeFilename` on the bytes of a text returns the bytes of what `sanitizeFilename`
on texts returns: on UTF-8 input the two agree. -/
theorem sanitizeFilename_ofString (t : String) :
    ByteString.sanitizeFilename (Go.ByteString.ofString t) =
      Go.ByteString.ofString (sanitizeFilename t) := by
  have hmap : ∀ l : List Char,
      ∀ c ∈ l.map (fun r => if allowedRune r = true then r else '_'), allowedRune c = true := by
    intro l c hc
    obtain ⟨r, -, hr⟩ := List.mem_map.mp hc
    by_cases ha : allowedRune r = true
    · rw [if_pos ha] at hr; subst hr; exact ha
    · rw [if_neg ha] at hr; subst hr; decide
  have ht : t = ⟨t.data⟩ := rfl
  unfold ByteString.sanitizeFilename sanitizeFilename
  simp only []
  rw [ht, Go.ByteString.TrimSpace_ofString]
  have e1 : Go.ByteString.ofString (TrimSpace ⟨t.data⟩) =
      Go.ByteString.ofString ⟨(TrimSpace ⟨t.data⟩).data⟩ := rfl
  rw [e1, Go.ByteString.replaceSpaces_ofString,
    Go.ByteString.replaceDotDot_ofString _ _ (le_refl _), sanitizeRunes_ofString]
  generalize hm : (replaceDotDot (replaceSpaces (TrimSpace ⟨t.data⟩).data)).map
    (fun r => if allowedRune r = true then r else '_') = m
  have hal : ∀ c ∈ m, allowedRune c = true := by
    rw [← hm]
    exact hmap _
  have hlen : (Go.ByteString.ofString ⟨m⟩).length = m.length := by
    rw [ofString_allowed m hal, List.length_map]
  by_cases h0 : m = []
  · subst h0
    rw [if_pos Go.ByteString.ofString_nil]
    rfl
  · have h0b : Go.ByteString.ofString ⟨m⟩ ≠ [] := by
      intro hh
      apply h0
      apply List.length_eq_zero.1
      rw [← hlen, hh]
      rfl
    rw [if_neg h0b, if_neg h0, hlen]
    by_cases h1 : m.length > 100
    · rw [if_pos h1, if_pos h1, ofString_allowed m hal,
        ofString_allowed (m.take 100) (fun c hc => hal c (List.mem_of_mem_take hc)),
        List.map_take]
    · rw [if_neg h1, if_neg h1]

end Handlers

namespace Handlers

open Go Entities DocumentsUC Fixture

/-- C29: for every Go string `x`, that is for every sequence of bytes, UTF-8 or not,
`sanitizeFilename x` is the encoding of a text `s` that is not empty, is at most 100 bytes
long and consists only of characters of `a-z`, `A-Z`, `0-9`, `-`, `_`, `.`; `NewFilename`
accepts `s` and returns it unchanged; so whenever `CreateDocumentUseCase.Execute` aborts on
an input whose file name came from `sanitizeFilename`, the abort comes from one of the other
`MustNew` constructors (document type, URL or extension), never from `MustNewFilename`. The
same holds for `sanitizeFilename` as the handlers above apply it to a text `t`, and on the
bytes of a text the function on bytes returns the bytes of what the function on texts
returns. -/
theorem sanitizeFilename_valid (x : List Go.ByteString.Byte) (t : String) :
    (∃ s : String,
      ByteString.sanitizeFilename x = Go.ByteString.ofString s ∧
      s ≠ "" ∧
      (ByteString.sanitizeFilename x).length ≤ 100 ∧
      s.utf8ByteSize = (ByteString.sanitizeFilename x).length ∧
      (∀ c ∈ s.data,
        c ∈ "abcdefghijklmnopqrstuvwxyzABCDEFGHIJKLMNOPQRSTUVWXYZ0123456789-_.".data) ∧
      Vos.NewFilename s = .ok s ∧
      ∀ (p : String → Option String) (fault : Option Err) (newID : String) (t : Instant)
        (input : CreateDocumentInput) (w : World) (e : Err),
        input.FileName = s →
        (∃ w1, CreateDocumentUseCase.Execute p fault newID t input w = (w1, .panic e)) →
        Vos.NewDocumentType input.Type_ = .error e ∨
          Vos.NewDocumentURL p input.FileURL = .error e ∨
          Vos.NewFileExtension input.Extension = .error e) ∧
    ByteString.sanitizeFilename (Go.ByteString.ofString t) =
      Go.ByteString.ofString (sanitizeFilename t) ∧
    sanitizeFilename t ≠ "" ∧
    (sanitizeFilename t).utf8ByteSize ≤ 100 ∧
    (∀ c ∈ (sanitizeFilename t).data,
      c ∈ "abcdefghijklmnopqrstuvwxyzABCDEFGHIJKLMNOPQRSTUVWXYZ0123456789-_.".data) ∧
    Vos.NewFilename (sanitizeFilename t) = .ok (sanitizeFilename t) ∧
    ∀ (p : String → Option String) (fault : Option Err) (newID : String) (t1 : Instant)
      (input : CreateDocumentInput) (w : World) (e : Err),
      input.FileName = sanitizeFilename t →
      (∃ w1, CreateDocumentUseCase.Execute p fault newID t1 input w = (w1, .panic e)) →
      Vos.NewDocumentType input.Type_ = .error e ∨
        Vos.NewDocumentURL p input.FileURL = .error e ∨
        Vos.NewFileExtension input.Extension = .error e := by
  have hal : ∀ c ∈ ((ByteString.sanitizeFilename x).map (fun b => Char.ofNat b.val)),
      allowedRune c = true := by
    intro c hc
    obtain ⟨b, hb, hbc⟩ := List.mem_map.1 hc
    rw [← hbc]
    exact (allowed_bytes b (sanitizeFilename_bytes_allowed x b hb)).2.2.2
  have hnf : Vos.NewFilename ⟨(ByteString.sanitizeFilename x).map (fun b => Char.ofNat b.val)⟩ =
      .ok ⟨(ByteString.sanitizeFilename x).map (fun b => Char.ofNat b.val)⟩ :=
    NewFilename_of_allowed _
      (by simpa using sanitizeFilename_bytes_ne_nil x)
      (by simpa using sanitizeFilename_bytes_length x) hal
  refine ⟨⟨⟨(ByteString.sanitizeFilename x).map (fun b => Char.ofNat b.val)⟩,
    (ofString_of_allowed _ (sanitizeFilename_bytes_allowed x)).symm, ?_,
    sanitizeFilename_bytes_length x, ?_, ?_, hnf, ?_⟩, sanitizeFilename_ofString t,
    fun h => sanitizeFilename_ne_nil t (by rw [h]), ?_, ?_,
    NewFilename_sanitizeFilename t, ?_⟩
  · intro h
    have := congrArg String.data h
    exact sanitizeFilename_bytes_ne_nil x (by simpa using this)
  · have h := utf8ByteSize_go_eq_length _ (fun c hc => (allowedRune_props c (hal c hc)).2.1)
    simpa [String.utf8ByteSize] using h
  · intro c hc
    exact (allowedRune_iff c).mp (hal c hc)
  · intro p fault newID t1 input w e hname h
    exact Execute_panic_origin _ hnf p fault newID t1 input w e hname h
  · rw [sanitizeFilename_utf8ByteSize]; exact sanitizeFilename_length t
  · intro c hc
    exact (allowedRune_iff c).mp (sanitizeFilename_allowed t c hc)
  · intro p fault newID t1 input w e hname h
    exact Execute_panic_origin _ (NewFilename_sanitizeFilename t) p fault newID t1 input w e
      hname h

end Handlers


/-! ## The persisted key under the adapter's sanitization -/

namespace Go

/-- An element that `path.Clean` keeps as it is goes on top of the kept ones. -/
theorem cleanStep_normal (rooted : Bool) (acc : List (List Char)) (seg : List Char)
    (h1 : seg ≠ []) (h2 : seg ≠ ['.']) (h3 : seg ≠ ['.', '.']) :
    cleanStep rooted acc seg = seg :: acc := by
  unfold cleanStep
  rw [if_neg (by simp [h1, h2]), if_neg h3]

/-- Go `path.Clean` returns a path of three elements, none of them empty, `.` or `..`, as it
is. -/
theorem Clean_three (a b c : List Char)
    (ha : a ≠ [] ∧ a ≠ ['.'] ∧ a ≠ ['.', '.'] ∧ '/' ∉ a)
    (hb : b ≠ [] ∧ b ≠ ['.'] ∧ b ≠ ['.', '.'] ∧ '/' ∉ b)
    (hc : c ≠ [] ∧ c ≠ ['.'] ∧ c ≠ ['.', '.'] ∧ '/' ∉ c) :
    Clean ⟨a ++ '/' :: (b ++ '/' :: c)⟩ = ⟨a ++ '/' :: (b ++ '/' :: c)⟩ := by
  unfold Clean
  have hne : a ++ '/' :: (b ++ '/' :: c) ≠ [] := by simp
  have hsplit : splitSlash (a ++ '/' :: (b ++ '/' :: c)) = [a, b, c] := by
    rw [splitSlash_append_slash a _ ha.2.2.2, splitSlash_append_slash b _ hb.2.2.2,
      splitSlash_of_no_slash c hc.2.2.2]
  have hroot : ((a ++ '/' :: (b ++ '/' :: c)).head? == some '/') = false := by
    obtain ⟨x, t, rfl⟩ := List.exists_cons_of_ne_nil ha.1
    have hx : x ≠ '/' := fun h => ha.2.2.2 (by simp [h])
    simp [hx]
  simp only [hne, if_false, hsplit, hroot, List.foldl_cons, List.foldl_nil,
    cleanStep_normal _ _ a ha.1 ha.2.1 ha.2.2.1, cleanStep_normal _ _ b hb.1 hb.2.1 hb.2.2.1,
    cleanStep_normal _ _ c hc.1 hc.2.1 hc.2.2.1, Bool.false_eq_true]
  have hi : List.intercalate ['/'] [c, b, a].reverse = a ++ '/' :: (b ++ '/' :: c) := by
    simp [List.intercalate, List.intersperse]
  rw [hi, if_neg hne]

end Go

namespace Handlers

open Go Entities DocumentsUC Fixture S3Storage

theorem digit_allowed (n : Nat) : allowedRune (digit n) = true := by
  unfold digit
  have h : n % 10 < 10 := Nat.mod_lt _ (by decide)
  generalize n % 10 = k at h
  interval_cases k <;> decide

theorem Format_allowed (t : Instant) : ∀ c ∈ t.Format.data, allowedRune c = true := by
  intro c hc
  simp only [Instant.Format, pad2, List.mem_append, List.mem_cons, List.mem_singleton,
    List.not_mem_nil, or_false, List.cons_append, List.nil_append] at hc
  rcases hc with h | h | h | h | h | h | h | h | h | h | h | h | h | h | h | h <;> subst h <;>
    first | exact digit_allowed _ | decide

theorem isLowerHex_allowed (c : Char) (h : isLowerHex c = true) : allowedRune c = true := by
  simp only [isLowerHex, Bool.or_eq_true, Bool.and_eq_true, decide_eq_true_eq] at h
  rcases h with h | ⟨h1, h2⟩
  · simp [allowedRune, Char.isAlphanum, h]
  · have a1 : 97 ≤ c.toNat := h1
    have a2 : c.toNat ≤ 102 := h2
    have hc : c = Char.ofNat c.toNat := (Char.ofNat_toNat c).symm
    rw [hc]
    generalize c.toNat = n at a1 a2
    interval_cases n <;> decide

/-- The text of a UUID has 36 characters, all of them kept by `sanitizeFilename`. -/
theorem isUUIDString_spec (s : String) (h : isUUIDString s = true) :
    s.data.length = 36 ∧ ∀ c ∈ s.data, allowedRune c = true := by
  simp only [isUUIDString, Bool.and_eq_true, beq_iff_eq, List.all_eq_true, List.mem_range] at h
  obtain ⟨hlen, hall⟩ := h
  refine ⟨hlen, ?_⟩
  intro c hc
  obtain ⟨i, hi, hget⟩ := List.getElem_of_mem hc
  have hi36 : i < 36 := hlen ▸ hi
  have hgd : s.data.getD i ' ' = c := by
    rw [List.getD_eq_getElem _ _ hi]; exact hget
  have := hall i hi36
  rw [hgd] at this
  split at this
  · have hcd : c = '-' := by simpa using this
    subst hcd; decide
  · exact isLowerHex_allowed c this

/-- Go `sanitizeKey` returns a key of three elements as it is when every character is a
letter, a digit, `-`, `_` or `.`, and no element is empty, `.` or `..`. -/
theorem sanitizeKey_three (a b c : List Char)
    (ha : a ≠ [] ∧ a ≠ ['.'] ∧ a ≠ ['.', '.'] ∧ ∀ x ∈ a, allowedRune x = true)
    (hb : b ≠ [] ∧ b ≠ ['.'] ∧ b ≠ ['.', '.'] ∧ ∀ x ∈ b, allowedRune x = true)
    (hc : c ≠ [] ∧ c ≠ ['.'] ∧ c ≠ ['.', '.'] ∧ ∀ x ∈ c, allowedRune x = true)
    (hdot : a.head? ≠ some '.') :
    sanitizeKey ⟨a ++ '/' :: (b ++ '/' :: c)⟩ = ⟨a ++ '/' :: (b ++ '/' :: c)⟩ := by
  have noslash : ∀ l : List Char, (∀ x ∈ l, allowedRune x = true) → '/' ∉ l :=
    fun l hl hm => (allowedRune_props _ (hl _ hm)).2.2.2.1 rfl
  obtain ⟨x, t, rfl⟩ := List.exists_cons_of_ne_nil ha.1
  have hx := allowedRune_props x (ha.2.2.2 x (List.mem_cons_self x t))
  have hlast : ∀ y, (x :: t ++ '/' :: (b ++ '/' :: c)).getLast? = some y → isSpace y = false := by
    intro y hy
    have hmem : y ∈ c := by
      have e1 : x :: t ++ '/' :: (b ++ '/' :: c) = (x :: t ++ '/' :: (b ++ ['/'])) ++ c := by simp
      rw [e1, List.getLast?_append_of_ne_nil _ hc.1] at hy
      exact List.mem_of_mem_getLast? hy
    exact (allowedRune_props y (hc.2.2.2 y hmem)).1
  have h1 : TrimSpace ⟨x :: t ++ '/' :: (b ++ '/' :: c)⟩ = ⟨x :: t ++ '/' :: (b ++ '/' :: c)⟩ := by
    apply TrimSpace_eq_self
    · intro y hy
      simp only [List.cons_append, List.head?_cons, Option.some.injEq] at hy
      subst hy; exact hx.1
    · exact hlast
  have h2 : TrimLeftSlash ⟨x :: t ++ '/' :: (b ++ '/' :: c)⟩ =
      ⟨x :: t ++ '/' :: (b ++ '/' :: c)⟩ := by
    unfold TrimLeftSlash
    congr 1
    apply dropWhile_eq_self_of_head
    intro y hy
    simp only [List.cons_append, List.head?_cons, Option.some.injEq] at hy
    subst hy
    simp [hx.2.2.2.1]
  have h3 : replaceBackslash ⟨x :: t ++ '/' :: (b ++ '/' :: c)⟩ =
      ⟨x :: t ++ '/' :: (b ++ '/' :: c)⟩ := by
    unfold replaceBackslash
    congr 1
    have hid : ∀ l : List Char, (∀ y ∈ l, y ≠ Char.ofNat 92) →
        l.map (fun c => if c == Char.ofNat 92 then '/' else c) = l := by
      intro l hl
      induction l with
      | nil => rfl
      | cons y l ih =>
        have hy : y ≠ Char.ofNat 92 := hl y (List.mem_cons_self y l)
        rw [List.map_cons, ih (fun z hz => hl z (List.mem_cons_of_mem y hz))]
        simp [hy]
    apply hid
    intro y hy
    simp only [List.cons_append, List.mem_cons, List.mem_append] at hy
    rcases hy with h | h | h | h | h | h
    · subst h; exact hx.2.2.2.2
    · exact (allowedRune_props y (ha.2.2.2 y (List.mem_cons_of_mem x h))).2.2.2.2
    · subst h; decide
    · exact (allowedRune_props y (hb.2.2.2 y h)).2.2.2.2
    · subst h; decide
    · exact (allowedRune_props y (hc.2.2.2 y h)).2.2.2.2
  have h4 := Clean_three (x :: t) b c ⟨ha.1, ha.2.1, ha.2.2.1, noslash _ ha.2.2.2⟩
    ⟨hb.1, hb.2.1, hb.2.2.1, noslash _ hb.2.2.2⟩ ⟨hc.1, hc.2.1, hc.2.2.1, noslash _ hc.2.2.2⟩
  unfold sanitizeKey
  simp only [h1, h2, h3, h4]
  have hxd : x ≠ '.' := fun h => hdot (by simp [h])
  rw [if_neg]
  rintro (h | h | h)
  · have h5 : x :: (t ++ '/' :: (b ++ '/' :: c)) = ['.'] := congrArg String.data h
    exact hxd (List.cons.inj h5).1
  · have h5 : x :: (t ++ '/' :: (b ++ '/' :: c)) = ['.', '.'] := congrArg String.data h
    exact hxd (List.cons.inj h5).1
  · have h5 : (['.', '.', '/'] : List Char).isPrefixOf (x :: (t ++ '/' :: (b ++ '/' :: c))) =
        true := h
    simp only [List.isPrefixOf, Bool.and_eq_true, beq_iff_eq] at h5
    exact hxd h5.1.symm

end Handlers

namespace Handlers

open Go Entities DocumentsUC Fixture S3Storage

/-- C30: for every owner type that is a valid `DocumentOwnerType` once lower-cased, every
owner id in the text form of a UUID, every file name whose lower-cased extension is
allow-listed, and every instant, `sanitizeKey` returns the key built by `buildObjectKey`
unchanged: the key stored in the row is the key the S3 adapter uses. -/
theorem sanitizeKey_buildObjectKey (now : Instant) (ownerType ownerID filename : String)
    (hot : Vos.DocumentOwnerType.IsValid (ToLower ownerType) = true)
    (hid : isUUIDString ownerID = true)
    (hext : NewDocumentHandler.AllowedExts.contains (ToLower (Ext filename)) = true) :
    sanitizeKey (buildObjectKey now ownerType ownerID filename) =
      buildObjectKey now ownerType ownerID filename := by
  have hk : buildObjectKey now ownerType ownerID filename =
      ⟨(ToLower ownerType).data ++ '/' :: (ownerID.data ++ '/' ::
        ((sanitizeFilename (TrimSuffix filename (Ext filename))).data ++ '_' ::
          (now.Format.data ++ (ToLower (Ext filename)).data)))⟩ :=
    String.ext (buildObjectKey_data now ownerType ownerID filename)
  rw [hk]
  have ha : (ToLower ownerType).data ≠ [] ∧ (ToLower ownerType).data ≠ ['.'] ∧
      (ToLower ownerType).data ≠ ['.', '.'] ∧
      (∀ x ∈ (ToLower ownerType).data, allowedRune x = true) ∧
      (ToLower ownerType).data.head? ≠ some '.' := by
    simp only [Vos.DocumentOwnerType.IsValid, Bool.or_eq_true, beq_iff_eq] at hot
    rcases hot with h | h <;> rw [h] <;> decide
  obtain ⟨hlen, hb⟩ := isUUIDString_spec ownerID hid
  have hextc : ∀ x ∈ (ToLower (Ext filename)).data, allowedRune x = true := by
    simp only [NewDocumentHandler, List.contains_eq_any_beq, List.any_cons, List.any_nil,
      Bool.or_false, Bool.or_eq_true, beq_iff_eq] at hext
    rcases hext with h | h | h | h <;> rw [h] <;> decide
  have hclen : 2 ≤ ((sanitizeFilename (TrimSuffix filename (Ext filename))).data ++ '_' ::
      (now.Format.data ++ (ToLower (Ext filename)).data)).length := by
    simp only [List.length_append, List.length_cons, Format_length]
    omega
  refine sanitizeKey_three _ _ _ ⟨ha.1, ha.2.1, ha.2.2.1, ha.2.2.2.1⟩
    ⟨?_, ?_, ?_, hb⟩ ⟨?_, ?_, ?_, ?_⟩ ha.2.2.2.2
  · intro h; rw [h] at hlen; simp at hlen
  · intro h; rw [h] at hlen; simp at hlen
  · intro h; rw [h] at hlen; simp at hlen
  · intro h; rw [h] at hclen; simp at hclen
  · intro h; rw [h] at hclen; simp at hclen
  · intro h
    have h0 := congrArg (fun l => decide ('_' ∈ l)) h
    simp at h0
  · intro x hx
    simp only [List.mem_append, List.mem_cons] at hx
    rcases hx with h | h | h | h
    · exact sanitizeFilename_allowed _ x h
    · subst h; decide
    · exact Format_allowed now x h
    · exact hextc x h

/-- C30 on an example: owner type `Employee`, file `My Scan..JPEG`. -/
theorem sanitizeKey_buildObjectKey_witness :
    buildObjectKey t0 "Employee" ownerE1 "My Scan..JPEG" =
      "employee/11111111-1111-4111-8111-111111111111/My_Scan._20250314T092653Z.jpeg" ∧
    sanitizeKey (buildObjectKey t0 "Employee" ownerE1 "My Scan..JPEG") =
      buildObjectKey t0 "Employee" ownerE1 "My Scan..JPEG" :=
  ⟨by decide,
    sanitizeKey_buildObjectKey t0 "Employee" ownerE1 "My Scan..JPEG" (by decide) (by decide)
      (by decide)⟩

end Handlers

/-! ## Replacing the file of a record whose old blob is missing -/

namespace Handlers

open Go Entities DocumentsUC Fixture

/-- Go `strings.TrimSpace` keeps the storage key of a valid owner type and a file name with
an allow-listed extension. -/
theorem TrimSpace_buildObjectKey (now : Instant) (ownerType ownerID filename : String)
    (hot : Vos.DocumentOwnerType.IsValid (ToLower ownerType) = true)
    (hext : NewDocumentHandler.AllowedExts.contains (ToLower (Ext filename)) = true) :
    TrimSpace (buildObjectKey now ownerType ownerID filename) =
      buildObjectKey now ownerType ownerID filename := by
  have hk := buildObjectKey_data now ownerType ownerID filename
  apply TrimSpace_eq_self
  · intro c hc
    rw [hk] at hc
    simp only [Vos.DocumentOwnerType.IsValid, Bool.or_eq_true, beq_iff_eq] at hot
    rcases hot with h | h <;> rw [h] at hc <;>
      simp only [List.cons_append, List.head?_cons, Option.some.injEq] at hc <;>
      subst hc <;> decide
  · intro c hc
    rw [hk] at hc
    simp only [NewDocumentHandler, List.contains_eq_any_beq, List.any_cons, List.any_nil,
      Bool.or_false, Bool.or_eq_true, beq_iff_eq] at hext
    have hlast : ∀ (pre e : List Char), e ≠ [] → (pre ++ e).getLast? = e.getLast? :=
      fun pre e he => List.getLast?_append_of_ne_nil pre he
    have e1 : (ToLower ownerType).data ++ '/' :: (ownerID.data ++ '/' ::
        ((sanitizeFilename (TrimSuffix filename (Ext filename))).data ++ '_' ::
          (now.Format.data ++ (ToLower (Ext filename)).data))) =
        ((ToLower ownerType).data ++ '/' :: (ownerID.data ++ '/' ::
        ((sanitizeFilename (TrimSuffix filename (Ext filename))).data ++ '_' ::
          now.Format.data))) ++ (ToLower (Ext filename)).data := by simp
    rw [e1] at hc
    rcases hext with h | h | h | h <;> rw [h] at hc <;>
      rw [hlast _ _ (by decide)] at hc <;>
      simp only [String.data, List.getLast?] at hc <;>
      (have hc2 := Option.some.inj hc; subst hc2; decide)

/-- The lower-cased extensions the handler allows give, without their dot, extensions that
`NewFileExtension` accepts. -/
theorem NewFileExtension_allowed (ext : String)
    (hext : NewDocumentHandler.AllowedExts.contains ext = true) :
    TrimPrefix ext "." ≠ "" ∧ ∃ x, Vos.NewFileExtension (TrimPrefix ext ".") = .ok x := by
  simp only [NewDocumentHandler, List.contains_eq_any_beq, List.any_cons, List.any_nil,
    Bool.or_false, Bool.or_eq_true, beq_iff_eq] at hext
  rcases hext with h | h | h | h <;> subst h <;> exact ⟨by decide, _, rfl⟩

end Handlers

namespace Handlers

open Go Entities DocumentsUC Fixture

/-- Go `ApplyUpdateToDocument` accepts the update `ReplaceFile` builds when the URL of the
new key parses: the updated row keeps its id and points at the new key. -/
theorem ApplyUpdate_replace (p : String → Option String) (now : Instant) (doc : Document)
    (filename ext newKey newURL u : String)
    (hext : NewDocumentHandler.AllowedExts.contains ext = true)
    (hurl : p (TrimSpace newURL) = some u)
    (hkey : TrimSpace newKey = newKey) (hne : newKey ≠ "") :
    ∃ updated, ApplyUpdateToDocument p now doc
        { Name := sanitizeFilename filename, FileURL := newURL,
          Extension := TrimPrefix ext ".", ObjectKey := newKey } = .ok updated ∧
      updated.ID = doc.ID ∧ updated.ObjectKey = newKey := by
  obtain ⟨hx0, x, hx⟩ := NewFileExtension_allowed ext hext
  have hname : sanitizeFilename filename ≠ "" := fun h =>
    sanitizeFilename_ne_nil filename (by rw [h])
  unfold ApplyUpdateToDocument
  simp only [ne_eq, hname, not_false_eq_true, if_true, NewFilename_sanitizeFilename, hx0, hx,
    hne, hkey, Vos.NewDocumentURL, hurl]
  by_cases h0 : newURL = ""
  · simp only [h0, not_true_eq_false, if_false]
    exact ⟨_, rfl, rfl, rfl⟩
  · simp only [h0, not_false_eq_true, if_true]
    exact ⟨_, rfl, rfl, rfl⟩

end Handlers

namespace Handlers

open Go Entities DocumentsUC Fixture

/-- Outside the second of the old key: `ReplaceFile` on a record whose old key holds no blob
when `backupObject` asks
(it held none before the call and is not the key the new file was just saved under, and the
`Exists` call does not fail). The row is found under its own id, its owner type is valid,
and the new file passes the checks of the handler; `Save` of the new key and the update of
the row succeed (the URL of the new key parses). Then the handler answers `200` with the
updated row, without a panic; that row is the one stored, it points at the new key, the new
content is the blob under the new key, and the only `Save` of the call is the one of the new
key: no trash key is written. -/
theorem ReplaceFile_missing_old_blob (env : Env) (f : ReplaceFaults) (now : Instant)
    (trashID rawID id : String) (fl : UploadedFile) (w : World) (doc : Document) (u : String)
    (hid : env.Parse rawID = some id) (hfind : f.find = none)
    (hrow : w.rows id = some doc) (hdoc : doc.ID = id)
    (howner : Vos.DocumentOwnerType.IsValid (ToLower doc.OwnerType) = true)
    (hsize : 0 < fl.header.Size)
    (hext : NewDocumentHandler.AllowedExts.contains (ToLower (Ext fl.header.Filename)) = true)
    (hread : fl.seeker = true ∨ f.read = none)
    (htype : NewDocumentHandler.AllowedTypes.contains
      (env.DetectContentType (fl.content.take 512)) = true)
    (hmd5 : f.md5copy = none) (hsave : f.save = none)
    (hexists : f.backup.exists_ = none)
    (hold : w.blobs doc.ObjectKey = none)
    (hne : buildObjectKey now doc.OwnerType doc.OwnerID fl.header.Filename ≠ doc.ObjectKey)
    (hucfind : f.ucFind = none) (hupdate : f.update = none)
    (hurl : env.ParseRequestURI
      (TrimSpace (env.URL (buildObjectKey now doc.OwnerType doc.OwnerID fl.header.Filename))) =
        some u) :
    ∃ updated,
      (NewDocumentHandler.ReplaceFile env f now trashID rawID (some fl) w).resp =
        some (.Document 200 updated) ∧
      (NewDocumentHandler.ReplaceFile env f now trashID rawID (some fl) w).aborted = false ∧
      updated.ObjectKey = buildObjectKey now doc.OwnerType doc.OwnerID fl.header.Filename ∧
      (NewDocumentHandler.ReplaceFile env f now trashID rawID (some fl) w).world.rows id =
        some updated ∧
      (NewDocumentHandler.ReplaceFile env f now trashID rawID (some fl) w).world.blobs
        (buildObjectKey now doc.OwnerType doc.OwnerID fl.header.Filename) = some fl.content ∧
      ∀ k, Call.Save k ∈
          (NewDocumentHandler.ReplaceFile env f now trashID rawID (some fl) w).world.log →
        Call.Save k ∈ w.log ∨
          k = buildObjectKey now doc.OwnerType doc.OwnerID fl.header.Filename := by
  have hsn : sniffAndReset env f.read fl =
      .ok (env.DetectContentType (fl.content.take 512), fl.content) := by
    unfold sniffAndReset
    rcases hread with h | h
    · simp [h]
    · cases hs : fl.seeker <;> simp [h, List.take_append_drop]
  have hkey := TrimSpace_buildObjectKey now doc.OwnerType doc.OwnerID fl.header.Filename
    howner hext
  have hne0 : buildObjectKey now doc.OwnerType doc.OwnerID fl.header.Filename ≠ "" := by
    intro h
    have := congrArg String.data h
    rw [buildObjectKey_data] at this
    simp at this
  obtain ⟨updated, hupd, hid2, hkey2⟩ := ApplyUpdate_replace env.ParseRequestURI now doc
    fl.header.Filename (ToLower (Ext fl.header.Filename))
    (buildObjectKey now doc.OwnerType doc.OwnerID fl.header.Filename)
    (env.URL (buildObjectKey now doc.OwnerType doc.OwnerID fl.header.Filename)) u hext hurl
    hkey hne0
  have hcheck1 : (!NewDocumentHandler.AllowedExts.isEmpty &&
      !NewDocumentHandler.AllowedExts.contains (ToLower (Ext fl.header.Filename))) = false := by
    rw [hext]; rfl
  have hcheck2 : (!NewDocumentHandler.AllowedTypes.isEmpty &&
      !NewDocumentHandler.AllowedTypes.contains
        (env.DetectContentType (fl.content.take 512))) = false := by
    rw [htype]; rfl
  generalize hK : buildObjectKey now doc.OwnerType doc.OwnerID fl.header.Filename = newKey at *
  refine ⟨{ updated with UploadedAt := now }, ?_⟩
  unfold DocumentHandler.ReplaceFile
  simp only [hid]
  unfold DocumentHandler.replaceLocked FindDocumentByIDUseCase.Execute World.FindByID
  simp only [hfind, World.call, hrow, not_le.mpr hsize, if_false, hcheck1, hsn, hcheck2,
    computeMD5AndSize, hmd5, World.Save, hsave, hK, Bool.false_eq_true]
  unfold DocumentHandler.backupObject World.Exists
  simp only [hexists, World.call, Function.update_noteq (Ne.symm hne), hold, Option.isSome_none]
  have hid3 : updated.ID = id := hid2.trans hdoc
  simp only [Bool.false_eq_true, if_false]
  unfold DocumentHandler.replaceBody UpdateDocumentUseCase.Execute World.FindByID World.Update
  simp only [hucfind, hupdate, World.call, hdoc, hrow, hupd, hid3]
  cases f.deleteOld <;>
    simp [deferCleanup, Cleanup.run, deferUnlock, World.Delete, World.call, hkey2, hid3,
      Function.update, hne]

/-- The run in which the row of `docD1` exists, its blob is missing, and `id.pdf` is
replaced half a minute after the old key was derived. -/
theorem ReplaceFile_missing_old_blob_witness :
    ((⟨fun _ => none, worldD1.rows, []⟩ : World).blobs rowD1.ObjectKey = none ∧
      buildObjectKey ⟨2025, 3, 14, 9, 30, 0⟩ rowD1.OwnerType rowD1.OwnerID "id.pdf" ≠
        rowD1.ObjectKey) ∧
    ∃ updated,
      (NewDocumentHandler.ReplaceFile env noReplaceFaults ⟨2025, 3, 14, 9, 30, 0⟩ trashT1 docD1
        (some (idPdf pdfBytes2)) ⟨fun _ => none, worldD1.rows, []⟩).resp =
        some (.Document 200 updated) ∧
      (NewDocumentHandler.ReplaceFile env noReplaceFaults ⟨2025, 3, 14, 9, 30, 0⟩ trashT1 docD1
        (some (idPdf pdfBytes2)) ⟨fun _ => none, worldD1.rows, []⟩).aborted = false ∧
      updated.ObjectKey =
        buildObjectKey ⟨2025, 3, 14, 9, 30, 0⟩ rowD1.OwnerType rowD1.OwnerID
          (idPdf pdfBytes2).header.Filename ∧
      (NewDocumentHandler.ReplaceFile env noReplaceFaults ⟨2025, 3, 14, 9, 30, 0⟩ trashT1 docD1
        (some (idPdf pdfBytes2)) ⟨fun _ => none, worldD1.rows, []⟩).world.rows docD1 =
        some updated ∧
      (NewDocumentHandler.ReplaceFile env noReplaceFaults ⟨2025, 3, 14, 9, 30, 0⟩ trashT1 docD1
        (some (idPdf pdfBytes2)) ⟨fun _ => none, worldD1.rows, []⟩).world.blobs
        (buildObjectKey ⟨2025, 3, 14, 9, 30, 0⟩ rowD1.OwnerType rowD1.OwnerID
          (idPdf pdfBytes2).header.Filename) = some (idPdf pdfBytes2).content ∧
      ∀ k, Call.Save k ∈
          (NewDocumentHandler.ReplaceFile env noReplaceFaults ⟨2025, 3, 14, 9, 30, 0⟩ trashT1
            docD1 (some (idPdf pdfBytes2)) ⟨fun _ => none, worldD1.rows, []⟩).world.log →
        Call.Save k ∈ (⟨fun _ => none, worldD1.rows, []⟩ : World).log ∨
          k = buildObjectKey ⟨2025, 3, 14, 9, 30, 0⟩ rowD1.OwnerType rowD1.OwnerID
            (idPdf pdfBytes2).header.Filename :=
  ⟨by decide,
    ReplaceFile_missing_old_blob env noReplaceFaults ⟨2025, 3, 14, 9, 30, 0⟩ trashT1 docD1 docD1
      (idPdf pdfBytes2) ⟨fun _ => none, worldD1.rows, []⟩ rowD1
      "s3://docs/employee/11111111-1111-4111-8111-111111111111/id_20250314T093000Z.pdf"
      (by decide) rfl (by decide) rfl (by decide) (by decide) (by decide) (Or.inl rfl)
      (by decide) rfl rfl rfl (by decide) (by decide) rfl rfl (by decide)⟩

end Handlers

/-! ## Replace and delete on the paths the backup does not cover -/

namespace Handlers

open Go Entities DocumentsUC Fixture

/-- C25, the failing input: the row of `docD1` points at `keyK1`, which holds no blob, and
`id.pdf` is replaced in the second in which `keyK1` was derived, so that `buildObjectKey`
returns `keyK1` again. The new content is saved under the old key, `backupObject` finds it
there, and the backup does not degrade to a no-op: a trash key is written. The update
succeeds and `200` is answered with the row pointing at `keyK1`, but the final `Delete` of the
old key has removed the new content: nothing is readable there. -/
theorem ReplaceFile_missing_old_blob_same_second :
    (⟨fun _ => none, worldD1.rows, []⟩ : World).blobs rowD1.ObjectKey = none ∧
    buildObjectKey t0 rowD1.OwnerType rowD1.OwnerID "id.pdf" = rowD1.ObjectKey ∧
    (NewDocumentHandler.ReplaceFile env noReplaceFaults t0 trashT1 docD1
      (some (idPdf pdfBytes2)) ⟨fun _ => none, worldD1.rows, []⟩).resp =
      some (.Document 200 rowD1) ∧
    (NewDocumentHandler.ReplaceFile env noReplaceFaults t0 trashT1 docD1
      (some (idPdf pdfBytes2)) ⟨fun _ => none, worldD1.rows, []⟩).world.rows docD1 =
      some rowD1 ∧
    (NewDocumentHandler.ReplaceFile env noReplaceFaults t0 trashT1 docD1
      (some (idPdf pdfBytes2)) ⟨fun _ => none, worldD1.rows, []⟩).world.blobs keyK1 = none ∧
    ((NewDocumentHandler.ReplaceFile env noReplaceFaults t0 trashT1 docD1
      (some (idPdf pdfBytes2)) ⟨fun _ => none, worldD1.rows, []⟩).world.Exists none keyK1).2 =
      (false, none) ∧
    (NewDocumentHandler.ReplaceFile env noReplaceFaults t0 trashT1 docD1
      (some (idPdf pdfBytes2)) ⟨fun _ => none, worldD1.rows, []⟩).world.log =
      [.Lock "doc:id:22222222-2222-4222-8222-222222222222", .FindByID docD1, .Save keyK1,
        .Exists keyK1, .Open keyK1,
        .Save "trash/33333333-3333-4333-8333-333333333333_id_20250314T092653Z.pdf",
        .FindByID docD1, .Update docD1, .Delete keyK1,
        .Delete "trash/33333333-3333-4333-8333-333333333333_id_20250314T092653Z.pdf",
        .Delete "trash/33333333-3333-4333-8333-333333333333_id_20250314T092653Z.pdf",
        .Unlock "doc:id:22222222-2222-4222-8222-222222222222"] := by
  decide

/-- C26, the failing input: row and blob of `docD1` exist, the `Exists` call inside
`backupObject` fails with an error whose text holds `NoSuchKey`, and `Storage.Delete` on the
primary key answers with a `NoSuchKey` error. The handler treats the failed removal as done
and removes the row, which succeeds; it then calls the nil `cleanup` that `backupObject`
returned with its error and ends in a panic, without the answer `204`. -/
theorem Delete_primary_missing_then_panics :
    worldD1.blobs rowD1.ObjectKey = some pdfBytes ∧
    isNoSuchKey (.msg "api error NoSuchKey: The specified key does not exist.") = true ∧
    (NewDocumentHandler.Delete env
      { noDeleteFaults with
        backup := { noBackupFaults with exists_ := some (.msg "api error NoSuchKey") },
        delete := some (.msg "api error NoSuchKey: The specified key does not exist.") }
      trashT1 docD1 worldD1).world.log =
      [.Lock "doc:id:22222222-2222-4222-8222-222222222222", .FindByID docD1, .Exists keyK1,
        .Exists keyK1, .Delete keyK1, .DeleteRow docD1,
        .Unlock "doc:id:22222222-2222-4222-8222-222222222222"] ∧
    (NewDocumentHandler.Delete env
      { noDeleteFaults with
        backup := { noBackupFaults with exists_ := some (.msg "api error NoSuchKey") },
        delete := some (.msg "api error NoSuchKey: The specified key does not exist.") }
      trashT1 docD1 worldD1).world.rows docD1 = none ∧
    (NewDocumentHandler.Delete env
      { noDeleteFaults with
        backup := { noBackupFaults with exists_ := some (.msg "api error NoSuchKey") },
        delete := some (.msg "api error NoSuchKey: The specified key does not exist.") }
      trashT1 docD1 worldD1).resp = none ∧
    (NewDocumentHandler.Delete env
      { noDeleteFaults with
        backup := { noBackupFaults with exists_ := some (.msg "api error NoSuchKey") },
        delete := some (.msg "api error NoSuchKey: The specified key does not exist.") }
      trashT1 docD1 worldD1).aborted = true := by
  decide

end Handlers

/-! ## The parts of a storage key -/

namespace Go

/-- Go `unicode.ToLower` on ASCII: `A`..`Z` move 32 places up, every other character stays. -/
theorem unicodeToLower_ascii (c : Char) (h : c.toNat < 128) :
    unicodeToLower c = if 65 ≤ c.toNat ∧ c.toNat ≤ 90 then Char.ofNat (c.toNat + 32) else c := by
  simp [unicodeToLower, h, Char.toLower]

theorem extRev_nil : ∀ (l acc : List Char), extRev l acc = [] →
    ∀ pre post, l = pre ++ post → '/' ∉ pre → '.' ∉ pre := by
  intro l
  induction l with
  | nil =>
    intro acc _ pre post hl _
    have : pre = [] := by
      cases pre with
      | nil => rfl
      | cons a t => cases hl
    rw [this]; simp
  | cons c rest ih =>
    intro acc h pre post hl hs
    cases pre with
    | nil => simp
    | cons a t =>
      simp only [List.cons_append, List.cons.injEq] at hl
      obtain ⟨hca, hrest⟩ := hl
      subst hca
      have h1 : c ≠ '/' := fun hh => hs (by simp [hh])
      unfold extRev at h
      by_cases h2 : c = '.'
      · subst h2
        simp at h
      · simp only [beq_iff_eq, h1, h2, if_false] at h
        have := ih (c :: acc) h t post hrest (fun hh => hs (List.mem_cons_of_mem _ hh))
        simp only [List.mem_cons, not_or]
        exact ⟨fun hh => h2 hh.symm, this⟩

/-- Go `filepath.Ext` is empty only when the last element of the path has no dot. -/
theorem Ext_nil (path : String) (h : (Ext path).data = []) :
    ∀ pre post, path.data = pre ++ post → '/' ∉ post → '.' ∉ post := by
  intro pre post hp hs
  have := extRev_nil path.data.reverse [] h post.reverse pre.reverse (by simp [hp])
    (by simpa using hs)
  simpa using this

theorem digit_isDigit (n : Nat) : (digit n).isDigit = true := by
  unfold digit
  have h : n % 10 < 10 := Nat.mod_lt _ (by decide)
  generalize n % 10 = k at h
  interval_cases k <;> decide

theorem replaceDotDot_eq_self : ∀ l : List Char,
    (∀ pre post, l ≠ pre ++ '.' :: '.' :: post) → replaceDotDot l = l := by
  intro l
  induction l with
  | nil => intro _; rfl
  | cons c rest ih =>
    intro h
    have hrest : replaceDotDot rest = rest :=
      ih (fun pre post hh => h (c :: pre) post (by rw [hh]; rfl))
    have hside : ∀ r : List Char, c = '.' → rest = '.' :: r → False := by
      intro r h1 h2
      exact h [] r (by rw [h1, h2]; rfl)
    rw [replaceDotDot.eq_2 c rest hside, hrest]

theorem replaceSpaces_eq_self (l : List Char) (h : ' ' ∉ l) : replaceSpaces l = l := by
  unfold replaceSpaces
  induction l with
  | nil => rfl
  | cons a t ih =>
    simp only [List.mem_cons, not_or] at h
    rw [List.map_cons, ih h.2]
    have : ¬ a = ' ' := fun hh => h.1 hh.symm
    simp [this]

end Go

namespace Handlers

open Go Entities DocumentsUC Fixture

/-- Go `sanitizeFilename` returns a name as it is when the name is not empty, at most 100
characters long, made of the kept characters and free of two dots in a row. -/
theorem sanitizeFilename_clean (stem : String)
    (hal : ∀ c ∈ stem.data, allowedRune c = true)
    (hdd : ∀ pre post, stem.data ≠ pre ++ '.' :: '.' :: post)
    (hne : stem.data ≠ []) (hlen : stem.data.length ≤ 100) : sanitizeFilename stem = stem := by
  have hts : TrimSpace stem = stem := by
    apply TrimSpace_eq_self
    · intro c hc
      exact (allowedRune_props c (hal c (List.mem_of_mem_head? hc))).1
    · intro c hc
      exact (allowedRune_props c (hal c (List.mem_of_mem_getLast? hc))).1
  have hsp : ' ' ∉ stem.data := by
    intro hm
    have := (allowedRune_props ' ' (hal ' ' hm)).1
    revert this
    decide
  have hmap : ∀ l : List Char, (∀ c ∈ l, allowedRune c = true) →
      l.map (fun r => if allowedRune r = true then r else '_') = l := by
    intro l
    induction l with
    | nil => intro _; rfl
    | cons a t ih =>
      intro h
      rw [List.map_cons, ih (fun c hc => h c (List.mem_cons_of_mem a hc))]
      simp [h a (List.mem_cons_self a t)]
  unfold sanitizeFilename
  simp only [hts, replaceSpaces_eq_self stem.data hsp, replaceDotDot_eq_self stem.data hdd,
    hmap stem.data hal]
  rw [if_neg hne, if_neg (by omega)]

/-- C17: the storage key is `owner/ownerID/base_ts ext`, where `owner` is the owner type
with every character replaced by its lower-case counterpart (for ASCII: `A`..`Z` moved to
`a`..`z`, everything else kept), `base` is `sanitizeFilename` of the file name without its
extension (never empty, at most 100 bytes, made of `a-z`, `A-Z`, `0-9`, `-`, `_`, `.` only,
and the stem itself when the stem already has that form), `ts` is the instant printed as
`YYYYMMDD'T'hhmmss'Z'` (14 digits that read back as the fields of the instant, around a `T`
and before a `Z`), and `ext` is the lower-cased extension of the file name: the part from
the last dot of its last path element on, empty exactly when that element has no dot. -/
theorem buildObjectKey_format (now : Instant) (ownerType ownerID filename : String)
    (hy : now.year < 10000) (hmo : now.month < 100) (hd : now.day < 100)
    (hh : now.hour < 100) (hmi : now.minute < 100) (hs : now.second < 100) :
    ∃ owner stem extension base ts ext : String,
      buildObjectKey now ownerType ownerID filename =
        owner ++ "/" ++ ownerID ++ "/" ++ base ++ "_" ++ ts ++ ext ∧
      owner.data = ownerType.data.map unicodeToLower ∧
      ext.data = extension.data.map unicodeToLower ∧
      (∀ c : Char, c.toNat < 128 →
        unicodeToLower c =
          if 65 ≤ c.toNat ∧ c.toNat ≤ 90 then Char.ofNat (c.toNat + 32) else c) ∧
      stem.data ++ extension.data = filename.data ∧
      (extension.data = [] ∨ ∃ r, extension.data = '.' :: r ∧ '.' ∉ r ∧ '/' ∉ r) ∧
      (extension.data = [] →
        ∀ pre post, filename.data = pre ++ post → '/' ∉ post → '.' ∉ post) ∧
      base = sanitizeFilename stem ∧
      base ≠ "" ∧ base.utf8ByteSize ≤ 100 ∧
      (∀ c ∈ base.data,
        c ∈ "abcdefghijklmnopqrstuvwxyzABCDEFGHIJKLMNOPQRSTUVWXYZ0123456789-_.".data) ∧
      ((∀ c ∈ stem.data,
          c ∈ "abcdefghijklmnopqrstuvwxyzABCDEFGHIJKLMNOPQRSTUVWXYZ0123456789-_.".data) →
        (∀ pre post, stem.data ≠ pre ++ '.' :: '.' :: post) →
        stem.data ≠ [] → stem.data.length ≤ 100 → base = stem) ∧
      ts.data.length = 16 ∧ ts.data[8]? = some 'T' ∧ ts.data[15]? = some 'Z' ∧
      (∀ i, i < 16 → i ≠ 8 → i ≠ 15 → ∃ c, ts.data[i]? = some c ∧ c.isDigit = true) ∧
      decimalValue (ts.data.take 4) = now.year ∧
      decimalValue ((ts.data.drop 4).take 2) = now.month ∧
      decimalValue ((ts.data.drop 6).take 2) = now.day ∧
      decimalValue ((ts.data.drop 9).take 2) = now.hour ∧
      decimalValue ((ts.data.drop 11).take 2) = now.minute ∧
      decimalValue ((ts.data.drop 13).take 2) = now.second := by
  refine ⟨ToLower ownerType, TrimSuffix filename (Ext filename), Ext filename,
    sanitizeFilename (TrimSuffix filename (Ext filename)), now.Format, ToLower (Ext filename),
    rfl, rfl, rfl, unicodeToLower_ascii, TrimSuffix_Ext filename, ?_, Ext_nil filename, rfl,
    fun h => sanitizeFilename_ne_nil _ (by rw [h]), ?_, ?_, ?_,
    Format_length now, by simp [Instant.Format, pad2], by simp [Instant.Format, pad2], ?_, ?_,
    ?_, ?_, ?_, ?_, ?_⟩
  · rcases Ext_spec filename with h | ⟨stem, r, -, h1, h2, h3⟩
    · exact Or.inl h
    · exact Or.inr ⟨r, h3, h1, h2⟩
  · rw [sanitizeFilename_utf8ByteSize]; exact sanitizeFilename_length _
  · intro c hc
    exact (allowedRune_iff c).mp (sanitizeFilename_allowed _ c hc)
  · intro hal hdd hne hlen
    exact sanitizeFilename_clean _ (fun c hc => (allowedRune_iff c).mpr (hal c hc)) hdd hne hlen
  · intro i hi h8 h15
    interval_cases i <;>
      first
      | exact absurd rfl h8
      | exact absurd rfl h15
      | exact ⟨_, rfl, digit_isDigit _⟩
  · simp only [Instant.Format, pad2, List.cons_append, List.nil_append, List.take, decimalValue,
      List.foldl, digit_toNat]
    omega
  · have := decimalValue_pad2 now.month hmo
    simpa [Instant.Format, pad2] using this
  · have := decimalValue_pad2 now.day hd
    simpa [Instant.Format, pad2] using this
  · have := decimalValue_pad2 now.hour hh
    simpa [Instant.Format, pad2] using this
  · have := decimalValue_pad2 now.minute hmi
    simpa [Instant.Format, pad2] using this
  · have := decimalValue_pad2 now.second hs
    simpa [Instant.Format, pad2] using this

end Handlers

namespace Handlers

open Go Entities DocumentsUC Fixture

/-- C17 for the owner type `EMPLOYÉE` and the file name `Relatório  final..v2.JPEG` of
`ownerE1` at the instant `t0`: the owner type and the extension are lower-cased, the blanks
and the `ó` of the stem become underscores and its two dots one. -/
theorem buildObjectKey_format_witness :
    (t0.year < 10000 ∧ t0.month < 100 ∧ t0.day < 100 ∧ t0.hour < 100 ∧ t0.minute < 100 ∧
      t0.second < 100) ∧
    buildObjectKey t0 "EMPLOYÉE" ownerE1 "Relatório  final..v2.JPEG" =
      "employée/11111111-1111-4111-8111-111111111111/Relat_rio__final.v2_20250314T092653Z.jpeg" ∧
    ∃ owner stem extension base ts ext : String,
      buildObjectKey t0 "EMPLOYÉE" ownerE1 "Relatório  final..v2.JPEG" =
        owner ++ "/" ++ ownerE1 ++ "/" ++ base ++ "_" ++ ts ++ ext ∧
      owner.data = "EMPLOYÉE".data.map unicodeToLower ∧
      ext.data = extension.data.map unicodeToLower ∧
      (∀ c : Char, c.toNat < 128 →
        unicodeToLower c =
          if 65 ≤ c.toNat ∧ c.toNat ≤ 90 then Char.ofNat (c.toNat + 32) else c) ∧
      stem.data ++ extension.data = "Relatório  final..v2.JPEG".data ∧
      (extension.data = [] ∨ ∃ r, extension.data = '.' :: r ∧ '.' ∉ r ∧ '/' ∉ r) ∧
      (extension.data = [] →
        ∀ pre post, "Relatório  final..v2.JPEG".data = pre ++ post → '/' ∉ post → '.' ∉ post) ∧
      base = sanitizeFilename stem ∧
      base ≠ "" ∧ base.utf8ByteSize ≤ 100 ∧
      (∀ c ∈ base.data,
        c ∈ "abcdefghijklmnopqrstuvwxyzABCDEFGHIJKLMNOPQRSTUVWXYZ0123456789-_.".data) ∧
      ((∀ c ∈ stem.data,
          c ∈ "abcdefghijklmnopqrstuvwxyzABCDEFGHIJKLMNOPQRSTUVWXYZ0123456789-_.".data) →
        (∀ pre post, stem.data ≠ pre ++ '.' :: '.' :: post) →
        stem.data ≠ [] → stem.data.length ≤ 100 → base = stem) ∧
      ts.data.length = 16 ∧ ts.data[8]? = some 'T' ∧ ts.data[15]? = some 'Z' ∧
      (∀ i, i < 16 → i ≠ 8 → i ≠ 15 → ∃ c, ts.data[i]? = some c ∧ c.isDigit = true) ∧
      decimalValue (ts.data.take 4) = t0.year ∧
      decimalValue ((ts.data.drop 4).take 2) = t0.month ∧
      decimalValue ((ts.data.drop 6).take 2) = t0.day ∧
      decimalValue ((ts.data.drop 9).take 2) = t0.hour ∧
      decimalValue ((ts.data.drop 11).take 2) = t0.minute ∧
      decimalValue ((ts.data.drop 13).take 2) = t0.second :=
  ⟨by decide, by decide,
    buildObjectKey_format t0 "EMPLOYÉE" ownerE1 "Relatório  final..v2.JPEG" (by decide)
      (by decide) (by decide) (by decide) (by decide) (by decide)⟩

end Handlers
